import Mathlib

/-!
# ra-ra: strided views, subscript selection and the `ply_ravel` traversal

A shallow embedding of the dope-vector algebra of `ra/big.hh` (`Dim`, `Indexer1`, `filldim`,
`select`, `select_loop`, `View::operator()`, `View::at`, `cell_iterator`, `is_c_order`,
`Container`) and of the traversals of `ra/ply.hh` (`ply_ravel`, `plyf`, `ply`,
`ply_ravel_exit`, `early`), followed by theorems about them.

Conventions of the embedding:

* `dim_t` (`ssize_t`) and `rank_t` (`int`) are mathematical integers: a function is embedded
  as it computes while no result leaves the range of its type. `select` on a slice and
  `proddim` are embedded a second time with the arithmetic of `dim_t` at its width
  (`select_iota_wrap`, `proddim_wrap`, `View.size_wrap`: 64 bits, two's complement,
  `wrap_dim`); what they do beyond the range is stated of these, and within the range the
  two embeddings agree.
* A pointer into the element buffer is an integer address; memory is a function from
  addresses to elements.
* A pointer into a dope vector is the dope vector (a list) together with a cursor.
* A failed `RA_CHECK` or `assert` is `Error.check`; an access outside a dope vector
  (undefined behaviour in the source) is `Error.ub`.
* The store of a `Container` is the number of its elements; the address of its data is
  chosen by the allocator and is a parameter of the operations that fetch it.
* Where a theorem speaks of the calls or accesses a function makes, a second embedding of
  the function records them (`ply_ravel_adv`, `subscript_core_acc`) and is proved to agree
  with the first.
* Where the source leaves the evaluation order of the operands of `+` open
  (`select(...) + select_loop(...)`), the embedding evaluates left to right.
-/

namespace ra

/-! ## bootstrap.hh -/

/-- The types `rank_t` (`int`) and `dim_t` (`ssize_t`): both are `Int` throughout the embedding. -/
abbrev rank_t := Int

/-- See `rank_t`. -/
abbrev dim_t := Int

/-- The value a `dim_t` (`ssize_t`: 64 bits, two's complement) holds after an arithmetic
operation whose result over the integers is `x`: `x` reduced modulo `2^64` into
`[-2^63, 2^63)`. -/
def wrap_dim (x : Int) : Int := (x + 2 ^ 63) % 2 ^ 64 - 2 ^ 63

/-- An integer within the range of `dim_t`. -/
def fits_dim (x : Int) : Prop := -2 ^ 63 ≤ x ∧ x < 2 ^ 63

instance (x : Int) : Decidable (fits_dim x) := by
  unfold fits_dim; infer_instance


def DIM_ANY : Int := -1099999444
def DIM_BAD : Int := -1099999888
def RANK_ANY : Int := -1099999444
def RANK_BAD : Int := -1099999888

/-- Two-argument `inside(i, b)`: `i>=0 && i<b`. -/
def inside (i b : Int) : Bool := decide (i ≥ 0) && decide (i < b)

/-- Outcome of a failed run. `fuel` is an artefact of the embedding of the unbounded
`for (;;)` of `ply_ravel`, which the embedding runs for at most `ply_fuel` iterations;
`ply_ravel_spec` shows that this bound is not reached when the sizes are non-negative. -/
inductive Error where
  | check
  | ub
  | fuel
deriving DecidableEq, Repr

abbrev Res := Except Error

deriving instance DecidableEq for Except

/-- Read `l[k]` through a pointer; outside the array the behaviour is undefined. -/
def rd {α : Type} (l : List α) (k : Nat) : Res α :=
  match l[k]? with
  | some x => .ok x
  | none => .error .ub

/-- Write `l[k] = x` through a pointer; outside the array the behaviour is undefined. -/
def wr {α : Type} (l : List α) (k : Nat) (x : α) : Res (List α) :=
  if k < l.length then .ok (l.set k x) else .error .ub

/-- Read at a signed position. -/
def rdI {α : Type} (l : List α) (k : Int) : Res α :=
  if k < 0 then .error .ub else rd l k.toNat

/-- Write at a signed position. -/
def wrI {α : Type} (l : List α) (k : Int) (x : α) : Res (List α) :=
  if k < 0 then .error .ub else wr l k.toNat x

/-- Modelled from the spec: `dependent_cell_rank` is declared in a header that is not part
of the sources at hand. A non-negative cell-rank spec is the cell rank; a negative one
counts from the full rank downward. -/
def dependent_cell_rank (rank crank : Int) : Int :=
  if crank ≥ 0 then crank else rank + crank

/-- Modelled from the spec: `dependent_frame_rank` is declared in a header that is not part
of the sources at hand. Frame rank and cell rank sum to the full rank. -/
def dependent_frame_rank (rank crank : Int) : Int :=
  rank - dependent_cell_rank rank crank

/-! ## big.hh: dope vectors and indexing -/

/-- Dope vector element. -/
structure Dim where
  size : Int
  stride : Int
deriving DecidableEq, Repr

/-- A view: dope vector and data pointer. The same structure stands for `View<T, RANK>`
(where `dim` has length `RANK`) and for `View<T, RANK_ANY>`. -/
structure View where
  dim : List Dim
  p : Int
deriving DecidableEq, Repr

def View.rank (v : View) : Int := v.dim.length

/-- Loop of `proddim`: `for (; d!=dend; ++d) t *= (*d).size`, the products taken over the
integers. -/
def proddim_loop : List Dim → Int → Int
  | [], t => t
  | d :: ds, t => proddim_loop ds (t * d.size)

/-- The function `proddim` over the integers: what the source computes while the product
stays within the range of `dim_t`; `proddim_wrap` is the function at the width of `dim_t`. -/
def proddim (d : List Dim) : Int := proddim_loop d 1

/-- The member `View::size()` over the integers: the number of elements of the view;
`View.size_wrap` is the member at the width of `dim_t`. -/
def View.size (v : View) : Int := proddim v.dim

/-- Loop of `proddim`, `for (; d!=dend; ++d) t *= (*d).size`, with each product reduced to
the range of `dim_t`. -/
def proddim_wrap_loop : List Dim → Int → Int
  | [], t => t
  | d :: ds, t => proddim_wrap_loop ds (wrap_dim (t * d.size))

/-- The function `proddim` with the arithmetic of `dim_t` at its width. -/
def proddim_wrap (d : List Dim) : Int := proddim_wrap_loop d 1

/-- The member `View::size()` with the arithmetic of `dim_t` at its width. -/
def View.size_wrap (v : View) : Int := proddim_wrap v.dim

/-- The `for_each` of `Indexer1::index_p` over `ptr(dim.data())` and `p`: the multi-index
drives the iteration, the dope vector is read through a raw pointer. -/
def index_p_loop : List Dim → List Int → Int → Res Int
  | _, [], c => .ok c
  | [], _ :: _, _ => .error .ub
  | d :: ds, p :: ps, c =>
    if inside p d.size then index_p_loop ds ps (c + d.stride * p) else .error .check

def Indexer1.index_p (dim : List Dim) (p : List Int) : Res Int :=
  if (dim.length : Int) ≥ p.length then index_p_loop dim p 0 else .error .check

/-- The loop `for (rank_t k=0; k<framer; ++k)` of `Indexer1::index_short`, run for `n`
iterations from `k`. -/
def index_short_loop (dim : List Dim) (p : List Int) : Nat → Int → Int → Res Int
  | 0, _, c => .ok c
  | n + 1, k, c => do
    let pk ← rdI p k
    let dk ← rdI dim k
    if inside pk dk.size || (decide (dk.size = DIM_BAD) && decide (dk.stride = 0)) then
      index_short_loop dim p n (k + 1) (c + dk.stride * pk)
    else .error .check

def Indexer1.index_short (framer : Int) (dim : List Dim) (p : List Int) : Res Int :=
  index_short_loop dim p framer.toNat 0 0

/-- The loop of `filldim`, run for `n` iterations with the iterator `dend` at position `dend`
of the dope vector:
`for (; n>0; --n) { --dend; RA_CHECK((*dend).size>=0); (*dend).stride = next; next *= (*dend).size; }`.
The result is `next` and the dope vector after the writes. -/
def filldim_loop : Nat → List Dim → Nat → Int → Res (Int × List Dim)
  | 0, dim, _, next => .ok (next, dim)
  | n + 1, dim, dend, next =>
    if dend = 0 then .error .ub
    else do
      let d ← rd dim (dend - 1)
      if d.size ≥ 0 then
        let dim1 ← wr dim (dend - 1) { d with stride := next }
        filldim_loop n dim1 (dend - 1) (next * d.size)
      else .error .check

/-- The function `filldim(int n, D dend)`. -/
def filldim (n : Int) (dim : List Dim) (dend : Nat) : Res (Int × List Dim) :=
  filldim_loop n.toNat dim dend 1

/-- The constructor `View(SS && s, T * p_)` for a shape `s` of sizes: the dope vector is
resized to the length of `s` (value-initialised), takes its sizes from `s`, and gets its
strides from `filldim(dim.size(), dim.end())`. -/
def View.of_shape (s : List Int) (p_ : Int) : Res View := do
  let dim : List Dim := s.map fun sz => { size := sz, stride := 0 }
  let (_, dim1) ← filldim dim.length dim dim.length
  .ok { dim := dim1, p := p_ }

/-! ## big.hh: subscript selection -/

/-- The fields of `ra::Iota` that `select` reads: origin `i_`, length `size_`, step
`stride_`. -/
structure Iota where
  i_ : Int
  size_ : Int
  stride_ : Int
deriving DecidableEq, Repr

/-- The beatable index kinds: an integer, an `Iota`, `dots_t<n>` and `insert_t<n>`
(`n>=0` by their `static_assert`). -/
inductive Index where
  | int (i : Int)
  | iota (i : Iota)
  | dots (n : Nat)
  | insert (n : Nat)
deriving DecidableEq, Repr

/-- Modelled from the spec: `is_beatable<I>::skip` is declared in a header that is not part
of the sources at hand. It is the number of output dimensions an index produces: none for
an integer, one for a slice, `n` for "keep n" and for "insert n". -/
def is_beatable.skip : Index → Nat
  | .int _ => 0
  | .iota _ => 1
  | .dots n => n
  | .insert n => n

/-- Modelled from the spec: `is_beatable<I>::skip_src` is declared in a header that is not
part of the sources at hand. It is the number of source dimensions an index consumes: one
for an integer and for a slice, `n` for "keep n", none for "insert n". -/
def is_beatable.skip_src : Index → Nat
  | .int _ => 1
  | .iota _ => 1
  | .dots n => n
  | .insert _ => 0

/-- A destination dope vector under construction: `none` is an entry not written yet. -/
abbrev DimBuf := List (Option Dim)

/-- The overload `select(Dim * dim, Dim const * dim_src, Int i)`. -/
def select_int (dim_src : List Dim) (s : Nat) (i : Int) : Res Int := do
  let src ← rd dim_src s
  if inside i src.size then .ok (src.stride * i) else .error .check

/-- The overload `select(Dim * dim, Dim const * dim_src, ra::Iota<II> i)` over the integers:
what the source computes while `i.i_+(i.size_-1)*i.stride_` and the two products stay within
the range of `dim_t`; `select_iota_wrap` is the overload at the width of `dim_t`. -/
def select_iota (dim : DimBuf) (d : Nat) (dim_src : List Dim) (s : Nat) (i : Iota) :
    Res (Int × DimBuf) := do
  let src ← rd dim_src s
  if (inside i.i_ src.size && inside (i.i_ + (i.size_ - 1) * i.stride_) src.size)
      || (decide (i.size_ = 0) && decide (i.i_ ≤ src.size)) then
    let dim1 ← wr dim d (some { size := i.size_, stride := src.stride * i.stride_ })
    .ok (src.stride * i.i_, dim1)
  else .error .check

/-- The overload `select(Dim * dim, Dim const * dim_src, ra::Iota<II> i)` with the arithmetic
of `dim_t` at its width: each of `i.size_-1`, `(i.size_-1)*i.stride_`,
`i.i_+(i.size_-1)*i.stride_`, `dim_src->stride * i.stride_` and `dim_src->stride*i.i_` is
reduced to the range of `dim_t`. -/
def select_iota_wrap (dim : DimBuf) (d : Nat) (dim_src : List Dim) (s : Nat) (i : Iota) :
    Res (Int × DimBuf) := do
  let src ← rd dim_src s
  if (inside i.i_ src.size
        && inside (wrap_dim (i.i_ + wrap_dim (wrap_dim (i.size_ - 1) * i.stride_))) src.size)
      || (decide (i.size_ = 0) && decide (i.i_ ≤ src.size)) then
    let dim1 ← wr dim d (some { size := i.size_, stride := wrap_dim (src.stride * i.stride_) })
    .ok (wrap_dim (src.stride * i.i_), dim1)
  else .error .check

/-- The loop of the `dots_t<n>` overload:
`for (Dim * end = dim+n; dim!=end; ++dim, ++dim_src) *dim = *dim_src`. -/
def dots_loop (dim_src : List Dim) : Nat → DimBuf → Nat → Nat → Res DimBuf
  | 0, dim, _, _ => .ok dim
  | n + 1, dim, d, s => do
    let x ← rd dim_src s
    let dim1 ← wr dim d (some x)
    dots_loop dim_src n dim1 (d + 1) (s + 1)

/-- The loop of the `insert_t<n>` overload:
`for (Dim * end = dim+n; dim!=end; ++dim) { dim->size = DIM_BAD; dim->stride = 0; }`. -/
def insert_loop : Nat → DimBuf → Nat → Res DimBuf
  | 0, dim, _ => .ok dim
  | n + 1, dim, d => do
    let dim1 ← wr dim d (some { size := DIM_BAD, stride := 0 })
    insert_loop n dim1 (d + 1)

/-- The overloads of `select_loop` in one function over the index list. `dim` with cursor `d`
is the destination pointer, `dim_src` with cursor `s` the source pointer. The result is
the offset and the destination after the writes. -/
def select_loop (dim_src : List Dim) : List Index → DimBuf → Nat → Nat → Res (Int × DimBuf)
  | [], dim, _, _ => .ok (0, dim)
  | .dots n :: rest, dim, d, s => do
    let dim1 ← dots_loop dim_src n dim d s
    select_loop dim_src rest dim1 (d + n) (s + n)
  | .insert n :: rest, dim, d, s => do
    let dim1 ← insert_loop n dim d
    select_loop dim_src rest dim1 (d + n) s
  | .int i :: rest, dim, d, s => do
    let o ← select_int dim_src s i
    let (o1, dim2) ← select_loop dim_src rest dim
      (d + is_beatable.skip (.int i)) (s + is_beatable.skip_src (.int i))
    .ok (o + o1, dim2)
  | .iota i :: rest, dim, d, s => do
    let (o, dim1) ← select_iota dim d dim_src s i
    let (o1, dim2) ← select_loop dim_src rest dim1
      (d + is_beatable.skip (.iota i)) (s + is_beatable.skip_src (.iota i))
    .ok (o + o1, dim2)

/-- The fold `(0 + ... + (is_beatable<I>::skip - is_beatable<I>::skip_src))`. -/
def extended (i : List Index) : Int :=
  (i.map fun x => (is_beatable.skip x : Int) - (is_beatable.skip_src x : Int)).sum

/-- The fold `(0 + ... + is_beatable<I>::skip)`. -/
def skip_sum (i : List Index) : Nat := (i.map is_beatable.skip).sum

/-- The loop that fills the rest of the result:
`for (int i=...; i<subrank; ++i) sub.dim[i] = this->dim[i-extended]`, run for `n`
iterations from `i`. -/
def fill_rest (dim_src : List Dim) (ext : Int) : Nat → Int → DimBuf → Res DimBuf
  | 0, _, sub => .ok sub
  | n + 1, i, sub => do
    let x ← rdI dim_src (i - ext)
    let sub1 ← wrI sub i (some x)
    fill_rest dim_src ext n (i + 1) sub1

/-- The part common to both `operator()` of beatable subscripts: `select_loop` into a fresh
result of rank `subrank`, then the loop over the rest. -/
def subscript_core (v : View) (i : List Index) (subrank : Int) : Res (Int × DimBuf) := do
  let sub : DimBuf := List.replicate subrank.toNat none
  let (off, sub1) ← select_loop v.dim i sub 0 0
  let sub2 ← fill_rest v.dim (extended i) (subrank - skip_sum i).toNat (skip_sum i) sub1
  .ok (off, sub2)

/-- The operator `View<T, RANK_ANY>::operator()(I && ... i)` for beatable subscripts.
`sub.dim.resize` value-initialises, so that an entry never written reads `{0, 0}`. -/
def View.call (v : View) (i : List Index) : Res View := do
  if v.rank + extended i < 0 then .error .check
  else
    let (off, sub) ← subscript_core v i (v.rank + extended i)
    .ok { dim := sub.map fun x => x.getD { size := 0, stride := 0 }, p := v.p + off }

/-- All entries of a destination, when every one has been written. -/
def DimBuf.written : DimBuf → Option (List Dim)
  | [] => some []
  | none :: _ => none
  | some x :: rest => (DimBuf.written rest).map (x :: ·)

/-- The operator `View<T, RANK>::operator()(I && ... i)` of fixed rank for beatable
subscripts, the overload selected when fewer than `RANK` subscripts are integers. A negative
`subrank` is rejected by the `static_assert`. The result is default-constructed, so that an
entry never written is indeterminate. -/
def View.call_fixed (v : View) (i : List Index) : Res View := do
  if v.rank + extended i < 0 then .error .check
  else
    let (off, sub) ← subscript_core v i (v.rank + extended i)
    match DimBuf.written sub with
    | some dim => .ok { dim := dim, p := v.p + off }
    | none => .error .ub

/-- The operator `View<T, RANK>::operator()(I const & ... i)` selected when `RANK` subscripts
are integers: `data()[select_loop(nullptr, this->dim.data(), i ...)]`. -/
def View.call_scalar {α : Type} (mem : Int → α) (v : View) (i : List Int) : Res α := do
  let (off, _) ← select_loop v.dim (i.map Index.int) [] 0 0
  .ok (mem (v.p + off))

/-! ## big.hh: cell_iterator -/

/-- The iterator `cell_iterator<V, cellr_spec>`: the dope vector `dim` of the whole view and
the cell `c`. -/
structure cell_iterator where
  dim : List Dim
  cellr_spec : Int
  c : View
deriving DecidableEq, Repr

def cell_iterator.rank (a : cell_iterator) : Int :=
  dependent_frame_rank a.dim.length a.cellr_spec

/-- The loop of the constructor: `for (int k=0; k<cellr; ++k) c.dim[k] = dim_[k+rank]`, run
for `n` iterations from `k`. -/
def cell_dim_loop (dim_ : List Dim) (rank : Int) : Nat → Int → List Dim → Res (List Dim)
  | 0, _, cdim => .ok cdim
  | n + 1, k, cdim => do
    let x ← rdI dim_ (k + rank)
    let cdim1 ← wrI cdim k x
    cell_dim_loop dim_ rank n (k + 1) cdim1

/-- The constructor `cell_iterator(Dimv const & dim_, atom_type * p_)`. A negative cell rank
cannot be the size of `c.dim`. -/
def cell_iterator.make (dim_ : List Dim) (cellr_spec : Int) (p_ : Int) : Res cell_iterator := do
  let rank := dependent_frame_rank dim_.length cellr_spec
  let cellr := dependent_cell_rank dim_.length cellr_spec
  if cellr < 0 then .error .check
  else
    let cdim ← cell_dim_loop dim_ rank cellr.toNat 0
      (List.replicate cellr.toNat { size := 0, stride := 0 })
    .ok { dim := dim_, cellr_spec := cellr_spec, c := { dim := cdim, p := p_ } }

/-- The member `View::iter<c>()`. -/
def View.iter (v : View) (c : Int) : Res cell_iterator :=
  cell_iterator.make v.dim c v.p

def cell_iterator.size (a : cell_iterator) (k : Int) : Res Int :=
  if inside k a.rank then (rdI a.dim k).map Dim.size else .error .check

def cell_iterator.stride (a : cell_iterator) (k : Int) : Res Int :=
  if k < a.rank then (rdI a.dim k).map Dim.stride else .ok 0

def cell_iterator.keep_stride (a : cell_iterator) (st : Int) (z j : Int) : Res Bool := do
  let sz ← a.stride z
  let sj ← a.stride j
  .ok (decide (st * sz = sj))

def cell_iterator.adv (a : cell_iterator) (k : Int) (d : Int) : Res cell_iterator := do
  let sk ← a.stride k
  .ok { a with c := { a.c with p := a.c.p + sk * d } }

/-- The position `flat()` starts at: `c.p` itself for cell rank 0, and the pointer of the
cell that `CellFlat` carries otherwise. -/
def cell_iterator.flat (a : cell_iterator) : Int := a.c.p

/-! ## ply.hh: ply_ravel -/

/-- The array `order`: `order[i] = rank-1-i`. -/
def ply_order (rank : Nat) : List Int :=
  (List.range rank).map fun (i : Nat) => (rank : Int) - 1 - (i : Int)

/-- The loop that finds the outermost compact dim,
`for (--rank, ++ocd; rank>0 && a.keep_stride(ss, order[0], *ocd); --rank, ++ocd) ss *= a.size(*ocd)`,
from the values of `rank`, `ocd` and `ss` after its init statement. -/
def ply_fuse (a : cell_iterator) (order : List Int) : Nat → Nat → Int → Res (Nat × Nat × Int)
  | 0, ocd, ss => .ok (0, ocd, ss)
  | rank + 1, ocd, ss => do
    let o0 ← rd order 0
    let oc ← rd order ocd
    if ← a.keep_stride ss o0 oc then
      let sz ← a.size oc
      ply_fuse a order rank (ocd + 1) (ss * sz)
    else .ok (rank + 1, ocd, ss)

/-- The loop that fills `sha`, run for `n` iterations from `k`; `none` is the early `return`
on a size of zero. -/
def ply_sha (a : cell_iterator) (order : List Int) (ocd : Nat) :
    Nat → Nat → Res (Option (List Int))
  | 0, _ => .ok (some [])
  | n + 1, k => do
    let ax ← rd order (ocd + k)
    let s ← a.size ax
    if s = 0 then .ok none
    else if s = DIM_BAD then .error .check
    else
      match ← ply_sha a order ocd n (k + 1) with
      | none => .ok none
      | some rest => .ok (some (s :: rest))

/-- The inner loop `for (auto p=a.flat(); s>0; --s, p+=ss0) *p`, run for `s` iterations from
`p`: the addresses at which the operation is applied. -/
def ply_inner (ss0 : Int) : Nat → Int → List Int
  | 0, _ => []
  | s + 1, p => p :: ply_inner ss0 s (p + ss0)

/-- The odometer `for (int k=0; ; ++k)`, from position `k`, with `sha` and `ind` from
position `k` on. The flag is false when `k>=rank` was reached (the `return`). -/
def ply_carry (order : List Int) (ocd : Nat) :
    List Int → List Int → Nat → cell_iterator → Res (cell_iterator × List Int × Bool)
  | [], _, _, a => .ok (a, [], false)
  | _ :: _, [], _, _ => .error .ub
  | s :: sha, i :: ind, k, a => do
    let ax ← rd order (ocd + k)
    if i < s - 1 then
      let a1 ← a.adv ax 1
      .ok (a1, (i + 1) :: ind, true)
    else
      let a1 ← a.adv ax (1 - s)
      let (a2, ind1, go) ← ply_carry order ocd sha ind (k + 1) a1
      .ok (a2, 0 :: ind1, go)

/-- The loop `for (;;)` of `ply_ravel`, bounded by `fuel` iterations. The result is the
iterator at the end and the addresses visited. -/
def ply_loop (order : List Int) (ocd : Nat) (sha : List Int) (ss ss0 : Int) :
    Nat → cell_iterator → List Int → Res (cell_iterator × List Int)
  | 0, _, _ => .error .fuel
  | fuel + 1, a, ind => do
    let run := ply_inner ss0 ss.toNat a.flat
    let (a1, ind1, go) ← ply_carry order ocd sha ind 0 a
    if go then
      let (a2, rest) ← ply_loop order ocd sha ss ss0 fuel a1 ind1
      .ok (a2, run ++ rest)
    else .ok (a1, run)

/-- A bound on the number of iterations of the loop of `ply_ravel`: an axis of size `s` is
stepped through `max s 1` positions. -/
def ply_fuel (sha : List Int) : Nat := (sha.map fun s => (max s 1).toNat).prod

/-- The function `ply_ravel(A && a)` for a `cell_iterator`. The result is the iterator at the
end and the addresses at which the operation was applied, in order. -/
def ply_ravel (a : cell_iterator) : Res (cell_iterator × List Int) := do
  if a.rank < 0 then .error .check
  else
    let rank := a.rank.toNat
    let order := ply_order rank
    if rank = 0 then .ok (a, [a.flat])
    else
      let o0 ← rd order 0
      let ss ← a.size o0
      let (rank1, ocd, ss1) ← ply_fuse a order (rank - 1) 1 ss
      match ← ply_sha a order ocd rank1 0 with
      | none => .ok (a, [])
      | some sha =>
        let ind : List Int := List.replicate rank1 0
        let ss0 ← a.stride o0
        ply_loop order ocd sha ss1 ss0 (ply_fuel sha) a ind

/-! ## ply.hh: plyf and ply -/

/-- The inner loop of `ply_ravel_exit`,
`for (auto p=a.flat(); s>0; --s, p+=ss0) { if (auto what = *p; std::get<0>(what)) return std::get<1>(what); }`,
run for `s` iterations from `p`; `op` is the application `*p` of the operation at an
address. The result is the value returned, if the loop returns, and the addresses at which
the operation was applied. -/
def ply_inner_exit {β : Type} (op : Int → Bool × β) (ss0 : Int) : Nat → Int → Option β × List Int
  | 0, _ => (none, [])
  | s + 1, p =>
    let what := op p
    if what.1 then (some what.2, [p])
    else
      let r := ply_inner_exit op ss0 s (p + ss0)
      (r.1, p :: r.2)

/-- The loop `for (;;)` of `ply_ravel_exit`, bounded by `fuel` iterations; the odometer is
the one of `ply_ravel`, written out a second time in the source. The result is the value
returned and the addresses at which the operation was applied. -/
def ply_loop_exit {β : Type} (op : Int → Bool × β) (dflt : β) (order : List Int) (ocd : Nat)
    (sha : List Int) (ss ss0 : Int) : Nat → cell_iterator → List Int → Res (β × List Int)
  | 0, _, _ => .error .fuel
  | fuel + 1, a, ind =>
    match ply_inner_exit op ss0 ss.toNat a.flat with
    | (some v, tr) => .ok (v, tr)
    | (none, tr) => do
      let (a1, ind1, go) ← ply_carry order ocd sha ind 0 a
      if go then
        let (v, rest) ← ply_loop_exit op dflt order ocd sha ss ss0 fuel a1 ind1
        .ok (v, tr ++ rest)
      else .ok (dflt, tr)

/-- The function `ply_ravel_exit(A && a, DEF && def)` for a `cell_iterator`; the loops before
the `for (;;)` are those of `ply_ravel`, written out a second time in the source. The
result is the value returned and the addresses at which the operation was applied, in
order. -/
def ply_ravel_exit {β : Type} (op : Int → Bool × β) (a : cell_iterator) (dflt : β) :
    Res (β × List Int) := do
  if a.rank < 0 then .error .check
  else
    let rank := a.rank.toNat
    let order := ply_order rank
    if rank = 0 then
      let what := op a.flat
      if what.1 then .ok (what.2, [a.flat]) else .ok (dflt, [a.flat])
    else
      let o0 ← rd order 0
      let ss ← a.size o0
      let (rank1, ocd, ss1) ← ply_fuse a order (rank - 1) 1 ss
      match ← ply_sha a order ocd rank1 0 with
      | none => .ok (dflt, [])
      | some sha =>
        let ind : List Int := List.replicate rank1 0
        let ss0 ← a.stride o0
        ply_loop_exit op dflt order ocd sha ss1 ss0 (ply_fuel sha) a ind

/-- The non-negative integers below `n`, in increasing order. -/
def upto (n : Int) : List Int := (List.range n.toNat).map Int.ofNat

/-- Row-major order as the claims word it: the offsets `Σ_k stride[k]*idx[k]` over all
multi-indices `idx` with `0 <= idx[k] < size[k]`, in lexicographic order, the last axis
fastest. -/
def row_major_offsets : List Dim → List Int
  | [] => [0]
  | d :: ds => (upto d.size).flatMap fun i => (row_major_offsets ds).map fun o => d.stride * i + o

/-- Memory that holds the elements of `l` at the addresses `0, 1, ...`. -/
def mem_of (l : List Int) : Int → Int := fun a => if a < 0 then 0 else l.getD a.toNat 0

/-- The sum `Σ_k stride[k]*index[k]` over the positions both lists have. -/
def offset_sum (dim : List Dim) (p : List Int) : Int :=
  (List.zipWith (fun d i => d.stride * i) dim p).sum

/-- Every index lies within its axis: `0 <= p[k] < dim[k].size` for each position `k` that
both lists have. -/
def in_bounds (dim : List Dim) (p : List Int) : Prop :=
  ∀ x ∈ List.zip dim p, 0 ≤ x.2 ∧ x.2 < x.1.size

instance (dim : List Dim) (p : List Int) : Decidable (in_bounds dim p) := by
  unfold in_bounds; infer_instance

/-- The check of `select` on a slice, as the source writes it, over the integers: both ends
inside the axis, or an empty slice that starts at most at the size of the axis. -/
def Iota.accepted (i : Iota) (dsize : Int) : Prop :=
  ((0 ≤ i.i_ ∧ i.i_ < dsize) ∧
      (0 ≤ i.i_ + (i.size_ - 1) * i.stride_ ∧ i.i_ + (i.size_ - 1) * i.stride_ < dsize))
    ∨ (i.size_ = 0 ∧ i.i_ ≤ dsize)

instance (i : Iota) (dsize : Int) : Decidable (i.accepted dsize) := by
  unfold Iota.accepted; infer_instance

/-- The check on a slice as the claim words it: both ends inside the axis, or an empty slice
whose start lies within `[0, dsize]`. -/
def Iota.within (i : Iota) (dsize : Int) : Prop :=
  ((0 ≤ i.i_ ∧ i.i_ < dsize) ∧
      (0 ≤ i.i_ + (i.size_ - 1) * i.stride_ ∧ i.i_ + (i.size_ - 1) * i.stride_ < dsize))
    ∨ (i.size_ = 0 ∧ 0 ≤ i.i_ ∧ i.i_ ≤ dsize)

instance (i : Iota) (dsize : Int) : Decidable (i.within dsize) := by
  unfold Iota.within; infer_instance

/-- The fold `(0 + ... + is_beatable<I>::skip_src)`: the source dimensions a list of
subscripts consumes. -/
def skip_src_sum (i : List Index) : Nat := (i.map is_beatable.skip_src).sum

/-- What a list of accepted subscripts designates, in the words of the spec, from left to
right over the source dimensions still unconsumed: the offset, the dimensions the
subscripts produce, and the source dimensions left over. An integer within its axis adds
`stride*i` and produces nothing; an accepted slice adds `stride*start` and produces
`{size, stride*step}`; "keep n" passes `n` source dimensions on; "insert n" produces `n`
dimensions `{DIM_BAD, 0}` and consumes nothing. `none` when a subscript is not accepted or
the source dimensions run out. -/
def beat : List Dim → List Index → Option (Int × List Dim × List Dim)
  | src, [] => some (0, [], src)
  | [], .int _ :: _ => none
  | [], .iota _ :: _ => none
  | x :: src, .int i :: rest =>
    if 0 ≤ i ∧ i < x.size then
      (beat src rest).map fun r => (x.stride * i + r.1, r.2.1, r.2.2)
    else none
  | x :: src, .iota i :: rest =>
    if i.accepted x.size then
      (beat src rest).map fun r =>
        (x.stride * i.i_ + r.1, { size := i.size_, stride := x.stride * i.stride_ } :: r.2.1, r.2.2)
    else none
  | src, .dots n :: rest =>
    if n ≤ src.length then
      (beat (src.drop n) rest).map fun r => (r.1, src.take n ++ r.2.1, r.2.2)
    else none
  | src, .insert n :: rest =>
    (beat src rest).map fun r =>
      (r.1, List.replicate n { size := DIM_BAD, stride := 0 } ++ r.2.1, r.2.2)

/-- The number of integer subscripts of a list. -/
def num_int : List Index → Nat
  | [] => 0
  | .int _ :: rest => num_int rest + 1
  | _ :: rest => num_int rest

/-- The number of dimensions the "insert n" subscripts of a list insert. -/
def num_inserted : List Index → Nat
  | [] => 0
  | .insert n :: rest => num_inserted rest + n
  | _ :: rest => num_inserted rest

/-- The elements of a view in the order in which `ply_ravel` visits them. -/
def View.elements (mem : Int → Int) (v : View) : Res (List Int) := do
  let a ← v.iter 0
  let (_, tr) ← ply_ravel a
  .ok (tr.map mem)

/-- The product of the sizes of a list of dimensions. -/
def psize (l : List Dim) : Int := (l.map Dim.size).prod

/-- Each dimension of the list, outermost first, has the stride of a run of step `st0` over
the dimensions after it: `stride = (product of the sizes after it) * st0`. -/
def Fused (st0 : Int) : List Dim → Prop
  | [] => True
  | d :: rest => psize rest * st0 = d.stride ∧ Fused st0 rest

/-- The iterator moved to the address `q`. -/
def cell_iterator.setp (a : cell_iterator) (q : Int) : cell_iterator :=
  { a with c := { a.c with p := q } }

/-- The entries of `order` from position `pos` on name axes of the iterator whose sizes and
strides are those of the list of dimensions. -/
def AxesAt (a : cell_iterator) (order : List Int) : Nat → List Dim → Prop
  | _, [] => True
  | pos, d :: rest =>
    (∃ ax, rd order pos = .ok ax ∧ a.stride ax = .ok d.stride ∧ a.size ax = .ok d.size)
      ∧ AxesAt a order (pos + 1) rest

/-- An odometer reading within the sizes of the axes, fastest axis first. -/
def odo_valid : List Dim → List Int → Prop
  | [], [] => True
  | d :: ro, i :: ind => (0 ≤ i ∧ i < d.size) ∧ odo_valid ro ind
  | _, _ => False

/-- The odometer readings that follow `ind`, in the order the odometer steps through them;
fastest axis first. -/
def odo_after : List Dim → List Int → List (List Int)
  | d :: ro, i :: ind =>
    ((upto (d.size - 1 - i)).map fun j => (i + 1 + j) :: ind)
      ++ (odo_after ro ind).flatMap fun t => (upto d.size).map fun j => j :: t
  | _, _ => []

/-- All multi-indices `idx` with `0 <= idx[k] < size[k]`, in lexicographic order, the last axis
fastest. -/
def multi_indices : List Dim → List (List Int)
  | [] => [[]]
  | d :: ds => (upto d.size).flatMap fun i => (multi_indices ds).map fun t => i :: t

/-- Every index lies within its axis or the axis is the sentinel `{DIM_BAD, 0}` of an inserted
dimension, for each position that both lists have. -/
def in_bounds_or_sentinel (dim : List Dim) (p : List Int) : Prop :=
  ∀ x ∈ List.zip dim p, (0 ≤ x.2 ∧ x.2 < x.1.size) ∨ (x.1.size = DIM_BAD ∧ x.1.stride = 0)

instance (dim : List Dim) (p : List Int) : Decidable (in_bounds_or_sentinel dim p) := by
  unfold in_bounds_or_sentinel; infer_instance

/-- The dimensions with their sizes kept and the stride of each set to `next` times the
product of the sizes of the dimensions after it. -/
def fill_from (next : Int) : List Dim → List Dim
  | [] => []
  | d :: ds => { size := d.size, stride := next * psize ds } :: fill_from next ds

/-- Row-major strides: the sizes kept, the stride of each dimension the product of the sizes
of all dimensions after it. -/
def c_strides (l : List Dim) : List Dim := fill_from 1 l

/-- The walk over a list of addresses that applies `op` to each in turn and stops at the first
that reports found: the value found, if any, and the addresses at which `op` was applied. -/
def scan_found {β : Type} (op : Int → Bool × β) : List Int → Option β × List Int
  | [] => (none, [])
  | x :: xs =>
    if (op x).1 then (some (op x).2, [x])
    else ((scan_found op xs).1, x :: (scan_found op xs).2)

/-- The addresses of the elements of an iterator of cell rank 0 in row-major order:
`p + Σ_k stride[k]*idx[k]` over all multi-indices, the last axis fastest. -/
def row_major_addresses (a : cell_iterator) : List Int :=
  (multi_indices a.dim).map fun idx => a.c.p + offset_sum a.dim idx

/-- The function `rank_diff(a, b)` of `bootstrap.hh`. -/
def rank_diff (a b : Int) : Int :=
  if a = RANK_ANY then RANK_ANY else if b = RANK_ANY then RANK_ANY else a - b

/-- The member `View<T, RANK_ANY>::at(I && i)`:
`View { Dimv(dim.begin()+i.size(), dim.end()), data() + Indexer1::index_p(dim, i) }`. The
initialisers of a braced list are evaluated in order, so the dope vector is built first; with
more indices than dimensions its range is not valid. -/
def View.at (v : View) (i : List Int) : Res View :=
  if v.dim.length < i.length then .error .ub
  else do
    let dim := v.dim.drop i.length
    let off ← Indexer1.index_p v.dim i
    .ok { dim := dim, p := v.p + off }

/-- The member `View<T, RANK>::at(I && i)` of fixed rank; `size_s` is the static size
`ra::size_s<I>()` of the index, `DIM_ANY` when it is not known statically. With a static
size the result has `subrank` dimensions copied from position `ra::size(i)` on, and a
negative `subrank` is not the size of a `Small`. -/
def View.at_fixed (v : View) (size_s : Int) (i : List Int) : Res View :=
  let subrank := rank_diff v.rank size_s
  if subrank = RANK_ANY then
    if v.dim.length < i.length then .error .ub
    else do
      let dim := v.dim.drop i.length
      let off ← Indexer1.index_p v.dim i
      .ok { dim := dim, p := v.p + off }
  else if subrank < 0 then .error .check
  else do
    let dim := (v.dim.drop i.length).take subrank.toNat
    let off ← Indexer1.index_p v.dim i
    .ok { dim := dim, p := v.p + off }

/-! ## big.hh: `cell_iterator::at` and the shape of an iterator -/

/-- The member `cell_iterator::at(I const & i_)`. The function assigns to no member; the
result pairs the iterator after the call with the cell designated. For cell rank 0 the
source returns the element reference `c.p[...]`, which is the cell of rank 0 at that
address (`c.dim` is then empty). -/
def cell_iterator.at (a : cell_iterator) (i_ : List Int) : Res (cell_iterator × View) :=
  if a.rank ≤ (i_.length : Int) then do
    let off ← Indexer1.index_short a.rank a.dim i_
    .ok (a, { dim := a.c.dim, p := a.c.p + off })
  else .error .check

/-- Modelled from the spec: `ra::shape` is declared in a header that is not part of the
sources at hand. The shape of an iterator is the list of its sizes `size(k)` over the frame
axes `k` in `[0, rank())`. -/
def shape_from (a : cell_iterator) : Nat → Int → Res (List Int)
  | 0, _ => .ok []
  | n + 1, k => do
    let s ← a.size k
    let rest ← shape_from a n (k + 1)
    .ok (s :: rest)

/-- The shape of an iterator, see `shape_from`. -/
def cell_iterator.shape (a : cell_iterator) : Res (List Int) :=
  shape_from a a.rank.toNat 0

/-! ## Traversals that read and write -/

/-- Memory after the assignment `*p = x` at the address `p`. -/
def store_at (mem : Int → Int) (p : Int) (x : Int) : Int → Int :=
  fun q => if q = p then x else mem q

/-- The traversal `ply_ravel` with an operation that carries a state: the operation is
applied to the state at each address, in the order in which `ply_ravel` reaches them. -/
def ply_ravel_with {σ : Type} (op : σ → Int → σ) (a : cell_iterator) (s : σ) :
    Res (cell_iterator × σ) := do
  let (a1, tr) ← ply_ravel a
  .ok (a1, tr.foldl op s)

/-- The operation that writes the next of a list of values at the address it is applied to;
the state is the memory and the values not written yet. -/
def write_op (s : (Int → Int) × List Int) (p : Int) : (Int → Int) × List Int :=
  match s.2 with
  | [] => s
  | x :: rest => (store_at s.1 p x, rest)

/-- The operation that reads the element at the address it is applied to; the state is the
memory, which it leaves as it is, and the values read so far. -/
def read_op (s : (Int → Int) × List Int) (p : Int) : (Int → Int) × List Int :=
  (s.1, s.2 ++ [s.1 p])

/-- Memory after the values `xs` have been written at the addresses `ps`, in order. -/
def write_all (mem : Int → Int) : List Int → List Int → Int → Int
  | p :: ps, x :: xs => write_all (store_at mem p x) ps xs
  | _, _ => mem

/-- The index-to-offset map of a dope vector is injective on the multi-indices within
bounds. -/
def offsets_injective (dim : List Dim) : Prop :=
  ∀ idx ∈ multi_indices dim, ∀ idx' ∈ multi_indices dim,
    offset_sum dim idx = offset_sum dim idx' → idx = idx'

/-! ## big.hh: `is_c_order` and `Container` -/

/-- The member `View::stride(int j)`; the view of run-time rank checks `j<rank()`, and the
callers embedded here stay within the rank. -/
def View.stride (v : View) (j : Int) : Res Int :=
  if j < v.rank then (rdI v.dim j).map Dim.stride else .error .check

/-- The member `View::size(int j)`, see `View.stride`. -/
def View.size_j (v : View) (j : Int) : Res Int :=
  if j < v.rank then (rdI v.dim j).map Dim.size else .error .check

/-- The loop `for (int i=a.rank()-1; i>=0; --i)` of `is_c_order`, with `i + 1` iterations
left and the running product `s`. -/
def is_c_order_loop (a : View) : Nat → Int → Res Bool
  | 0, _ => .ok true
  | i + 1, s => do
    let st ← a.stride (i : Int)
    if s ≠ st then .ok false
    else do
      let sz ← a.size_j (i : Int)
      if s * sz = 0 then .ok true
      else is_c_order_loop a i (s * sz)

/-- The function `is_c_order(View<T, RANK> const & a)`. -/
def is_c_order (a : View) : Res Bool :=
  is_c_order_loop a a.rank.toNat 1

/-- The class `Container<Store, RANK>`: the members `dim` and `p` of the view it derives from
and its store, which is represented by the number of its elements. The address
`storage_traits<Store>::data(store)` is chosen by the allocator; the operations that fetch
it take it as the parameter `data`. -/
structure Container where
  dim : List Dim
  p : Int
  store : Int
deriving DecidableEq, Repr

/-- The members `view()`. -/
def Container.view (c : Container) : View := { dim := c.dim, p := c.p }

/-- The function `storage_traits<V>::create(dim_t n)`: a negative count is rejected by the
`RA_CHECK` of the pointer stores and is not a size `std::vector` can have. -/
def storage_create (n : Int) : Res Int :=
  if n ≥ 0 then .ok n else .error .check

/-- Modelled from the spec: `ra::resize` is declared in a header that is not part of the
sources at hand. On the dope vector of run-time rank, a `std::vector`, it gives the vector
`n` entries: those it has are kept up to `n`, new entries are value-initialised. -/
def resize_dims (dim : List Dim) (n : Nat) : List Dim :=
  dim.take n ++ List.replicate (n - dim.length) { size := 0, stride := 0 }

/-- The constructor `Container()`: the view is default-constructed (null pointer), the store
is empty and every entry of the dope vector is set to `{0, 1}`. The dope vector has `rank`
entries: `RANK` for a fixed rank, none for run-time rank. -/
def Container.default_ctor (rank : Nat) : Container :=
  { dim := List.replicate rank { size := 0, stride := 1 }, p := 0, store := 0 }

/-- Modelled from the spec: `for_each` is declared in a header that is not part of the
sources at hand. The call `for_each([](Dim & dim, auto const & s) { dim.size = s; }, dim, s)`
assigns the sizes one by one, and operands whose shapes do not agree fail before any element
is touched. -/
def assign_sizes (dim : List Dim) (s : List Int) : Res (List Dim) :=
  if dim.length ≠ s.length then .error .check
  else .ok (List.zipWith (fun (d : Dim) (sz : Int) => { d with size := sz }) dim s)

/-- The member `Container::init(S && s)`; `RANK` is the static rank. -/
def Container.init (c : Container) (RANK : Int) (s : List Int) (data : Int) : Res Container := do
  let dim0 : List Dim := if RANK = RANK_ANY then resize_dims c.dim s.length else c.dim
  let dim1 ← assign_sizes dim0 s
  let (t, dim2) ← filldim dim1.length dim1 dim1.length
  let store ← storage_create t
  .ok { dim := dim2, p := data, store := store }

/-- The member `Container::resize(dim_t const s)` (and the overload with a fill value, which
differs in the elements only). A negative count is not a size the store can be given. -/
def Container.resize (c : Container) (s : Int) (data : Int) : Res Container :=
  if c.view.rank > 0 then
    let n := proddim (c.dim.drop 1) * s
    if n < 0 then .error .check
    else do
      let d0 ← rd c.dim 0
      let dim1 ← wr c.dim 0 { d0 with size := s }
      .ok { dim := dim1, p := data, store := n }
  else .error .check

/-- The members `Container::push_back` (and `emplace_back`). -/
def Container.push_back (c : Container) (data : Int) : Res Container :=
  if c.view.rank = 1 then do
    let d0 ← rd c.dim 0
    let dim1 ← wr c.dim 0 { d0 with size := d0.size + 1 }
    .ok { dim := dim1, p := data, store := c.store + 1 }
  else .error .check

/-- The member `Container::pop_back()`; the pointer is not fetched again. Removing the last
element of an empty store is undefined. -/
def Container.pop_back (c : Container) : Res Container :=
  if c.view.rank = 1 then do
    let d0 ← rd c.dim 0
    if d0.size > 0 then
      if c.store ≤ 0 then .error .ub
      else do
        let dim1 ← wr c.dim 0 { d0 with size := d0.size - 1 }
        .ok { dim := dim1, p := c.p, store := c.store - 1 }
    else .error .check
  else .error .check

/-- The member `Container::begin()`: `assert(is_c_order(*this)); return this->data();`. -/
def Container.begin (c : Container) : Res Int := do
  let ok ← is_c_order c.view
  if ok then .ok c.p else .error .check

/-- The containers reached from a default construction or an `init` with non-negative sizes
through `resize` with a non-negative size, `push_back` and `pop_back`. -/
inductive Container.Reachable : Container → Prop
  | default_ctor (rank : Nat) : Container.Reachable (Container.default_ctor rank)
  | init (c : Container) (RANK : Int) (s : List Int) (data : Int) (c1 : Container) :
      (∀ x ∈ s, (0 : Int) ≤ x) → c.init RANK s data = .ok c1 → Container.Reachable c1
  | resize (c : Container) (s : Int) (data : Int) (c1 : Container) :
      Container.Reachable c → 0 ≤ s → c.resize s data = .ok c1 → Container.Reachable c1
  | push_back (c : Container) (data : Int) (c1 : Container) :
      Container.Reachable c → c.push_back data = .ok c1 → Container.Reachable c1
  | pop_back (c : Container) (c1 : Container) :
      Container.Reachable c → c.pop_back = .ok c1 → Container.Reachable c1

/-- The dope vector `init` starts from: resized to the shape for run-time rank. -/
def init_dims (c : Container) (RANK : Int) (s : List Int) : List Dim :=
  if RANK = RANK_ANY then resize_dims c.dim s.length else c.dim

/-! ## ply.hh: the traversal with its calls of `adv` recorded -/

/-- The odometer `for (int k=0; ; ++k)` of `ply_ravel` as in `ply_carry`, which records in
addition each call `a.adv(axis, delta)` it makes as the pair `(axis, delta)`. -/
def ply_carry_adv (order : List Int) (ocd : Nat) :
    List Int → List Int → Nat → cell_iterator →
      Res (cell_iterator × List Int × Bool × List (Int × Int))
  | [], _, _, a => .ok (a, [], false, [])
  | _ :: _, [], _, _ => .error .ub
  | s :: sha, i :: ind, k, a => do
    let ax ← rd order (ocd + k)
    if i < s - 1 then
      let a1 ← a.adv ax 1
      .ok (a1, (i + 1) :: ind, true, [(ax, 1)])
    else
      let a1 ← a.adv ax (1 - s)
      let (a2, ind1, go, log) ← ply_carry_adv order ocd sha ind (k + 1) a1
      .ok (a2, 0 :: ind1, go, (ax, 1 - s) :: log)

/-- The loop `for (;;)` of `ply_ravel` as in `ply_loop`, which records the executions of the
inner loop, each as the list of the addresses it applies the operation at, and the calls of
`adv`. -/
def ply_loop_adv (order : List Int) (ocd : Nat) (sha : List Int) (ss ss0 : Int) :
    Nat → cell_iterator → List Int → Res (cell_iterator × List (List Int) × List (Int × Int))
  | 0, _, _ => .error .fuel
  | fuel + 1, a, ind => do
    let run := ply_inner ss0 ss.toNat a.flat
    let (a1, ind1, go, log) ← ply_carry_adv order ocd sha ind 0 a
    if go then
      let (a2, runs, log2) ← ply_loop_adv order ocd sha ss ss0 fuel a1 ind1
      .ok (a2, run :: runs, log ++ log2)
    else .ok (a1, [run], log)

/-- The function `ply_ravel` as in the definition of that name, which records the executions
of the inner loop and the calls of `adv`; for rank 0 the one application is recorded as a
run. -/
def ply_ravel_adv (a : cell_iterator) :
    Res (cell_iterator × List (List Int) × List (Int × Int)) := do
  if a.rank < 0 then .error .check
  else
    let rank := a.rank.toNat
    let order := ply_order rank
    if rank = 0 then .ok (a, [[a.flat]], [])
    else
      let o0 ← rd order 0
      let ss ← a.size o0
      let (rank1, ocd, ss1) ← ply_fuse a order (rank - 1) 1 ss
      match ← ply_sha a order ocd rank1 0 with
      | none => .ok (a, [], [])
      | some sha =>
        let ind : List Int := List.replicate rank1 0
        let ss0 ← a.stride o0
        ply_loop_adv order ocd sha ss1 ss0 (ply_fuel sha) a ind

/-- The sum of the deltas passed to `adv` for the axis `x` in a record of calls. -/
def adv_total (log : List (Int × Int)) (x : Int) : Int :=
  (log.map fun e => if e.1 = x then e.2 else 0).sum

/-- An odometer reading within the positions of the axes, an axis of size `s` having
`max s 1` positions; fastest axis first. -/
def odo_ok : List Int → List Int → Prop
  | [], [] => True
  | s :: sha, i :: ind => (0 ≤ i ∧ i < max s 1) ∧ odo_ok sha ind
  | _, _ => False

/-- The number of odometer steps that lead from the reading of zeros to a reading. -/
def odo_value : List Int → List Int → Int
  | s :: sha, i :: ind => i + max s 1 * odo_value sha ind
  | _, _ => 0

/-- The number of readings of an odometer: the product of `max s 1` over its sizes. -/
def odo_count (sha : List Int) : Int := (sha.map fun s => max s 1).prod

/-- The sum of the deltas of a record of `adv` calls, each weighted by its axis. -/
def wsum (w : Int → Int) (log : List (Int × Int)) : Int := (log.map fun e => w e.1 * e.2).sum

/-- The sum of the indices of a reading, each weighted by its axis. -/
def windex (w : Int → Int) (axes ind : List Int) : Int :=
  (List.zipWith (fun ax i => w ax * i) axes ind).sum

/-! ## big.hh: subscript selection with its accesses recorded -/

/-- A record of the accesses to the two dope vectors of a subscripting: the positions of the
source that were read and the positions of the destination that were written, in order. -/
structure Accesses where
  reads : List Int
  writes : List Int
deriving DecidableEq, Repr

/-- The accesses of one part followed by those of the next. -/
def Accesses.append (x y : Accesses) : Accesses :=
  { reads := x.reads ++ y.reads, writes := x.writes ++ y.writes }

/-- The overload `select(Dim * dim, Dim const * dim_src, Int i)` as in `select_int`, with its
accesses recorded. -/
def select_int_acc (dim_src : List Dim) (s : Nat) (i : Int) : Res (Int × Accesses) := do
  let src ← rd dim_src s
  if inside i src.size then .ok (src.stride * i, { reads := [(s : Int)], writes := [] })
  else .error .check

/-- The overload of `select` for an `Iota` as in `select_iota`, with its accesses recorded. -/
def select_iota_acc (dim : DimBuf) (d : Nat) (dim_src : List Dim) (s : Nat) (i : Iota) :
    Res (Int × DimBuf × Accesses) := do
  let src ← rd dim_src s
  if (inside i.i_ src.size && inside (i.i_ + (i.size_ - 1) * i.stride_) src.size)
      || (decide (i.size_ = 0) && decide (i.i_ ≤ src.size)) then
    let dim1 ← wr dim d (some { size := i.size_, stride := src.stride * i.stride_ })
    .ok (src.stride * i.i_, dim1, { reads := [(s : Int)], writes := [(d : Int)] })
  else .error .check

/-- The loop of the `dots_t<n>` overload as in `dots_loop`, with its accesses recorded. -/
def dots_loop_acc (dim_src : List Dim) : Nat → DimBuf → Nat → Nat → Res (DimBuf × Accesses)
  | 0, dim, _, _ => .ok (dim, { reads := [], writes := [] })
  | n + 1, dim, d, s => do
    let x ← rd dim_src s
    let dim1 ← wr dim d (some x)
    let (dim2, acc) ← dots_loop_acc dim_src n dim1 (d + 1) (s + 1)
    .ok (dim2, { reads := (s : Int) :: acc.reads, writes := (d : Int) :: acc.writes })

/-- The loop of the `insert_t<n>` overload as in `insert_loop`, with its accesses
recorded. -/
def insert_loop_acc : Nat → DimBuf → Nat → Res (DimBuf × Accesses)
  | 0, dim, _ => .ok (dim, { reads := [], writes := [] })
  | n + 1, dim, d => do
    let dim1 ← wr dim d (some { size := DIM_BAD, stride := 0 })
    let (dim2, acc) ← insert_loop_acc n dim1 (d + 1)
    .ok (dim2, { reads := acc.reads, writes := (d : Int) :: acc.writes })

/-- The overloads of `select_loop` as in the definition of that name, with the accesses
recorded. -/
def select_loop_acc (dim_src : List Dim) :
    List Index → DimBuf → Nat → Nat → Res (Int × DimBuf × Accesses)
  | [], dim, _, _ => .ok (0, dim, { reads := [], writes := [] })
  | .dots n :: rest, dim, d, s => do
    let (dim1, acc) ← dots_loop_acc dim_src n dim d s
    let (o, dim2, acc2) ← select_loop_acc dim_src rest dim1 (d + n) (s + n)
    .ok (o, dim2, acc.append acc2)
  | .insert n :: rest, dim, d, s => do
    let (dim1, acc) ← insert_loop_acc n dim d
    let (o, dim2, acc2) ← select_loop_acc dim_src rest dim1 (d + n) s
    .ok (o, dim2, acc.append acc2)
  | .int i :: rest, dim, d, s => do
    let (o, acc) ← select_int_acc dim_src s i
    let (o1, dim2, acc2) ← select_loop_acc dim_src rest dim
      (d + is_beatable.skip (.int i)) (s + is_beatable.skip_src (.int i))
    .ok (o + o1, dim2, acc.append acc2)
  | .iota i :: rest, dim, d, s => do
    let (o, dim1, acc) ← select_iota_acc dim d dim_src s i
    let (o1, dim2, acc2) ← select_loop_acc dim_src rest dim1
      (d + is_beatable.skip (.iota i)) (s + is_beatable.skip_src (.iota i))
    .ok (o + o1, dim2, acc.append acc2)

/-- The loop that fills the rest of the result as in `fill_rest`, with its accesses
recorded. -/
def fill_rest_acc (dim_src : List Dim) (ext : Int) : Nat → Int → DimBuf → Res (DimBuf × Accesses)
  | 0, _, sub => .ok (sub, { reads := [], writes := [] })
  | n + 1, i, sub => do
    let x ← rdI dim_src (i - ext)
    let sub1 ← wrI sub i (some x)
    let (sub2, acc) ← fill_rest_acc dim_src ext n (i + 1) sub1
    .ok (sub2, { reads := (i - ext) :: acc.reads, writes := i :: acc.writes })

/-- The part common to both `operator()` of beatable subscripts as in `subscript_core`, with
the accesses recorded. -/
def subscript_core_acc (v : View) (i : List Index) (subrank : Int) :
    Res (Int × DimBuf × Accesses) := do
  let sub : DimBuf := List.replicate subrank.toNat none
  let (off, sub1, acc) ← select_loop_acc v.dim i sub 0 0
  let (sub2, acc2) ← fill_rest_acc v.dim (extended i) (subrank - skip_sum i).toNat (skip_sum i) sub1
  .ok (off, sub2, acc.append acc2)

/-- The positions `d, d+1, ..., d+n-1`. -/
def span (d n : Nat) : List Int := (List.range' d n).map Int.ofNat

/-! ## Theorems: indexing and subscript selection -/

theorem in_bounds_cons {d : Dim} {ds : List Dim} {i : Int} {is : List Int}
    (h : in_bounds (d :: ds) (i :: is)) : (0 ≤ i ∧ i < d.size) ∧ in_bounds ds is := by
  simpa [in_bounds] using h

theorem inside_iff (i b : Int) : inside i b = true ↔ 0 ≤ i ∧ i < b := by
  simp [inside]

theorem rd_cons_zero {α : Type} (x : α) (l : List α) : rd (x :: l) 0 = .ok x := by simp [rd]

theorem rd_cons_succ {α : Type} (x : α) (l : List α) (k : Nat) : rd (x :: l) (k + 1) = rd l k := by
  simp [rd]

theorem rd_of_drop {α : Type} {l : List α} {s : Nat} {x : α} {tl : List α}
    (h : l.drop s = x :: tl) : rd l s = .ok x ∧ l.drop (s + 1) = tl := by
  induction l generalizing s with
  | nil => simp at h
  | cons y ys ih =>
    cases s with
    | zero => simp at h; simp [rd_cons_zero, h.1, h.2]
    | succ s => simp at h; simpa [rd_cons_succ] using ih h

theorem index_p_loop_ok (dim : List Dim) (p : List Int) (c : Int)
    (hl : p.length ≤ dim.length) (hb : in_bounds dim p) :
    index_p_loop dim p c = .ok (c + offset_sum dim p) := by
  induction p generalizing dim c with
  | nil => cases dim <;> simp [index_p_loop, offset_sum]
  | cons i is ih =>
    cases dim with
    | nil => simp at hl
    | cons d ds =>
      obtain ⟨h0, hrest⟩ := in_bounds_cons hb
      have hi : inside i d.size = true := (inside_iff _ _).2 h0
      simp only [index_p_loop, hi, if_true]
      rw [ih ds _ (by simpa using hl) hrest]
      simp [offset_sum, add_assoc]

theorem select_loop_ints (src : List Dim) (idx : List Int) (buf : DimBuf) (d s : Nat)
    (hl : idx.length ≤ (src.drop s).length) (hb : in_bounds (src.drop s) idx) :
    select_loop src (idx.map Index.int) buf d s = .ok (offset_sum (src.drop s) idx, buf) := by
  induction idx generalizing s with
  | nil => simp [select_loop, offset_sum]
  | cons i is ih =>
    cases hd : src.drop s with
    | nil => rw [hd] at hl; simp at hl
    | cons x tl =>
      rw [hd] at hl hb
      obtain ⟨h0, hrest⟩ := in_bounds_cons hb
      obtain ⟨hr, htl⟩ := rd_of_drop hd
      have hi : inside i x.size = true := (inside_iff _ _).2 h0
      have := ih (s + 1) (by rw [htl]; simpa using hl) (by rw [htl]; exact hrest)
      simp only [List.map_cons, select_loop, select_int, hr, is_beatable.skip,
        is_beatable.skip_src, Nat.add_zero, bind, Except.bind, hi, if_true, this, htl]
      simp [offset_sum]

theorem wr_append {α : Type} (pre : List α) (y x : α) (tl : List α) :
    wr (pre ++ y :: tl) pre.length x = .ok (pre ++ x :: tl) := by
  simp [wr]

theorem dots_loop_ok (src : List Dim) (n : Nat) (pre slots post : DimBuf) (s : Nat)
    (hs : n ≤ (src.drop s).length) (hn : slots.length = n) :
    dots_loop src n (pre ++ slots ++ post) pre.length s
      = .ok (pre ++ ((src.drop s).take n).map some ++ post) := by
  induction n generalizing pre slots s with
  | zero =>
    have : slots = [] := List.length_eq_zero.mp hn
    simp [dots_loop, this]
  | succ n ih =>
    cases slots with
    | nil => simp at hn
    | cons y slots' =>
      cases hd : src.drop s with
      | nil => rw [hd] at hs; simp at hs
      | cons x tl =>
        obtain ⟨hr, htl⟩ := rd_of_drop hd
        have hw : wr (pre ++ y :: slots' ++ post) pre.length (some x)
            = .ok (pre ++ some x :: slots' ++ post) := by
          have := wr_append pre y (some x) (slots' ++ post)
          simpa using this
        have h2 := ih (pre ++ [some x]) slots' (s + 1)
          (by rw [htl]; rw [hd] at hs; simpa using hs) (by simpa using hn)
        simp only [List.length_append, List.length_singleton, List.append_assoc,
          List.singleton_append] at h2
        simp only [dots_loop, hr, bind, Except.bind]
        simp only [List.append_assoc, List.cons_append] at hw ⊢
        rw [hw]
        simp only [List.take_succ_cons, List.map_cons, List.cons_append]
        rw [← htl]
        simpa using h2

theorem insert_loop_ok (n : Nat) (pre slots post : DimBuf) (hn : slots.length = n) :
    insert_loop n (pre ++ slots ++ post) pre.length
      = .ok (pre ++ (List.replicate n { size := DIM_BAD, stride := 0 }).map some ++ post) := by
  induction n generalizing pre slots with
  | zero =>
    have : slots = [] := List.length_eq_zero.mp hn
    simp [insert_loop, this]
  | succ n ih =>
    cases slots with
    | nil => simp at hn
    | cons y slots' =>
      have hw := wr_append pre y (some ({ size := DIM_BAD, stride := 0 } : Dim)) (slots' ++ post)
      have h2 := ih (pre ++ [some { size := DIM_BAD, stride := 0 }]) slots' (by simpa using hn)
      simp only [List.length_append, List.length_singleton, List.append_assoc,
        List.singleton_append] at h2
      simp only [insert_loop, bind, Except.bind]
      simp only [List.append_assoc, List.cons_append] at hw ⊢
      rw [hw]
      simp only [List.replicate_succ, List.map_cons, List.cons_append]
      simpa using h2

theorem select_loop_beat (src : List Dim) (idx : List Index) :
    ∀ (pre slots post : DimBuf) (s : Nat) (o : Int) (out rem : List Dim),
      beat (src.drop s) idx = some (o, out, rem) → slots.length = out.length →
      select_loop src idx (pre ++ slots ++ post) pre.length s
        = .ok (o, pre ++ out.map some ++ post) := by
  induction idx with
  | nil =>
    intro pre slots post s o out rem hb hl
    simp only [beat, Option.some.injEq, Prod.mk.injEq] at hb
    obtain ⟨rfl, rfl, -⟩ := hb
    have : slots = [] := List.length_eq_zero.mp (by simpa using hl)
    simp [select_loop, this]
  | cons i0 rest ih =>
    intro pre slots post s o out rem hb hl
    cases i0 with
    | int i =>
      cases hd : src.drop s with
      | nil => rw [hd] at hb; simp [beat] at hb
      | cons x tl =>
        rw [hd] at hb
        obtain ⟨hr, htl⟩ := rd_of_drop hd
        simp only [beat] at hb
        split at hb
        · rename_i hc
          obtain ⟨r, hr1, hr2⟩ := Option.map_eq_some'.mp hb
          obtain ⟨o1, out1, rem1⟩ := r
          simp only [Prod.mk.injEq] at hr2
          obtain ⟨rfl, rfl, rfl⟩ := hr2
          have hi : inside i x.size = true := (inside_iff _ _).2 hc
          have h2 := ih pre slots post (s + 1) o1 out1 rem1 (by rw [htl]; exact hr1) hl
          simp only [select_loop, select_int, hr, is_beatable.skip, is_beatable.skip_src,
            Nat.add_zero, bind, Except.bind, hi, if_true, h2]
        · simp at hb
    | iota i =>
      cases hd : src.drop s with
      | nil => rw [hd] at hb; simp [beat] at hb
      | cons x tl =>
        rw [hd] at hb
        obtain ⟨hr, htl⟩ := rd_of_drop hd
        simp only [beat] at hb
        split at hb
        · rename_i hc
          obtain ⟨r, hr1, hr2⟩ := Option.map_eq_some'.mp hb
          obtain ⟨o1, out1, rem1⟩ := r
          simp only [Prod.mk.injEq] at hr2
          obtain ⟨rfl, rfl, rfl⟩ := hr2
          cases slots with
          | nil => simp at hl
          | cons y slots' =>
            have hcond : ((inside i.i_ x.size && inside (i.i_ + (i.size_ - 1) * i.stride_) x.size)
                || (decide (i.size_ = 0) && decide (i.i_ ≤ x.size))) = true := by
              simpa [Iota.accepted, inside, and_assoc] using hc
            have hw := wr_append pre y
              (some ({ size := i.size_, stride := x.stride * i.stride_ } : Dim)) (slots' ++ post)
            have h2 := ih (pre ++ [some { size := i.size_, stride := x.stride * i.stride_ }])
              slots' post (s + 1) o1 out1 rem1 (by rw [htl]; exact hr1) (by simpa using hl)
            simp only [List.length_append, List.length_singleton, List.append_assoc,
              List.singleton_append] at h2
            simp only [select_loop, select_iota, hr, is_beatable.skip, is_beatable.skip_src,
              bind, Except.bind, hcond, if_true]
            simp only [List.append_assoc, List.cons_append] at hw ⊢
            rw [hw]
            simp only [List.map_cons, List.cons_append]
            have h3 : select_loop src rest (pre ++ some { size := i.size_, stride := x.stride * i.stride_ } :: (slots' ++ post)) (pre.length + 1) (s + 1)
                = .ok (o1, pre ++ some { size := i.size_, stride := x.stride * i.stride_ } :: (List.map some out1 ++ post)) := by
              simpa using h2
            simp only [h3]
        · simp at hb
    | dots n =>
      simp only [beat] at hb
      split at hb
      · rename_i hc
        obtain ⟨r, hr1, hr2⟩ := Option.map_eq_some'.mp hb
        obtain ⟨o1, out1, rem1⟩ := r
        simp only [Prod.mk.injEq] at hr2
        obtain ⟨rfl, rfl, rfl⟩ := hr2
        have hlen : (src.drop s).length = src.length - s := by simp
        have htk : ((src.drop s).take n).length = n := by simp; omega
        have hl2 : slots.length = n + out1.length := by simpa [htk] using hl
        have hsplit : slots = slots.take n ++ slots.drop n := (List.take_append_drop n slots).symm
        have h1 := dots_loop_ok src n pre (slots.take n) (slots.drop n ++ post) s hc
          (by simp; omega)
        have h2 := ih (pre ++ ((src.drop s).take n).map some) (slots.drop n) post (s + n) o1 out1
          rem1 (by rw [← hr1, List.drop_drop, Nat.add_comm]) (by simp; omega)
        simp only [List.length_append, List.length_map, htk] at h2
        have e1 : pre ++ slots ++ post = pre ++ slots.take n ++ (slots.drop n ++ post) := by
          simp only [List.append_assoc]
          rw [← List.append_assoc (slots.take n), List.take_append_drop]
        simp only [select_loop, bind, Except.bind]
        rw [e1, h1]
        simp only [List.append_assoc] at h2 ⊢
        rw [h2]
        simp
      · simp at hb
    | insert n =>
      simp only [beat] at hb
      obtain ⟨r, hr1, hr2⟩ := Option.map_eq_some'.mp hb
      obtain ⟨o1, out1, rem1⟩ := r
      simp only [Prod.mk.injEq] at hr2
      obtain ⟨rfl, rfl, rfl⟩ := hr2
      have hl2 : slots.length = n + out1.length := by simpa using hl
      have hsplit : slots = slots.take n ++ slots.drop n := (List.take_append_drop n slots).symm
      have h1 := insert_loop_ok n pre (slots.take n) (slots.drop n ++ post) (by simp; omega)
      have h2 := ih (pre ++ (List.replicate n ({ size := DIM_BAD, stride := 0 } : Dim)).map some)
        (slots.drop n) post s o1 out1 rem1 hr1 (by simp; omega)
      simp only [List.length_append, List.length_map, List.length_replicate] at h2
      have e1 : pre ++ slots ++ post = pre ++ slots.take n ++ (slots.drop n ++ post) := by
        simp only [List.append_assoc]
        rw [← List.append_assoc (slots.take n), List.take_append_drop]
      simp only [select_loop, bind, Except.bind]
      rw [e1, h1]
      simp only [List.append_assoc] at h2 ⊢
      rw [h2]
      simp

theorem extended_eq (idx : List Index) :
    extended idx = (skip_sum idx : Int) - (skip_src_sum idx : Int) := by
  induction idx with
  | nil => simp [extended, skip_sum, skip_src_sum]
  | cons i rest ih =>
    simp only [extended, skip_sum, skip_src_sum, List.map_cons, List.sum_cons, Nat.cast_add] at ih ⊢
    rw [ih]; ring

theorem extended_eq_count (idx : List Index) :
    extended idx = (num_inserted idx : Int) - (num_int idx : Int) := by
  induction idx with
  | nil => simp [extended, num_inserted, num_int]
  | cons i rest ih =>
    simp only [extended, List.map_cons, List.sum_cons] at ih ⊢
    rw [ih]
    cases i <;> simp [num_inserted, num_int, is_beatable.skip, is_beatable.skip_src] <;> ring

theorem beat_facts (idx : List Index) :
    ∀ (src : List Dim) (o : Int) (out rem : List Dim), beat src idx = some (o, out, rem) →
      out.length = skip_sum idx ∧ rem = src.drop (skip_src_sum idx)
        ∧ skip_src_sum idx ≤ src.length := by
  induction idx with
  | nil =>
    intro src o out rem hb
    simp only [beat, Option.some.injEq, Prod.mk.injEq] at hb
    obtain ⟨-, rfl, rfl⟩ := hb
    simp [skip_sum, skip_src_sum]
  | cons i0 rest ih =>
    intro src o out rem hb
    cases i0 with
    | int i =>
      cases src with
      | nil => simp [beat] at hb
      | cons x tl =>
        simp only [beat] at hb
        split at hb
        · obtain ⟨r, hr1, hr2⟩ := Option.map_eq_some'.mp hb
          obtain ⟨o1, out1, rem1⟩ := r
          simp only [Prod.mk.injEq] at hr2
          obtain ⟨-, rfl, rfl⟩ := hr2
          obtain ⟨h1, h2, h3⟩ := ih tl o1 out1 rem1 hr1
          simp only [skip_sum, skip_src_sum, List.map_cons, List.sum_cons, is_beatable.skip,
            is_beatable.skip_src, List.length_cons] at h1 h2 h3 ⊢
          refine ⟨by omega, ?_, by omega⟩
          rw [h2, Nat.add_comm 1]; rfl
        · simp at hb
    | iota i =>
      cases src with
      | nil => simp [beat] at hb
      | cons x tl =>
        simp only [beat] at hb
        split at hb
        · obtain ⟨r, hr1, hr2⟩ := Option.map_eq_some'.mp hb
          obtain ⟨o1, out1, rem1⟩ := r
          simp only [Prod.mk.injEq] at hr2
          obtain ⟨-, rfl, rfl⟩ := hr2
          obtain ⟨h1, h2, h3⟩ := ih tl o1 out1 rem1 hr1
          simp only [skip_sum, skip_src_sum, List.map_cons, List.sum_cons, is_beatable.skip,
            is_beatable.skip_src, List.length_cons] at h1 h2 h3 ⊢
          refine ⟨by omega, ?_, by omega⟩
          rw [h2, Nat.add_comm 1]; rfl
        · simp at hb
    | dots n =>
      simp only [beat] at hb
      split at hb
      · rename_i hc
        obtain ⟨r, hr1, hr2⟩ := Option.map_eq_some'.mp hb
        obtain ⟨o1, out1, rem1⟩ := r
        simp only [Prod.mk.injEq] at hr2
        obtain ⟨-, rfl, rfl⟩ := hr2
        obtain ⟨h1, h2, h3⟩ := ih (src.drop n) o1 out1 rem1 hr1
        simp only [skip_sum, skip_src_sum, List.map_cons, List.sum_cons, is_beatable.skip,
          is_beatable.skip_src, List.length_append, List.length_take, List.length_drop] at h1 h2 h3 ⊢
        refine ⟨by omega, ?_, by omega⟩
        rw [h2, List.drop_drop, Nat.add_comm]
      · simp at hb
    | insert n =>
      simp only [beat] at hb
      obtain ⟨r, hr1, hr2⟩ := Option.map_eq_some'.mp hb
      obtain ⟨o1, out1, rem1⟩ := r
      simp only [Prod.mk.injEq] at hr2
      obtain ⟨-, rfl, rfl⟩ := hr2
      obtain ⟨h1, h2, h3⟩ := ih src o1 out1 rem1 hr1
      simp only [skip_sum, skip_src_sum, List.map_cons, List.sum_cons, is_beatable.skip,
        is_beatable.skip_src, List.length_append, List.length_replicate] at h1 h2 h3 ⊢
      refine ⟨by omega, ?_, by omega⟩
      rw [h2]; simp

theorem fill_rest_ok (src : List Dim) (ext : Int) (n : Nat) :
    ∀ (pre slots post : DimBuf) (c : Nat), (pre.length : Int) - ext = c →
      n ≤ (src.drop c).length → slots.length = n →
      fill_rest src ext n pre.length (pre ++ slots ++ post)
        = .ok (pre ++ ((src.drop c).take n).map some ++ post) := by
  induction n with
  | zero =>
    intro pre slots post c _ _ hn
    have : slots = [] := List.length_eq_zero.mp hn
    simp [fill_rest, this]
  | succ n ih =>
    intro pre slots post c hc hs hn
    cases slots with
    | nil => simp at hn
    | cons y slots' =>
      cases hd : src.drop c with
      | nil => rw [hd] at hs; simp at hs
      | cons x tl =>
        obtain ⟨hr, htl⟩ := rd_of_drop hd
        have hw := wr_append pre y (some x) (slots' ++ post)
        have h2 := ih (pre ++ [some x]) slots' post (c + 1)
          (by simp only [List.length_append, List.length_singleton]; push_cast; omega)
          (by rw [htl]; rw [hd] at hs; simpa using hs) (by simpa using hn)
        simp only [List.length_append, List.length_singleton, List.append_assoc,
          List.singleton_append, Nat.cast_add, Nat.cast_one] at h2
        have hrd : rdI src ((pre.length : Int) - ext) = .ok x := by
          rw [hc]; simp [rdI, hr]
        have hwr : wrI (pre ++ y :: (slots' ++ post)) (pre.length : Int) (some x)
            = .ok (pre ++ some x :: (slots' ++ post)) := by
          simp only [wrI]
          rw [if_neg (by omega)]
          simpa using hw
        simp only [fill_rest, hrd, bind, Except.bind]
        simp only [List.append_assoc, List.cons_append] at hwr ⊢
        rw [hwr]
        simp only [List.take_succ_cons, List.map_cons, List.cons_append]
        rw [← htl]
        simpa using h2

theorem written_map_some (l : List Dim) : DimBuf.written (l.map some) = some l := by
  induction l with
  | nil => rfl
  | cons x tl ih => simp [DimBuf.written, ih]

theorem subscript_core_beat (v : View) (idx : List Index) (o : Int) (out rem : List Dim)
    (hb : beat v.dim idx = some (o, out, rem)) :
    v.rank + extended idx = ((out ++ rem).length : Int)
      ∧ subscript_core v idx (v.rank + extended idx) = .ok (o, (out ++ rem).map some) := by
  obtain ⟨h1, h2, h3⟩ := beat_facts idx v.dim o out rem hb
  have hrl : rem.length = v.dim.length - skip_src_sum idx := by rw [h2]; simp
  have hrank : v.rank + extended idx = ((out ++ rem).length : Int) := by
    rw [extended_eq, View.rank, List.length_append, h1, hrl]
    push_cast [h3]; ring
  refine ⟨hrank, ?_⟩
  have hsel : select_loop v.dim idx
      (List.replicate out.length none ++ List.replicate rem.length none) 0 0
      = .ok (o, out.map some ++ List.replicate rem.length none) := by
    simpa using select_loop_beat v.dim idx [] (List.replicate out.length none)
      (List.replicate rem.length none) 0 o out rem (by simpa using hb) (by simp)
  have hbuf : List.replicate ((v.rank + extended idx).toNat) (none : Option Dim)
      = List.replicate out.length none ++ List.replicate rem.length none := by
    rw [hrank, Int.toNat_ofNat, List.length_append, List.replicate_add]
  have hfill : fill_rest v.dim (extended idx) rem.length (skip_sum idx : Int)
      (out.map some ++ List.replicate rem.length none)
      = .ok (out.map some ++ rem.map some) := by
    have h := fill_rest_ok v.dim (extended idx) rem.length (out.map some)
      (List.replicate rem.length none) [] (skip_src_sum idx)
      (by rw [extended_eq, List.length_map, h1]; ring)
      (by rw [← h2]) (by simp)
    rw [← h2, List.take_length, List.length_map, h1] at h
    simpa using h
  have hn : ((v.rank + extended idx) - (skip_sum idx : Int)).toNat = rem.length := by
    rw [hrank, List.length_append, h1]; simp
  simp only [subscript_core, bind, Except.bind]
  rw [hbuf, hsel]
  simp only [hn]
  rw [hfill]
  simp

theorem call_beat (v : View) (idx : List Index) (o : Int) (out rem : List Dim)
    (hb : beat v.dim idx = some (o, out, rem)) :
    v.call idx = .ok ⟨out ++ rem, v.p + o⟩ ∧ v.call_fixed idx = .ok ⟨out ++ rem, v.p + o⟩ := by
  obtain ⟨hr, hc⟩ := subscript_core_beat v idx o out rem hb
  have hnn : ¬ (v.rank + extended idx < 0) := by
    rw [hr]; exact Int.not_lt.mpr (Int.ofNat_nonneg _)
  constructor
  · simp only [View.call, hnn, if_false, hc, bind, Except.bind]
    congr 2
    simp [List.map_map, Function.comp_def]
  · simp only [View.call_fixed, hnn, if_false, hc, bind, Except.bind, written_map_some]

/-- C10: for a multi-index no longer than the dope vector and within bounds on each axis,
`Indexer1::index_p` returns the sum of `dim[k].stride * p[k]` over the positions of the
multi-index. -/
theorem index_p_offset :
    ∀ (dim : List Dim) (p : List Int), p.length ≤ dim.length → in_bounds dim p →
      Indexer1.index_p dim p = .ok (offset_sum dim p) := by
  intro dim p hl hb
  have h : (dim.length : Int) ≥ p.length := by exact_mod_cast hl
  simp only [Indexer1.index_p, h, if_true]
  rw [index_p_loop_ok dim p 0 hl hb]
  simp

theorem index_p_offset_witness :
    Indexer1.index_p [⟨3, 8⟩, ⟨2, 4⟩, ⟨4, 1⟩] [2, 1] = .ok 20 :=
  index_p_offset [⟨3, 8⟩, ⟨2, 4⟩, ⟨4, 1⟩] [2, 1] (by decide) (by decide)

/-- C1: subscripting a view of rank R with R integer indices, each within its axis, makes
`select_loop` return the offset `Σ_k stride[k]*index[k]`, and the subscript is the element
`data[offset]`; the two examples of the test suite are instances. -/
theorem call_scalar_offset :
    (∀ (mem : Int → Int) (v : View) (idx : List Int),
      idx.length = v.dim.length → in_bounds v.dim idx →
        select_loop v.dim (idx.map Index.int) [] 0 0 = .ok (offset_sum v.dim idx, [])
        ∧ v.call_scalar mem idx = .ok (mem (v.p + offset_sum v.dim idx)))
    ∧ View.call_scalar (mem_of [99, 2, 3, 4, 5, 6]) ⟨[⟨3, 2⟩, ⟨2, 1⟩], 0⟩ [1, 1] = .ok 4
    ∧ View.call_scalar (mem_of [1, 2, 3, 4, 5, 6]) ⟨[⟨3, 1⟩, ⟨2, 3⟩], 0⟩ [1, 1] = .ok 5 := by
  refine ⟨?_, by decide, by decide⟩
  intro mem v idx hl hb
  have h := select_loop_ints v.dim idx [] 0 0 (by simp [hl]) (by simpa using hb)
  simp only [List.drop_zero] at h
  refine ⟨h, ?_⟩
  simp [View.call_scalar, h, bind, Except.bind]

theorem call_scalar_offset_witness :
    View.call_scalar (mem_of [10, 11, 12, 13, 14, 15]) ⟨[⟨2, 3⟩, ⟨3, 1⟩], 0⟩ [1, 2] = .ok 15 :=
  (call_scalar_offset.1 (mem_of [10, 11, 12, 13, 14, 15]) ⟨[⟨2, 3⟩, ⟨3, 1⟩], 0⟩ [1, 2]
    (by decide) (by decide)).2

theorem rd_of_getElem? {α : Type} {l : List α} {s : Nat} {x : α} (h : l[s]? = some x) :
    rd l s = .ok x := by
  simp [rd, h]

theorem select_iota_cond (i : Iota) (dsize : Int) :
    (((inside i.i_ dsize && inside (i.i_ + (i.size_ - 1) * i.stride_) dsize)
      || (decide (i.size_ = 0) && decide (i.i_ ≤ dsize))) = true) ↔ i.accepted dsize := by
  simp [Iota.accepted, inside, and_assoc]

theorem wrap_dim_fits (x : Int) (h : fits_dim x) : wrap_dim x = x := by
  unfold fits_dim at h
  unfold wrap_dim
  norm_num at h ⊢
  omega

theorem fits_wrap_dim (x : Int) : fits_dim (wrap_dim x) := by
  unfold fits_dim wrap_dim
  norm_num
  omega

theorem wrap_dim_modeq (x : Int) : wrap_dim x ≡ x [ZMOD 2 ^ 64] := by
  unfold wrap_dim Int.ModEq
  norm_num
  omega

theorem wrap_dim_congr {x y : Int} (h : x ≡ y [ZMOD 2 ^ 64]) : wrap_dim x = wrap_dim y := by
  unfold wrap_dim
  have := (h.add_right (2 ^ 63))
  unfold Int.ModEq at this
  rw [this]

theorem wrap_dim_mul_left (a b : Int) : wrap_dim (wrap_dim a * b) = wrap_dim (a * b) :=
  wrap_dim_congr ((wrap_dim_modeq a).mul_right b)

theorem wrap_dim_far (i : Iota) :
    wrap_dim (i.i_ + wrap_dim (wrap_dim (i.size_ - 1) * i.stride_))
      = wrap_dim (i.i_ + (i.size_ - 1) * i.stride_) := by
  apply wrap_dim_congr
  apply Int.ModEq.add_left
  exact (wrap_dim_modeq _).trans ((wrap_dim_modeq _).mul_right _)

theorem select_iota_wrap_cond (i : Iota) (dsize : Int)
    (hf : fits_dim (i.i_ + (i.size_ - 1) * i.stride_)) :
    ((inside i.i_ dsize
        && inside (wrap_dim (i.i_ + wrap_dim (wrap_dim (i.size_ - 1) * i.stride_))) dsize)
      || (decide (i.size_ = 0) && decide (i.i_ ≤ dsize))) = true ↔ i.accepted dsize := by
  rw [wrap_dim_far, wrap_dim_fits _ hf]
  exact select_iota_cond i dsize

theorem select_iota_wrap_ok_iff (dim : DimBuf) (d : Nat) (src : List Dim) (s : Nat) (i : Iota)
    (x : Dim) (hx : src[s]? = some x) (hd : d < dim.length) :
    (∃ r, select_iota_wrap dim d src s i = .ok r)
      ↔ ((inside i.i_ x.size
            && inside (wrap_dim (i.i_ + wrap_dim (wrap_dim (i.size_ - 1) * i.stride_))) x.size)
          || (decide (i.size_ = 0) && decide (i.i_ ≤ x.size))) = true := by
  constructor
  · rintro ⟨r, hr⟩
    by_contra hc
    simp only [select_iota_wrap, rd_of_getElem? hx, bind, Except.bind] at hr
    rw [if_neg hc] at hr
    cases hr
  · intro hc
    simp only [select_iota_wrap, rd_of_getElem? hx, bind, Except.bind]
    rw [if_pos hc]
    simp [wr, hd]

theorem select_iota_wrap_fail (dim : DimBuf) (d : Nat) (src : List Dim) (s : Nat) (i : Iota)
    (x : Dim) (hx : src[s]? = some x)
    (hc : ¬ ((inside i.i_ x.size
            && inside (wrap_dim (i.i_ + wrap_dim (wrap_dim (i.size_ - 1) * i.stride_))) x.size)
          || (decide (i.size_ = 0) && decide (i.i_ ≤ x.size))) = true) :
    select_iota_wrap dim d src s i = .error .check := by
  simp only [select_iota_wrap, rd_of_getElem? hx, bind, Except.bind]
  rw [if_neg hc]

theorem select_iota_wrap_eq (dim : DimBuf) (d : Nat) (src : List Dim) (s : Nat) (i : Iota)
    (hf : fits_dim (i.i_ + (i.size_ - 1) * i.stride_))
    (hs : ∀ x, src[s]? = some x → fits_dim (x.stride * i.stride_) ∧ fits_dim (x.stride * i.i_)) :
    select_iota_wrap dim d src s i = select_iota dim d src s i := by
  cases hx : src[s]? with
  | none => simp [select_iota_wrap, select_iota, rd, hx, bind, Except.bind]
  | some x =>
    obtain ⟨h1, h2⟩ := hs x hx
    simp only [select_iota_wrap, select_iota, rd, hx, bind, Except.bind, wrap_dim_far,
      wrap_dim_fits _ hf, wrap_dim_fits _ h1, wrap_dim_fits _ h2]

/-- C5, as the code has it: with a source dimension of size `d` and a destination entry at
hand, and for a slice `{start, size, step}` whose far end `start+(size-1)*step` is within the
range of `dim_t`, `select` accepts the slice if and only if both `start` and
`start+(size-1)*step` lie in `[0, d)`, or the slice has size 0 and `start <= d`; an empty
slice is not checked against 0. A slice with a negative start is rejected whenever its size is
not 0. -/
theorem select_iota_accepts_iff :
    ∀ (dim : DimBuf) (d : Nat) (src : List Dim) (s : Nat) (i : Iota) (x : Dim),
      src[s]? = some x → d < dim.length →
        (fits_dim (i.i_ + (i.size_ - 1) * i.stride_) →
          ((∃ r, select_iota_wrap dim d src s i = .ok r) ↔ i.accepted x.size)
          ∧ (¬ i.accepted x.size → select_iota_wrap dim d src s i = .error .check))
        ∧ (i.i_ < 0 → i.size_ ≠ 0 → select_iota_wrap dim d src s i = .error .check) := by
  intro dim d src s i x hx hd
  refine ⟨fun hf => ⟨?_, ?_⟩, ?_⟩
  · rw [select_iota_wrap_ok_iff dim d src s i x hx hd, select_iota_wrap_cond i x.size hf]
  · intro hn
    exact select_iota_wrap_fail dim d src s i x hx
      (fun h => hn ((select_iota_wrap_cond i x.size hf).1 h))
  · intro hneg hsz
    apply select_iota_wrap_fail dim d src s i x hx
    have h1 : inside i.i_ x.size = false := by simp [inside]; omega
    simp [h1, hsz]

theorem select_iota_accepts_iff_witness :
    (∃ r, select_iota_wrap [none] 0 [⟨4, 1⟩] 0 ⟨4, 0, 1⟩ = .ok r) ↔ Iota.accepted ⟨4, 0, 1⟩ 4 :=
  ((select_iota_accepts_iff [none] 0 [⟨4, 1⟩] 0 ⟨4, 0, 1⟩ ⟨4, 1⟩ (by decide) (by decide)).1
    (by decide)).1

/-- C5, as stated, fails: on a source dimension of size 3 `select` accepts the empty slice
`{start = -1, size = 0, step = 1}`, whose start is negative and outside `[0, 3]`; and on a
source dimension of size 10 it accepts the slice `{start = 0, size = 5, step = 2^62}`, whose
far end `2^64` is not in `[0, 10)` and is 0 in `dim_t`. -/
theorem select_iota_accepts_outside :
    (select_iota_wrap [none] 0 [⟨3, 1⟩] 0 ⟨-1, 0, 1⟩ = .ok (-1, [some ⟨0, 1⟩])
      ∧ ¬ Iota.within ⟨-1, 0, 1⟩ 3)
    ∧ (select_iota_wrap [none] 0 [⟨10, 1⟩] 0 ⟨0, 5, 2 ^ 62⟩ = .ok (0, [some ⟨5, 2 ^ 62⟩])
      ∧ ¬ Iota.within ⟨0, 5, 2 ^ 62⟩ 10) := by
  decide

/-- C6: on a source dimension `{size, stride}`, `select` accepts an integer `i` if and only if
`0 <= i < size` and then returns `stride*i`; `select_loop` goes on with the destination and
its cursor as they were and the source cursor advanced by one, so that the subscripted view
has one dimension less. -/
theorem select_int_result :
    ∀ (src : List Dim) (s : Nat) (x : Dim) (i : Int), src[s]? = some x →
      ((∃ o, select_int src s i = .ok o) ↔ 0 ≤ i ∧ i < x.size)
      ∧ (0 ≤ i ∧ i < x.size → select_int src s i = .ok (x.stride * i))
      ∧ (¬ (0 ≤ i ∧ i < x.size) → select_int src s i = .error .check)
      ∧ (0 ≤ i ∧ i < x.size → ∀ (rest : List Index) (dim : DimBuf) (d : Nat),
          select_loop src (.int i :: rest) dim d s
            = (select_loop src rest dim d (s + 1)).map fun r => (x.stride * i + r.1, r.2))
      ∧ (0 ≤ i ∧ i < x.size → ∀ (v : View) (tl : List Dim), v.dim = x :: tl →
          v.call [.int i] = .ok ⟨tl, v.p + x.stride * i⟩) := by
  intro src s x i hx
  have hok : 0 ≤ i ∧ i < x.size → select_int src s i = .ok (x.stride * i) := by
    intro h
    simp only [select_int, rd_of_getElem? hx, bind, Except.bind, (inside_iff _ _).2 h, if_true]
  have hrej : ¬ (0 ≤ i ∧ i < x.size) → select_int src s i = .error .check := by
    intro h
    have hc : ¬ (inside i x.size = true) := fun h' => h ((inside_iff _ _).1 h')
    simp [select_int, rd_of_getElem? hx, bind, Except.bind, hc]
  refine ⟨⟨?_, fun h => ⟨_, hok h⟩⟩, hok, hrej, ?_, ?_⟩
  · rintro ⟨o, ho⟩
    by_contra hn
    rw [hrej hn] at ho
    cases ho
  · intro h rest dim d
    simp only [select_loop, hok h, is_beatable.skip, is_beatable.skip_src, Nat.add_zero, bind,
      Except.bind, Except.map]
  · intro h v tl hv
    have hb : beat v.dim [.int i] = some (x.stride * i, [], tl) := by
      simp [hv, beat, h]
    simpa using (call_beat v [.int i] _ _ _ hb).1

theorem select_int_result_witness :
    select_int [⟨3, 2⟩, ⟨2, 1⟩] 0 2 = .ok 4 :=
  (select_int_result [⟨3, 2⟩, ⟨2, 1⟩] 0 ⟨3, 2⟩ 2 (by decide)).2.1 (by decide)

theorem buf_split (dim : DimBuf) (d n : Nat) (h : d + n ≤ dim.length) :
    dim = dim.take d ++ (dim.drop d).take n ++ dim.drop (d + n)
      ∧ (dim.take d).length = d ∧ ((dim.drop d).take n).length = n := by
  refine ⟨?_, by simp; omega, by simp; omega⟩
  rw [List.append_assoc, ← List.drop_drop, List.take_append_drop, List.take_append_drop]

/-- C8: on a "keep n dims" subscript, with `n` source dimensions and `n` destination entries
at hand, `select_loop` copies the next `n` source dimensions unchanged into the next `n`
destination entries and goes on with both cursors advanced by `n`; the subscript adds
nothing to the offset. -/
theorem select_loop_dots :
    ∀ (n : Nat) (src : List Dim) (s : Nat) (dim : DimBuf) (d : Nat) (rest : List Index),
      s + n ≤ src.length → d + n ≤ dim.length →
        select_loop src (.dots n :: rest) dim d s
          = select_loop src rest
              (dim.take d ++ ((src.drop s).take n).map some ++ dim.drop (d + n)) (d + n) (s + n) := by
  intro n src s dim d rest hs hd
  obtain ⟨e, l1, l2⟩ := buf_split dim d n hd
  have h := dots_loop_ok src n (dim.take d) ((dim.drop d).take n) (dim.drop (d + n)) s
    (by simp; omega) l2
  rw [← e, l1] at h
  simp only [select_loop, h, bind, Except.bind]

theorem select_loop_dots_witness :
    select_loop [⟨3, 2⟩, ⟨2, 1⟩] [.dots 1, .int 1] [none] 0 0
      = select_loop [⟨3, 2⟩, ⟨2, 1⟩] [.int 1] [some ⟨3, 2⟩] 1 1 :=
  select_loop_dots 1 [⟨3, 2⟩, ⟨2, 1⟩] 0 [none] 0 [.int 1] (by decide) (by decide)

/-- C9: on an "insert n dims" subscript, with `n` destination entries at hand, `select_loop`
writes `{DIM_BAD, 0}` into each of the next `n` destination entries and goes on with the
destination cursor advanced by `n` and the source cursor where it was; the subscript adds
nothing to the offset. -/
theorem select_loop_insert :
    ∀ (n : Nat) (src : List Dim) (s : Nat) (dim : DimBuf) (d : Nat) (rest : List Index),
      d + n ≤ dim.length →
        select_loop src (.insert n :: rest) dim d s
          = select_loop src rest
              (dim.take d ++ List.replicate n (some ⟨DIM_BAD, 0⟩) ++ dim.drop (d + n)) (d + n) s := by
  intro n src s dim d rest hd
  obtain ⟨e, l1, l2⟩ := buf_split dim d n hd
  have h := insert_loop_ok n (dim.take d) ((dim.drop d).take n) (dim.drop (d + n)) l2
  rw [← e, l1] at h
  simp only [select_loop, h, bind, Except.bind, List.map_replicate]

theorem select_loop_insert_witness :
    select_loop [⟨3, 2⟩] [.insert 2, .int 1] [none, none] 0 0
      = select_loop [⟨3, 2⟩] [.int 1] [some ⟨DIM_BAD, 0⟩, some ⟨DIM_BAD, 0⟩] 2 0 :=
  select_loop_insert 2 [⟨3, 2⟩] 0 [none, none] 0 [.int 1] (by decide)

/-! ## Theorems: the traversal `ply_ravel` -/

theorem upto_nonpos {n : Int} (h : n ≤ 0) : upto n = [] := by
  simp [upto, Int.toNat_eq_zero.mpr h]

theorem upto_natCast (n : Nat) : upto (n : Int) = (List.range n).map Int.ofNat := by
  simp [upto]

theorem length_upto (n : Int) : (upto n).length = n.toNat := by simp [upto]

theorem upto_pos {n : Int} (h : 1 ≤ n) : upto n = 0 :: (upto (n - 1)).map (1 + ·) := by
  obtain ⟨m, rfl⟩ : ∃ m : Nat, n = (m : Int) + 1 := ⟨(n - 1).toNat, by omega⟩
  simp only [upto, add_sub_cancel_right, Int.toNat_ofNat]
  have : ((m : Int) + 1).toNat = m + 1 := by omega
  rw [this, List.range_succ_eq_map]
  simp [List.map_map, Function.comp_def, add_comm]

theorem row_major_append (outer inner : List Dim) :
    row_major_offsets (outer ++ inner)
      = (row_major_offsets outer).flatMap fun o => (row_major_offsets inner).map (o + ·) := by
  induction outer with
  | nil => simp [row_major_offsets]
  | cons d ds ih =>
    rw [List.cons_append]
    simp only [row_major_offsets]
    rw [ih]
    simp only [List.flatMap_assoc, List.map_flatMap, List.flatMap_map, List.map_map,
      Function.comp_def, add_assoc]

theorem ply_inner_eq (st0 : Int) (n : Nat) (p : Int) :
    ply_inner st0 n p = (List.range n).map fun k : Nat => p + st0 * (k : Int) := by
  induction n generalizing p with
  | zero => simp [ply_inner]
  | succ n ih =>
    rw [ply_inner, ih, List.range_succ_eq_map, List.map_cons, List.map_map]
    congr 1
    · simp
    · apply List.map_congr_left
      intro k _
      simp only [Function.comp_apply, Nat.succ_eq_add_one, Nat.cast_add, Nat.cast_one]
      ring

theorem ply_inner_shift (st0 : Int) (n : Nat) (p : Int) :
    ply_inner st0 n p = (ply_inner st0 n 0).map (p + ·) := by
  simp [ply_inner_eq, List.map_map, Function.comp_def]

theorem range_flatMap_mul (a b : Nat) {β : Type} (f : Nat → β) :
    ((List.range a).flatMap fun i => (List.range b).map fun k => f (b * i + k))
      = (List.range (a * b)).map f := by
  induction a with
  | zero => simp
  | succ a ih =>
    rw [List.range_succ, List.flatMap_append, ih, Nat.succ_mul, List.range_add, List.map_append]
    simp [List.map_map, Function.comp_def, Nat.mul_comm]

theorem psize_nonneg (l : List Dim) (h : ∀ d ∈ l, 0 ≤ d.size) : 0 ≤ psize l := by
  induction l with
  | nil => simp [psize]
  | cons d ds ih =>
    simp only [psize, List.map_cons, List.prod_cons]
    exact mul_nonneg (h d (by simp)) (ih fun x hx => h x (by simp [hx]))

theorem row_major_fused (st0 : Int) (l : List Dim) (hf : Fused st0 l)
    (hs : ∀ d ∈ l, 0 ≤ d.size) :
    row_major_offsets l = ply_inner st0 (psize l).toNat 0 := by
  induction l with
  | nil => simp [row_major_offsets, psize, ply_inner]
  | cons d ds ih =>
    obtain ⟨h1, h2⟩ := hf
    have hd : 0 ≤ d.size := hs d (by simp)
    have hds : 0 ≤ psize ds := psize_nonneg ds fun x hx => hs x (by simp [hx])
    rw [row_major_offsets, ih h2 fun x hx => hs x (by simp [hx])]
    obtain ⟨a, ha⟩ := Int.eq_ofNat_of_zero_le hd
    obtain ⟨b, hb⟩ := Int.eq_ofNat_of_zero_le hds
    have hp : psize (d :: ds) = ((a * b : Nat) : Int) := by
      have : psize (d :: ds) = d.size * psize ds := by simp [psize]
      rw [this, ha, hb]; push_cast; rfl
    rw [hp, ha, hb]
    simp only [upto, Int.toNat_ofNat, ply_inner_eq, zero_add]
    rw [← range_flatMap_mul a b fun k : Nat => st0 * (k : Int)]
    rw [List.flatMap_map]
    apply List.flatMap_congr
    intro i _
    rw [List.map_map]
    apply List.map_congr_left
    intro k _
    simp only [Function.comp_apply]
    rw [← h1, hb]
    simp only [Int.ofNat_eq_coe]
    push_cast
    ring

theorem setp_stride (a : cell_iterator) (q : Int) (k : Int) : (a.setp q).stride k = a.stride k := rfl

theorem setp_setp (a : cell_iterator) (q q1 : Int) : (a.setp q).setp q1 = a.setp q1 := rfl

theorem setp_self (a : cell_iterator) : a.setp a.c.p = a := rfl

theorem setp_flat (a : cell_iterator) (q : Int) : (a.setp q).flat = q := rfl

theorem adv_setp (a : cell_iterator) (q : Int) (ax : Int) (s d : Int) (h : a.stride ax = .ok s) :
    (a.setp q).adv ax d = .ok (a.setp (q + s * d)) := by
  simp only [cell_iterator.adv, setp_stride, h, bind, Except.bind]
  rfl

theorem odo_valid_length {ro : List Dim} {ind : List Int} (h : odo_valid ro ind) :
    ind.length = ro.length := by
  induction ro generalizing ind with
  | nil => cases ind <;> simp_all [odo_valid]
  | cons d ro ih =>
    cases ind with
    | nil => simp [odo_valid] at h
    | cons i ind => simp [ih h.2]

theorem odo_valid_zeros (ro : List Dim) (h : ∀ d ∈ ro, 1 ≤ d.size) :
    odo_valid ro (List.replicate ro.length 0) := by
  induction ro with
  | nil => simp [odo_valid]
  | cons d ro ih =>
    simp only [List.length_cons, List.replicate_succ, odo_valid]
    have h1 : (1 : Int) ≤ d.size := h d (by simp)
    exact ⟨⟨le_refl _, by omega⟩, ih fun x hx => h x (by simp [hx])⟩

theorem offset_sum_cons (d : Dim) (ro : List Dim) (i : Int) (ind : List Int) :
    offset_sum (d :: ro) (i :: ind) = d.stride * i + offset_sum ro ind := by
  simp [offset_sum]

theorem ply_carry_spec (a : cell_iterator) (order : List Int) (ocd : Nat) :
    ∀ (ro : List Dim) (ind : List Int) (k : Nat) (q : Int),
      AxesAt a order (ocd + k) ro → odo_valid ro ind →
      ply_carry order ocd (ro.map Dim.size) ind k (a.setp q)
        = .ok (match odo_after ro ind with
            | [] => (a.setp (q - offset_sum ro ind), List.replicate ro.length 0, false)
            | nxt :: _ => (a.setp (q + offset_sum ro nxt - offset_sum ro ind), nxt, true)) := by
  intro ro
  induction ro with
  | nil =>
    intro ind k q _ hv
    cases ind with
    | nil => simp [ply_carry, odo_after, offset_sum]
    | cons i ind => simp [odo_valid] at hv
  | cons d ro ih =>
    intro ind k q hax hv
    cases ind with
    | nil => simp [odo_valid] at hv
    | cons i ind =>
      obtain ⟨⟨hi0, hi1⟩, hv'⟩ := hv
      obtain ⟨⟨ax, hrd, hst, -⟩, hax'⟩ := hax
      simp only [List.map_cons, ply_carry, hrd, bind, Except.bind]
      by_cases hlt : i < d.size - 1
      · have hu : upto (d.size - 1 - i) = 0 :: (upto (d.size - 1 - i - 1)).map (1 + ·) :=
          upto_pos (by omega)
        simp only [hlt, if_true, adv_setp a q ax d.stride 1 hst, odo_after, hu, List.map_cons,
          List.cons_append, add_zero, offset_sum_cons]
        congr 3
        ring
      · have hi : i = d.size - 1 := by omega
        have hu : upto (d.size - 1 - i) = [] := upto_nonpos (by omega)
        have hud : upto d.size = 0 :: (upto (d.size - 1)).map (1 + ·) := upto_pos (by omega)
        have h2 := ih ind (k + 1) (q + d.stride * (1 - d.size)) hax' hv'
        rw [Nat.add_assoc] at *
        simp only [hlt, if_false, adv_setp a q ax d.stride (1 - d.size) hst, h2, odo_after, hu,
          List.map_nil, List.nil_append]
        cases hoa : odo_after ro ind with
        | nil =>
          simp only [List.flatMap_nil, List.length_cons, List.replicate_succ, offset_sum_cons]
          congr 3
          rw [hi]; ring
        | cons nxt tl =>
          simp only [List.flatMap_cons, hud, List.map_cons, List.cons_append, offset_sum_cons]
          congr 3
          rw [hi]; ring

theorem odo_after_next : ∀ (ro : List Dim) (ind nxt : List Int) (tl : List (List Int)),
    odo_valid ro ind → odo_after ro ind = nxt :: tl → odo_valid ro nxt ∧ odo_after ro nxt = tl := by
  intro ro
  induction ro with
  | nil => intro ind nxt tl _ h; cases ind <;> simp [odo_after] at h
  | cons d ro ih =>
    intro ind nxt tl hv h
    cases ind with
    | nil => simp [odo_valid] at hv
    | cons i ind =>
      obtain ⟨⟨hi0, hi1⟩, hv'⟩ := hv
      by_cases hlt : i < d.size - 1
      · have hu : upto (d.size - 1 - i) = 0 :: (upto (d.size - 1 - i - 1)).map (1 + ·) :=
          upto_pos (by omega)
        simp only [odo_after, hu, List.map_cons, List.cons_append, add_zero, List.cons.injEq] at h
        obtain ⟨rfl, rfl⟩ := h
        refine ⟨⟨⟨by omega, by omega⟩, hv'⟩, ?_⟩
        simp only [odo_after, List.map_map, Function.comp_def]
        rw [show d.size - 1 - (i + 1) = d.size - 1 - i - 1 by ring]
        congr 1
        apply List.map_congr_left
        intro j _
        congr 1
        ring
      · have hi : i = d.size - 1 := by omega
        have hu : upto (d.size - 1 - i) = [] := upto_nonpos (by omega)
        have hud : upto d.size = 0 :: (upto (d.size - 1)).map (1 + ·) := upto_pos (by omega)
        simp only [odo_after, hu, List.map_nil, List.nil_append] at h
        cases hoa : odo_after ro ind with
        | nil => rw [hoa] at h; simp at h
        | cons t tl' =>
          rw [hoa] at h
          simp only [List.flatMap_cons, hud, List.map_cons, List.cons_append, List.cons.injEq] at h
          obtain ⟨rfl, rfl⟩ := h
          obtain ⟨hvt, hat⟩ := ih ind t tl' hv' hoa
          refine ⟨⟨⟨le_refl _, by omega⟩, hvt⟩, ?_⟩
          simp only [odo_after, hat, sub_zero, hud, List.map_map, Function.comp_def, List.map_cons,
            zero_add]

theorem ply_loop_spec (a : cell_iterator) (order : List Int) (ocd : Nat) (ro : List Dim)
    (ss ss0 q0 : Int) (hax : AxesAt a order ocd ro) :
    ∀ (fuel : Nat) (ind : List Int), odo_valid ro ind → (odo_after ro ind).length < fuel →
      ply_loop order ocd (ro.map Dim.size) ss ss0 fuel (a.setp (q0 + offset_sum ro ind)) ind
        = .ok (a.setp q0, (ind :: odo_after ro ind).flatMap fun t =>
            ply_inner ss0 ss.toNat (q0 + offset_sum ro t)) := by
  intro fuel
  induction fuel with
  | zero => intro ind _ h; simp at h
  | succ fuel ih =>
    intro ind hv hf
    have hc := ply_carry_spec a order ocd ro ind 0 (q0 + offset_sum ro ind) (by simpa using hax) hv
    simp only [ply_loop, hc, bind, Except.bind, setp_flat]
    cases hoa : odo_after ro ind with
    | nil =>
      simp only [Bool.false_eq_true, if_false, List.flatMap_cons, List.flatMap_nil,
        List.append_nil, add_sub_cancel_right]
    | cons nxt tl =>
      obtain ⟨hvn, han⟩ := odo_after_next ro ind nxt tl hv hoa
      have hq : q0 + offset_sum ro ind + offset_sum ro nxt - offset_sum ro ind
          = q0 + offset_sum ro nxt := by ring
      have h2 := ih nxt hvn (by rw [han]; rw [hoa] at hf; simpa using hf)
      simp only [if_true, hq, h2, han, List.flatMap_cons]

theorem flatMap_single {α β : Type} (l : List α) (f : α → β) :
    (l.flatMap fun x => [f x]) = l.map f := by
  induction l with
  | nil => rfl
  | cons x xs ih => simp [ih]

theorem odo_all (ro : List Dim) (h : ∀ d ∈ ro, (1 : Int) ≤ d.size) :
    (List.replicate ro.length 0 :: odo_after ro (List.replicate ro.length 0)).map (offset_sum ro)
      = row_major_offsets ro.reverse := by
  induction ro with
  | nil => simp [odo_after, offset_sum, row_major_offsets]
  | cons d ro ih =>
    have hd : (1 : Int) ≤ d.size := h d (by simp)
    have hud : upto d.size = 0 :: (upto (d.size - 1)).map (1 + ·) := upto_pos hd
    have e : (List.replicate (d :: ro).length 0 :: odo_after (d :: ro) (List.replicate (d :: ro).length 0))
        = (List.replicate ro.length 0 :: odo_after ro (List.replicate ro.length 0)).flatMap
            fun t => (upto d.size).map fun j => j :: t := by
      simp only [List.length_cons, List.replicate_succ, odo_after, sub_zero, List.flatMap_cons, hud,
        List.map_cons, List.cons_append, List.map_map, Function.comp_def, zero_add]
    rw [e, List.reverse_cons, row_major_append, ← ih fun x hx => h x (by simp [hx])]
    generalize (List.replicate ro.length 0 :: odo_after ro (List.replicate ro.length 0)) = L
    simp only [List.map_flatMap, List.flatMap_map, List.map_map, Function.comp_def,
      offset_sum_cons, row_major_offsets, List.map_cons, List.map_nil, add_zero]
    apply List.flatMap_congr
    intro t _
    rw [flatMap_single]
    apply List.map_congr_left
    intro j _
    ring

theorem length_row_major (l : List Dim) :
    (row_major_offsets l).length = (l.map fun d => d.size.toNat).prod := by
  induction l with
  | nil => simp [row_major_offsets]
  | cons d ds ih =>
    simp [row_major_offsets, List.length_flatMap, Function.comp_def, ih, length_upto]

theorem ply_fuel_eq (ro : List Dim) (h : ∀ d ∈ ro, (1 : Int) ≤ d.size) :
    ply_fuel (ro.map Dim.size) = (row_major_offsets ro.reverse).length := by
  rw [length_row_major, List.map_reverse, List.prod_reverse, ply_fuel, List.map_map]
  congr 1
  apply List.map_congr_left
  intro d hd
  have := h d hd
  simp only [Function.comp_apply]
  congr 1
  omega

theorem axesAt_of (a : cell_iterator) (order : List Int) :
    ∀ (l : List Dim) (pos : Nat),
      (∀ j d, l[j]? = some d →
        ∃ ax, rd order (pos + j) = .ok ax ∧ a.stride ax = .ok d.stride ∧ a.size ax = .ok d.size) →
      AxesAt a order pos l := by
  intro l
  induction l with
  | nil => intro pos _; trivial
  | cons x xs ih =>
    intro pos h
    refine ⟨by simpa using h 0 x (by simp), ih (pos + 1) ?_⟩
    intro j d hj
    have := h (j + 1) d (by simpa using hj)
    rwa [Nat.add_assoc, Nat.add_comm 1]

theorem axesAt_drop (a : cell_iterator) (order : List Int) :
    ∀ (j : Nat) (l : List Dim) (pos : Nat), AxesAt a order pos l →
      AxesAt a order (pos + j) (l.drop j) := by
  intro j
  induction j with
  | zero => intro l pos h; simpa using h
  | succ j ih =>
    intro l pos h
    cases l with
    | nil => trivial
    | cons x xs =>
      have := ih xs (pos + 1) h.2
      rwa [Nat.add_assoc, Nat.add_comm 1] at this

theorem rd_ply_order (n j : Nat) (h : j < n) : rd (ply_order n) j = .ok ((n : Int) - 1 - j) := by
  simp [rd, ply_order, List.getElem?_range h]

theorem frame_axes (a : cell_iterator) (n : Nat) (hn : a.rank = (n : Int))
    (h1 : n ≤ a.dim.length) : AxesAt a (ply_order n) 0 (a.dim.take n).reverse := by
  apply axesAt_of
  intro j d hj
  have hlen : (a.dim.take n).length = n := by
    simp only [List.length_take]; omega
  have hjn : j < n := by
    have := (List.getElem?_eq_some_iff.mp hj).1
    simpa [hlen] using this
  rw [List.getElem?_reverse (by rw [hlen]; exact hjn), hlen] at hj
  have hk : n - 1 - j < n := by omega
  rw [List.getElem?_take_of_lt hk] at hj
  have hc : (n : Int) - 1 - (j : Int) = ((n - 1 - j : Nat) : Int) := by omega
  refine ⟨(n : Int) - 1 - j, by simpa using rd_ply_order _ j hjn, ?_, ?_⟩
  · have hlt : ((n - 1 - j : Nat) : Int) < (n : Int) := by omega
    have hnn : ¬ (((n - 1 - j : Nat) : Int) < 0) := by omega
    rw [hc]
    simp only [cell_iterator.stride, hn, hlt, if_true, rdI, hnn, if_false, Int.toNat_ofNat, rd, hj,
      Except.map]
  · have hin : inside ((n - 1 - j : Nat) : Int) (n : Int) = true := by
      simp only [inside, Bool.and_eq_true, decide_eq_true_eq]; omega
    have hnn : ¬ (((n - 1 - j : Nat) : Int) < 0) := by omega
    rw [hc]
    simp only [cell_iterator.size, hn, hin, if_true, rdI, hnn, if_false, Int.toNat_ofNat, rd, hj,
      Except.map]

theorem DIM_BAD_neg : DIM_BAD < 0 := by decide

theorem ply_sha_spec (a : cell_iterator) (order : List Int) (ocd : Nat) :
    ∀ (l : List Dim) (k : Nat), AxesAt a order (ocd + k) l → (∀ d ∈ l, (0 : Int) ≤ d.size) →
      ply_sha a order ocd l.length k
        = .ok (if ∀ d ∈ l, d.size ≠ 0 then some (l.map Dim.size) else none) := by
  intro l
  induction l with
  | nil => intro k _ _; simp [ply_sha]
  | cons x xs ih =>
    intro k hax hs
    obtain ⟨⟨ax, hrd, -, hsz⟩, hax'⟩ := hax
    have hx : (0 : Int) ≤ x.size := hs x (by simp)
    have h2 := ih (k + 1) (by rwa [Nat.add_assoc] at hax') fun d hd => hs d (by simp [hd])
    simp only [List.length_cons, ply_sha, hrd, hsz, bind, Except.bind]
    by_cases hz : x.size = 0
    · simp [hz]
    · have hb : x.size ≠ DIM_BAD := by
        have := DIM_BAD_neg
        intro h; rw [h] at hx; exact absurd hx (not_le.mpr this)
      simp only [hz, if_false, hb, h2]
      by_cases hall : ∀ d ∈ xs, d.size ≠ 0
      · have hall2 : ∀ d ∈ x :: xs, d.size ≠ 0 := by
          intro d hd
          rcases List.mem_cons.mp hd with rfl | h
          · exact hz
          · exact hall d h
        rw [if_pos hall, if_pos hall2]
        rfl
      · have hall2 : ¬ ∀ d ∈ x :: xs, d.size ≠ 0 := fun h =>
          hall fun d hd => h d (by simp [hd])
        rw [if_neg hall, if_neg hall2]

theorem psize_reverse (l : List Dim) : psize l.reverse = psize l := by
  simp [psize, List.prod_reverse]

theorem psize_append (l1 l2 : List Dim) : psize (l1 ++ l2) = psize l1 * psize l2 := by
  simp [psize]

theorem take_succ_of_drop {α : Type} {l : List α} {k : Nat} {x : α} {tl : List α}
    (h : l.drop k = x :: tl) : l.take (k + 1) = l.take k ++ [x] := by
  have hx : l[k]? = some x := by
    have := congrArg (fun m => m[0]?) h
    simpa using this
  rw [List.take_succ, hx]; rfl

theorem ply_fuse_spec (a : cell_iterator) (order : List Int) (rv : List Dim) (o0 st0 : Int)
    (h0 : rd order 0 = .ok o0) (hst : a.stride o0 = .ok st0) :
    ∀ (rank ocd : Nat), AxesAt a order ocd (rv.drop ocd) → ocd + rank = rv.length →
      Fused st0 (rv.take ocd).reverse →
      ∃ m, m ≤ rank
        ∧ ply_fuse a order rank ocd (psize (rv.take ocd))
            = .ok (rank - m, ocd + m, psize (rv.take (ocd + m)))
        ∧ Fused st0 (rv.take (ocd + m)).reverse := by
  intro rank
  induction rank with
  | zero => intro ocd _ _ hf; exact ⟨0, le_refl _, by simp [ply_fuse], hf⟩
  | succ rank ih =>
    intro ocd hax hl hf
    cases hd : rv.drop ocd with
    | nil =>
      have := congrArg List.length hd
      simp at this; omega
    | cons d tl =>
      rw [hd] at hax
      obtain ⟨⟨ax, hrd, hsd, hsz⟩, hax'⟩ := hax
      have htk := take_succ_of_drop hd
      by_cases hk : psize (rv.take ocd) * st0 = d.stride
      · have hax2 : AxesAt a order (ocd + 1) (rv.drop (ocd + 1)) := by
          rw [(rd_of_drop hd).2]; exact hax'
        have hf2 : Fused st0 (rv.take (ocd + 1)).reverse := by
          rw [htk]
          simp only [List.reverse_append, List.reverse_singleton, List.singleton_append]
          exact ⟨by rw [psize_reverse]; exact hk, hf⟩
        obtain ⟨m, hm, hr, hfm⟩ := ih (ocd + 1) hax2 (by omega) hf2
        have e1 : rank + 1 - (m + 1) = rank - m := by omega
        have e2 : ocd + (m + 1) = ocd + 1 + m := by omega
        refine ⟨m + 1, by omega, ?_, by rwa [e2]⟩
        have hps : psize (rv.take (ocd + 1)) = psize (rv.take ocd) * d.size := by
          rw [htk, psize_append]; simp [psize]
        rw [hps] at hr
        rw [e1, e2]
        simp only [ply_fuse, h0, hrd, cell_iterator.keep_stride, hst, hsd, hsz, bind, Except.bind,
          hk, decide_True, if_true, hr]
      · refine ⟨0, Nat.zero_le _, ?_, hf⟩
        simp only [ply_fuse, h0, hrd, cell_iterator.keep_stride, hst, hsd, bind, Except.bind, hk,
          decide_False, Bool.false_eq_true, if_false, Nat.sub_zero, Nat.add_zero]

theorem offset_sum_zeros (ro : List Dim) : ∀ k : Nat, offset_sum ro (List.replicate k 0) = 0 := by
  induction ro with
  | nil => intro k; simp [offset_sum]
  | cons d ro ih =>
    intro k
    cases k with
    | zero => simp [offset_sum]
    | succ k => rw [List.replicate_succ, offset_sum_cons, ih k]; simp

theorem row_major_zero (l : List Dim) (h : ∃ d ∈ l, d.size = 0) : row_major_offsets l = [] := by
  induction l with
  | nil => simp at h
  | cons x xs ih =>
    obtain ⟨d, hd, hz⟩ := h
    rcases List.mem_cons.mp hd with rfl | hm
    · simp [row_major_offsets, upto, hz]
    · simp [row_major_offsets, ih ⟨d, hm, hz⟩]

theorem ply_ravel_spec (a : cell_iterator) (n : Nat) (hn : a.rank = (n : Int))
    (h1 : n ≤ a.dim.length) (hs : ∀ d ∈ a.dim.take n, (0 : Int) ≤ d.size) :
    ply_ravel a = .ok (a, (row_major_offsets (a.dim.take n)).map (a.c.p + ·)) := by
  have hnn : ¬ (a.rank < 0) := by omega
  have htn : a.rank.toNat = n := by omega
  have hlen : (a.dim.take n).length = n := by simp only [List.length_take]; omega
  cases n with
  | zero =>
    simp [ply_ravel, hnn, htn, row_major_offsets, cell_iterator.flat]
  | succ n' =>
    have hAx := frame_axes a (n' + 1) hn h1
    cases hrv : (a.dim.take (n' + 1)).reverse with
    | nil =>
      have := congrArg List.length hrv
      simp only [List.length_reverse, hlen] at this
      simp at this
    | cons d0 rest =>
      have hfr : a.dim.take (n' + 1) = (d0 :: rest).reverse := by
        rw [← hrv, List.reverse_reverse]
      have hrl : (d0 :: rest).length = n' + 1 := by rw [← hrv, List.length_reverse, hlen]
      have hsr : ∀ d ∈ d0 :: rest, (0 : Int) ≤ d.size := by
        intro d hd; apply hs; rw [hfr]; exact List.mem_reverse.mpr hd
      rw [hrv] at hAx
      obtain ⟨⟨ax0, h0, hst, hsz⟩, -⟩ := id hAx
      obtain ⟨m, hm, hfu, hfused⟩ := ply_fuse_spec a (ply_order (n' + 1)) (d0 :: rest) ax0 d0.stride
        h0 hst n' 1 (by simpa using axesAt_drop a _ 1 _ 0 hAx) (by rw [hrl]; omega)
        (by simp [Fused, psize])
      have hps1 : psize (List.take 1 (d0 :: rest)) = d0.size := by simp [psize]
      rw [hps1] at hfu
      have hAxo : AxesAt a (ply_order (n' + 1)) (1 + m + 0) (List.drop (1 + m) (d0 :: rest)) := by
        simpa using axesAt_drop a _ (1 + m) _ 0 hAx
      have hrol : (List.drop (1 + m) (d0 :: rest)).length = n' - m := by
        rw [List.length_drop, hrl]; omega
      have hsro : ∀ d ∈ List.drop (1 + m) (d0 :: rest), (0 : Int) ≤ d.size :=
        fun d hd => hsr d (List.mem_of_mem_drop hd)
      have hsha := ply_sha_spec a (ply_order (n' + 1)) (1 + m) _ 0 hAxo hsro
      rw [hrol] at hsha
      have hsplit : a.dim.take (n' + 1)
          = (List.drop (1 + m) (d0 :: rest)).reverse ++ (List.take (1 + m) (d0 :: rest)).reverse := by
        rw [hfr, ← List.reverse_append, List.take_append_drop]
      simp only [ply_ravel, hnn, if_false, htn, Nat.succ_ne_zero, h0, hsz, bind, Except.bind,
        Nat.add_sub_cancel, hfu, hsha, hst]
      by_cases hall : ∀ d ∈ List.drop (1 + m) (d0 :: rest), d.size ≠ 0
      · have hpos : ∀ d ∈ List.drop (1 + m) (d0 :: rest), (1 : Int) ≤ d.size := by
          intro d hd
          have := hsro d hd
          have := hall d hd
          omega
        have hloop := ply_loop_spec a (ply_order (n' + 1)) (1 + m) _
          (psize (List.take (1 + m) (d0 :: rest))) d0.stride a.c.p (by simpa using hAxo)
          (ply_fuel ((List.drop (1 + m) (d0 :: rest)).map Dim.size))
          (List.replicate (List.drop (1 + m) (d0 :: rest)).length 0)
          (odo_valid_zeros _ hpos)
          (by
            rw [ply_fuel_eq _ hpos, ← odo_all _ hpos]
            simp)
        rw [offset_sum_zeros, add_zero, setp_self, hrol] at hloop
        rw [if_pos hall]
        simp only [hloop]
        congr 2
        rw [hsplit, row_major_append, ← odo_all _ hpos,
          row_major_fused d0.stride _ hfused (fun d hd => hsr d (by
            exact List.mem_of_mem_take (List.mem_reverse.mp hd))),
          psize_reverse, hrol]
        simp only [List.map_flatMap, List.flatMap_map, List.map_map, Function.comp_def]
        apply List.flatMap_congr
        intro t _
        rw [ply_inner_shift]
        apply List.map_congr_left
        intro x _
        ring
      · rw [if_neg hall]
        simp only
        congr 2
        have : ∃ d ∈ a.dim.take (n' + 1), d.size = 0 := by
          push_neg at hall
          obtain ⟨d, hd, hz⟩ := hall
          refine ⟨d, ?_, hz⟩
          rw [hfr]
          exact List.mem_reverse.mpr (List.mem_of_mem_drop hd)
        rw [row_major_zero _ this]
        rfl

theorem row_major_eq_map (l : List Dim) :
    row_major_offsets l = (multi_indices l).map (offset_sum l) := by
  induction l with
  | nil => simp [row_major_offsets, multi_indices, offset_sum]
  | cons d ds ih =>
    simp only [row_major_offsets, multi_indices, ih, List.map_flatMap, List.map_map,
      Function.comp_def, offset_sum_cons]

theorem mem_upto (n i : Int) : i ∈ upto n ↔ 0 ≤ i ∧ i < n := by
  simp only [upto, List.mem_map, List.mem_range]
  constructor
  · rintro ⟨k, hk, rfl⟩
    simp only [Int.ofNat_eq_coe]
    omega
  · rintro ⟨h0, h1⟩
    exact ⟨i.toNat, by omega, by simp only [Int.ofNat_eq_coe]; omega⟩

theorem nodup_upto (n : Int) : (upto n).Nodup := by
  unfold upto
  exact (List.nodup_range _).map fun a b h => by simpa using h

theorem nodup_multi_indices (l : List Dim) : (multi_indices l).Nodup := by
  induction l with
  | nil => simp [multi_indices]
  | cons d ds ih =>
    rw [multi_indices, List.nodup_flatMap]
    refine ⟨fun i _ => ih.map fun a b h => by simpa using h, ?_⟩
    refine (nodup_upto d.size).imp ?_
    intro i j hij
    simp only [Function.onFun, List.disjoint_left, List.mem_map]
    rintro x ⟨t, _, rfl⟩ ⟨t', _, h⟩
    simp only [List.cons.injEq] at h
    exact hij h.1.symm

theorem proddim_loop_eq (l : List Dim) : ∀ t : Int, proddim_loop l t = t * psize l := by
  induction l with
  | nil => intro t; simp [proddim_loop, psize]
  | cons d ds ih =>
    intro t
    rw [proddim_loop, ih]
    simp [psize, mul_assoc]

theorem proddim_eq (l : List Dim) : proddim l = psize l := by
  simp [proddim, proddim_loop_eq]

theorem length_row_major_int (l : List Dim) (h : ∀ d ∈ l, (0 : Int) ≤ d.size) :
    ((row_major_offsets l).length : Int) = psize l := by
  rw [length_row_major]
  induction l with
  | nil => simp [psize]
  | cons d ds ih =>
    have hd := h d (by simp)
    simp only [List.map_cons, List.prod_cons, Nat.cast_mul, psize] at ih ⊢
    rw [ih fun x hx => h x (by simp [hx]), Int.toNat_of_nonneg hd]

theorem iter_zero (v : View) : v.iter 0 = .ok ⟨v.dim, 0, ⟨[], v.p⟩⟩ := by
  simp [View.iter, cell_iterator.make, dependent_cell_rank, cell_dim_loop, bind, Except.bind]

theorem rank_of_cell_zero (a : cell_iterator)
    (h : dependent_cell_rank a.dim.length a.cellr_spec = 0) : a.rank = (a.dim.length : Int) := by
  simp [cell_iterator.rank, dependent_frame_rank, h]

theorem ply_ravel_cell_zero (a : cell_iterator)
    (hc : dependent_cell_rank a.dim.length a.cellr_spec = 0)
    (hs : ∀ d ∈ a.dim, (0 : Int) ≤ d.size) :
    ply_ravel a = .ok (a, (multi_indices a.dim).map fun idx => a.c.p + offset_sum a.dim idx) := by
  have h := ply_ravel_spec a a.dim.length (rank_of_cell_zero a hc) (le_refl _)
    (by simpa using hs)
  rw [List.take_length, row_major_eq_map, List.map_map] at h
  exact h

theorem in_bounds_cons_iff (d : Dim) (ds : List Dim) (i : Int) (is : List Int) :
    in_bounds (d :: ds) (i :: is) ↔ (0 ≤ i ∧ i < d.size) ∧ in_bounds ds is := by
  unfold in_bounds
  simp only [List.zip_cons_cons, List.forall_mem_cons]

theorem index_p_loop_fail (dim : List Dim) (p : List Int) (c : Int)
    (hl : p.length ≤ dim.length) (hb : ¬ in_bounds dim p) :
    index_p_loop dim p c = .error .check := by
  induction p generalizing dim c with
  | nil => exact absurd (by simp [in_bounds]) hb
  | cons i is ih =>
    cases dim with
    | nil => simp at hl
    | cons d ds =>
      by_cases hi : inside i d.size = true
      · simp only [index_p_loop, hi, if_true]
        apply ih ds _ (by simpa using hl)
        intro hrest
        apply hb
        exact (in_bounds_cons_iff d ds i is).2 ⟨(inside_iff _ _).1 hi, hrest⟩
      · simp [index_p_loop, hi]

/-- C11: `Indexer1::index_p` fails if and only if the multi-index is longer than the dope
vector or some index `p[k]` lies outside `[0, dim[k].size)`, and the failure is that of a
check; in particular it fails whenever the multi-index reaches an axis whose size is 0 or
negative, such as `DIM_BAD` and `DIM_ANY`. -/
theorem index_p_fails_iff :
    (∀ (dim : List Dim) (p : List Int),
      ((∃ e, Indexer1.index_p dim p = .error e) ↔ (dim.length < p.length ∨ ¬ in_bounds dim p))
      ∧ ((dim.length < p.length ∨ ¬ in_bounds dim p) → Indexer1.index_p dim p = .error .check))
    ∧ (∀ (dim : List Dim) (p : List Int) (k : Nat) (d : Dim) (i : Int),
        dim[k]? = some d → p[k]? = some i → d.size ≤ 0 →
          Indexer1.index_p dim p = .error .check)
    ∧ DIM_BAD < 0 ∧ DIM_ANY < 0 := by
  have hfail : ∀ (dim : List Dim) (p : List Int), (dim.length < p.length ∨ ¬ in_bounds dim p) →
      Indexer1.index_p dim p = .error .check := by
    intro dim p h
    by_cases hl : (dim.length : Int) ≥ p.length
    · have hl' : p.length ≤ dim.length := by exact_mod_cast hl
      rcases h with h | h
      · omega
      · simp only [Indexer1.index_p, hl, if_true]
        exact index_p_loop_fail dim p 0 hl' h
    · simp [Indexer1.index_p, hl]
  refine ⟨fun dim p => ⟨⟨?_, fun h => ⟨_, hfail dim p h⟩⟩, hfail dim p⟩, ?_, by decide, by decide⟩
  · rintro ⟨e, he⟩
    by_contra hn
    push_neg at hn
    have hl : (dim.length : Int) ≥ p.length := by exact_mod_cast hn.1
    simp only [Indexer1.index_p, hl, if_true] at he
    rw [index_p_loop_ok dim p 0 hn.1 hn.2] at he
    cases he
  · intro dim p k d i hd hp hsz
    apply hfail
    right
    intro hb
    have hz : (d, i) ∈ List.zip dim p := by
      rw [List.mem_iff_getElem?]
      exact ⟨k, by simp [List.getElem?_zip_eq_some, hd, hp]⟩
    have := hb (d, i) hz
    simp only at this
    omega

theorem index_p_fails_iff_witness :
    Indexer1.index_p [⟨3, 4⟩, ⟨DIM_BAD, 0⟩] [1, 0] = .error .check :=
  index_p_fails_iff.2.1 [⟨3, 4⟩, ⟨DIM_BAD, 0⟩] [1, 0] 1 ⟨DIM_BAD, 0⟩ 0 (by decide) (by decide)
    (by decide)

theorem in_bounds_or_sentinel_cons_iff (d : Dim) (ds : List Dim) (i : Int) (is : List Int) :
    in_bounds_or_sentinel (d :: ds) (i :: is)
      ↔ ((0 ≤ i ∧ i < d.size) ∨ (d.size = DIM_BAD ∧ d.stride = 0))
        ∧ in_bounds_or_sentinel ds is := by
  unfold in_bounds_or_sentinel
  simp only [List.zip_cons_cons, List.forall_mem_cons]

theorem index_short_loop_ok (dim : List Dim) (p : List Int) :
    ∀ (n k : Nat) (c : Int), n ≤ (dim.drop k).length → n ≤ (p.drop k).length →
      in_bounds_or_sentinel ((dim.drop k).take n) (p.drop k) →
      index_short_loop dim p n (k : Int) c
        = .ok (c + offset_sum ((dim.drop k).take n) (p.drop k)) := by
  intro n
  induction n with
  | zero => intro k c _ _ _; simp [index_short_loop, offset_sum]
  | succ n ih =>
    intro k c hd hp hb
    cases hdd : dim.drop k with
    | nil => rw [hdd] at hd; simp at hd
    | cons d dtl =>
      cases hpd : p.drop k with
      | nil => rw [hpd] at hp; simp at hp
      | cons i ptl =>
        rw [hdd, hpd] at hb
        rw [hdd] at hd
        rw [hpd] at hp
        obtain ⟨hrd, hdtl⟩ := rd_of_drop hdd
        obtain ⟨hrp, hptl⟩ := rd_of_drop hpd
        rw [List.take_succ_cons] at hb
        obtain ⟨h0, hrest⟩ := (in_bounds_or_sentinel_cons_iff _ _ _ _).1 hb
        have hc : (inside i d.size || (decide (d.size = DIM_BAD) && decide (d.stride = 0))) = true := by
          simpa [inside] using h0
        have hk : ¬ ((k : Int) < 0) := by omega
        have h2 := ih (k + 1) (c + d.stride * i) (by rw [hdtl]; simpa using hd)
          (by rw [hptl]; simpa using hp) (by rw [hdtl, hptl]; exact hrest)
        rw [hdtl, hptl] at h2
        simp only [index_short_loop, rdI, hk, if_false, Int.toNat_ofNat, hrd, hrp, bind,
          Except.bind, hc, if_true]
        rw [show ((k : Int) + 1) = ((k + 1 : Nat) : Int) by push_cast; rfl, h2,
          List.take_succ_cons, offset_sum_cons]
        congr 1
        ring

theorem zipWith_append_right_same {α β γ : Type} (f : α → β → γ) :
    ∀ (l : List α) (p px : List β), l.length = p.length →
      List.zipWith f l (p ++ px) = List.zipWith f l p := by
  intro l
  induction l with
  | nil => intro p px _; simp
  | cons x xs ih =>
    intro p px h
    cases p with
    | nil => simp at h
    | cons y ys => simp [ih ys px (by simpa using h)]

/-- C12: `Indexer1::index_short(framer, dim, p)` returns the sum of `dim[k].stride * p[k]`
over `k < framer` whenever each of these axes has its index within bounds or is the sentinel
`{DIM_BAD, 0}`; a sentinel axis is accepted for any index and adds nothing; what lies at
positions `>= framer` in `dim` and `p` is neither checked nor accumulated. -/
theorem index_short_offset :
    (∀ (framer : Nat) (dim : List Dim) (p : List Int),
      framer ≤ dim.length → framer ≤ p.length → in_bounds_or_sentinel (dim.take framer) p →
        Indexer1.index_short framer dim p = .ok (offset_sum (dim.take framer) p))
    ∧ (∀ (framer : Nat) (dim : List Dim) (p : List Int) (i : Int),
        framer ≤ dim.length → framer ≤ p.length → in_bounds_or_sentinel (dim.take framer) p →
          Indexer1.index_short (framer + 1 : Nat) (⟨DIM_BAD, 0⟩ :: dim) (i :: p)
            = .ok (offset_sum (dim.take framer) p))
    ∧ (∀ (framer : Nat) (dim : List Dim) (p : List Int) (dx : List Dim) (px : List Int),
        framer = dim.length → framer = p.length → in_bounds_or_sentinel dim p →
          Indexer1.index_short framer (dim ++ dx) (p ++ px) = .ok (offset_sum dim p))
    ∧ Indexer1.index_short 2 [⟨DIM_BAD, 0⟩, ⟨3, 2⟩, ⟨0, 7⟩] [100, 1, 55] = .ok 2 := by
  have main : ∀ (framer : Nat) (dim : List Dim) (p : List Int),
      framer ≤ dim.length → framer ≤ p.length → in_bounds_or_sentinel (dim.take framer) p →
        Indexer1.index_short framer dim p = .ok (offset_sum (dim.take framer) p) := by
    intro framer dim p hd hp hb
    have h := index_short_loop_ok dim p framer 0 0 (by simpa using hd) (by simpa using hp)
      (by simpa using hb)
    simpa [Indexer1.index_short] using h
  refine ⟨main, ?_, ?_, by decide⟩
  · intro framer dim p i hd hp hb
    have h := main (framer + 1) (⟨DIM_BAD, 0⟩ :: dim) (i :: p) (by simpa using hd)
      (by simpa using hp)
      (by
        rw [List.take_succ_cons]
        exact (in_bounds_or_sentinel_cons_iff _ _ _ _).2 ⟨Or.inr ⟨rfl, rfl⟩, hb⟩)
    rw [h, List.take_succ_cons, offset_sum_cons]
    simp
  · intro framer dim p dx px hd hp hb
    have ht : (dim ++ dx).take framer = dim := by rw [hd]; simp
    have hz : List.zip dim (p ++ px) = List.zip dim p := by
      unfold List.zip
      exact zipWith_append_right_same _ dim p px (by omega)
    have h := main framer (dim ++ dx) (p ++ px) (by simp; omega) (by simp; omega)
      (by rw [ht]; unfold in_bounds_or_sentinel; rw [hz]; exact hb)
    rw [h, ht, offset_sum, zipWith_append_right_same _ dim p px (by omega), offset_sum]

theorem index_short_offset_witness :
    Indexer1.index_short (2 : Nat) [⟨3, 4⟩, ⟨DIM_BAD, 0⟩, ⟨5, 1⟩] [2, 7, 9] = .ok 8 :=
  index_short_offset.1 2 [⟨3, 4⟩, ⟨DIM_BAD, 0⟩, ⟨5, 1⟩] [2, 7, 9] (by decide) (by decide)
    (by decide)

theorem proddim_wrap_loop_eq (l : List Dim) :
    ∀ t : Int, fits_dim t → proddim_wrap_loop l t = wrap_dim (t * psize l) := by
  induction l with
  | nil => intro t ht; simp [proddim_wrap_loop, psize, wrap_dim_fits t ht]
  | cons d ds ih =>
    intro t _
    rw [proddim_wrap_loop, ih _ (fits_wrap_dim _), wrap_dim_mul_left]
    simp only [psize, List.map_cons, List.prod_cons, mul_assoc]

theorem proddim_wrap_eq (l : List Dim) : proddim_wrap l = wrap_dim (psize l) := by
  rw [proddim_wrap, proddim_wrap_loop_eq l 1 (by decide), one_mul]

/-- C13, as stated, fails: the view with dimensions `{2^32, 1}, {2^32, 1}` has sizes whose
product is `2^64`, and `size()` returns 0. -/
theorem size_exceeds_dim_t :
    View.size_wrap ⟨[⟨2 ^ 32, 1⟩, ⟨2 ^ 32, 1⟩], 0⟩ = 0
      ∧ ((View.dim ⟨[⟨2 ^ 32, 1⟩, ⟨2 ^ 32, 1⟩], 0⟩).map Dim.size).prod = 2 ^ 64
      ∧ View.size_wrap ⟨[⟨2 ^ 32, 1⟩, ⟨2 ^ 32, 1⟩], 0⟩
          ≠ ((View.dim ⟨[⟨2 ^ 32, 1⟩, ⟨2 ^ 32, 1⟩], 0⟩).map Dim.size).prod := by
  decide

/-- C13, as the code has it: `size()` of a view is the product of the sizes of all its
dimensions whenever that product is within the range of `dim_t`: 1 for rank 0, 0 as soon as
one dimension has size 0, and 6 for the rank-2 view `{3,2},{2,1}`. -/
theorem size_eq_prod :
    (∀ v : View, fits_dim (v.dim.map Dim.size).prod → v.size_wrap = (v.dim.map Dim.size).prod)
    ∧ (∀ p : Int, View.size_wrap ⟨[], p⟩ = 1)
    ∧ (∀ v : View, (∃ d ∈ v.dim, d.size = 0) → v.size_wrap = 0)
    ∧ (View.rank ⟨[⟨3, 2⟩, ⟨2, 1⟩], 0⟩ = 2 ∧ View.size_wrap ⟨[⟨3, 2⟩, ⟨2, 1⟩], 0⟩ = 6)
    ∧ (∀ v : View, fits_dim (v.dim.map Dim.size).prod → v.size_wrap = v.size) := by
  have h : ∀ v : View, fits_dim (v.dim.map Dim.size).prod →
      v.size_wrap = (v.dim.map Dim.size).prod := by
    intro v hf
    rw [View.size_wrap, proddim_wrap_eq, psize, wrap_dim_fits _ hf]
  refine ⟨h, fun _ => rfl, ?_, by decide, ?_⟩
  · rintro v ⟨d, hd, hz⟩
    have hp : (v.dim.map Dim.size).prod = 0 := by
      apply List.prod_eq_zero
      rw [← hz]
      exact List.mem_map_of_mem _ hd
    rw [h v (by rw [hp]; decide), hp]
  · intro v hf
    rw [h v hf, View.size, proddim_eq, psize]

theorem size_eq_prod_witness :
    View.size_wrap ⟨[⟨4, 3⟩, ⟨7, 1⟩, ⟨5, 1⟩], 2⟩
      = ((View.dim ⟨[⟨4, 3⟩, ⟨7, 1⟩, ⟨5, 1⟩], 2⟩).map Dim.size).prod :=
  size_eq_prod.1 ⟨[⟨4, 3⟩, ⟨7, 1⟩, ⟨5, 1⟩], 2⟩ (by decide)

theorem rd_append_mid {α : Type} (l1 : List α) (x : α) (l2 : List α) :
    rd (l1 ++ x :: l2) l1.length = .ok x := by
  induction l1 with
  | nil => simp [rd]
  | cons y ys ih => simpa [rd_cons_succ] using ih

theorem fill_from_concat (next : Int) (d : Dim) :
    ∀ l : List Dim, fill_from next (l ++ [d])
      = fill_from (next * d.size) l ++ [{ size := d.size, stride := next }] := by
  intro l
  induction l with
  | nil => simp [fill_from, psize]
  | cons x xs ih =>
    rw [List.cons_append]
    simp only [fill_from, ih, psize_append, List.cons_append]
    congr 2
    simp only [psize, List.map_cons, List.map_nil, List.prod_cons, List.prod_nil, mul_one]
    ring

theorem filldim_loop_spec :
    ∀ (n : Nat) (pre mid post : List Dim) (next : Int), mid.length = n →
      filldim_loop n (pre ++ mid ++ post) (pre.length + n) next
        = if ∀ d ∈ mid, (0 : Int) ≤ d.size then
            .ok (next * psize mid, pre ++ fill_from next mid ++ post)
          else .error .check := by
  intro n
  induction n with
  | zero =>
    intro pre mid post next hm
    have : mid = [] := List.length_eq_zero.mp hm
    simp [filldim_loop, this, fill_from, psize]
  | succ n ih =>
    intro pre mid post next hm
    rcases List.eq_nil_or_concat mid with rfl | ⟨init, d, rfl⟩
    · simp at hm
    · simp only [List.concat_eq_append] at hm ⊢
      have hin : init.length = n := by simpa using hm
      have hne : ¬ (pre.length + (n + 1) = 0) := by omega
      have hidx : pre.length + (n + 1) - 1 = (pre ++ init).length := by simp [hin]
      have hr : rd (pre ++ (init ++ [d]) ++ post) (pre ++ init).length = .ok d := by
        have := rd_append_mid (pre ++ init) d post
        simpa using this
      have hw : wr (pre ++ (init ++ [d]) ++ post) (pre ++ init).length { d with stride := next }
          = .ok (pre ++ init ++ ({ d with stride := next } :: post)) := by
        have := wr_append (pre ++ init) d { d with stride := next } post
        simpa using this
      simp only [filldim_loop, hne, if_false, hidx, hr, bind, Except.bind]
      by_cases hd : d.size ≥ 0
      · have h2 := ih pre init ({ d with stride := next } :: post) (next * d.size) hin
        have hlen : (pre ++ init).length = pre.length + n := by simp [hin]
        rw [hlen] at hw hr ⊢
        simp only [hr, hd, if_true, hw]
        rw [h2]
        by_cases hall : ∀ x ∈ init, (0 : Int) ≤ x.size
        · have hall2 : ∀ x ∈ init ++ [d], (0 : Int) ≤ x.size := by
            intro x hx
            rcases List.mem_append.mp hx with h | h
            · exact hall x h
            · simp only [List.mem_singleton] at h; rw [h]; exact hd
          have e1 : next * d.size * psize init = next * (psize init * psize [d]) := by
            simp only [psize, List.map_cons, List.map_nil, List.prod_cons, List.prod_nil, mul_one]
            ring
          rw [if_pos hall, if_pos hall2, fill_from_concat, psize_append, e1]
          simp only [List.append_assoc, List.singleton_append]
        · have hall2 : ¬ ∀ x ∈ init ++ [d], (0 : Int) ≤ x.size := fun h =>
            hall fun x hx => h x (List.mem_append.mpr (Or.inl hx))
          rw [if_neg hall, if_neg hall2]
      · have hall2 : ¬ ∀ x ∈ init ++ [d], (0 : Int) ≤ x.size := fun h =>
          hd (h d (by simp))
        simp only [hr, hd, if_false, if_neg hall2]

theorem filldim_spec (pre last : List Dim) :
    filldim last.length (pre ++ last) (pre ++ last).length
      = if ∀ d ∈ last, (0 : Int) ≤ d.size then .ok (psize last, pre ++ c_strides last)
        else .error .check := by
  have h := filldim_loop_spec last.length pre last [] 1 rfl
  simp only [List.append_nil, one_mul] at h
  simp only [filldim, Int.toNat_ofNat, List.length_append, h, c_strides]

theorem c_strides_size (l : List Dim) : (c_strides l).map Dim.size = l.map Dim.size := by
  unfold c_strides
  generalize (1 : Int) = next
  induction l with
  | nil => rfl
  | cons d ds ih => simp [fill_from, ih]

theorem c_strides_stride (l : List Dim) (k : Nat) (d : Dim) (h : (c_strides l)[k]? = some d) :
    d.stride = psize (l.drop (k + 1)) := by
  unfold c_strides at h
  induction l generalizing k with
  | nil => simp [fill_from] at h
  | cons x xs ih =>
    cases k with
    | zero =>
      simp only [fill_from, List.getElem?_cons_zero, Option.some.injEq] at h
      rw [← h]; simp
    | succ k =>
      simp only [fill_from, List.getElem?_cons_succ] at h
      simpa using ih k h

/-- C15: `filldim(n, end)` fails if and only if one of the last `n` dimensions has a negative
size, and then with the failed check; `DIM_BAD` and `DIM_ANY` are negative; a size of 0
does not make it fail. -/
theorem filldim_fails_iff :
    (∀ pre last : List Dim,
      ((∃ e, filldim last.length (pre ++ last) (pre ++ last).length = .error e)
        ↔ ∃ d ∈ last, d.size < 0)
      ∧ ((∃ d ∈ last, d.size < 0) →
          filldim last.length (pre ++ last) (pre ++ last).length = .error .check))
    ∧ (DIM_BAD < 0 ∧ DIM_ANY < 0)
    ∧ (∀ pre last : List Dim, (∀ d ∈ last, d.size = 0 ∨ 0 < d.size) →
        ∃ r, filldim last.length (pre ++ last) (pre ++ last).length = .ok r) := by
  have hfail : ∀ pre last : List Dim, (∃ d ∈ last, d.size < 0) →
      filldim last.length (pre ++ last) (pre ++ last).length = .error .check := by
    rintro pre last ⟨d, hd, hneg⟩
    rw [filldim_spec, if_neg]
    intro h
    have := h d hd
    omega
  refine ⟨fun pre last => ⟨⟨?_, fun h => ⟨_, hfail pre last h⟩⟩, hfail pre last⟩,
    ⟨by decide, by decide⟩, ?_⟩
  · rintro ⟨e, he⟩
    by_contra hn
    push_neg at hn
    rw [filldim_spec, if_pos hn] at he
    cases he
  · intro pre last h
    have hall : ∀ d ∈ last, (0 : Int) ≤ d.size := by
      intro d hd
      rcases h d hd with h0 | h0 <;> omega
    exact ⟨_, by rw [filldim_spec, if_pos hall]⟩

theorem filldim_fails_iff_witness :
    filldim 2 [⟨3, 0⟩, ⟨DIM_ANY, 0⟩, ⟨4, 0⟩] 3 = .error .check :=
  (filldim_fails_iff.1 [⟨3, 0⟩] [⟨DIM_ANY, 0⟩, ⟨4, 0⟩]).2 ⟨⟨DIM_ANY, 0⟩, by decide, by decide⟩

/-! ## Theorems: empty traversals and `early` -/

theorem ply_inner_exit_eq {β : Type} (op : Int → Bool × β) (ss0 : Int) :
    ∀ (s : Nat) (p : Int), ply_inner_exit op ss0 s p = scan_found op (ply_inner ss0 s p) := by
  intro s
  induction s with
  | zero => intro p; rfl
  | succ s ih =>
    intro p
    simp only [ply_inner_exit, ply_inner, scan_found, ih]

theorem scan_found_append {β : Type} (op : Int → Bool × β) (l1 l2 : List Int) :
    scan_found op (l1 ++ l2)
      = match (scan_found op l1).1 with
        | some v => (some v, (scan_found op l1).2)
        | none => ((scan_found op l2).1, l1 ++ (scan_found op l2).2) := by
  induction l1 with
  | nil => simp [scan_found]
  | cons x xs ih =>
    by_cases hx : (op x).1 = true
    · simp [scan_found, hx]
    · rw [List.cons_append]
      simp only [scan_found, hx, Bool.false_eq_true, if_false]
      rw [ih]
      cases (scan_found op xs).1 <;> rfl

theorem scan_found_none {β : Type} (op : Int → Bool × β) (l : List Int)
    (h : (scan_found op l).1 = none) : (scan_found op l).2 = l := by
  induction l with
  | nil => rfl
  | cons x xs ih =>
    by_cases hx : (op x).1 = true
    · simp [scan_found, hx] at h
    · simp only [scan_found, hx, Bool.false_eq_true, if_false] at h ⊢
      rw [ih h]

theorem ply_loop_exit_of_loop {β : Type} (op : Int → Bool × β) (dflt : β) (order : List Int)
    (ocd : Nat) (sha : List Int) (ss ss0 : Int) :
    ∀ (fuel : Nat) (a : cell_iterator) (ind : List Int) (a' : cell_iterator) (tr : List Int),
      ply_loop order ocd sha ss ss0 fuel a ind = .ok (a', tr) →
      ply_loop_exit op dflt order ocd sha ss ss0 fuel a ind
        = .ok (((scan_found op tr).1).getD dflt, (scan_found op tr).2) := by
  intro fuel
  induction fuel with
  | zero => intro a ind a' tr h; simp [ply_loop] at h
  | succ fuel ih =>
    intro a ind a' tr h
    simp only [ply_loop, bind, Except.bind] at h
    cases hc : ply_carry order ocd sha ind 0 a with
    | error e => rw [hc] at h; simp at h
    | ok r =>
      obtain ⟨a1, ind1, go⟩ := r
      rw [hc] at h
      simp only at h
      simp only [ply_loop_exit, ply_inner_exit_eq]
      cases go with
      | false =>
        simp only [Bool.false_eq_true, if_false, Except.ok.injEq, Prod.mk.injEq] at h
        obtain ⟨-, rfl⟩ := h
        cases hs : (scan_found op (ply_inner ss0 ss.toNat a.flat)).1 with
        | some v =>
          have : scan_found op (ply_inner ss0 ss.toNat a.flat)
              = (some v, (scan_found op (ply_inner ss0 ss.toNat a.flat)).2) :=
            Prod.ext hs rfl
          rw [this]
          simp
        | none =>
          have : scan_found op (ply_inner ss0 ss.toNat a.flat)
              = (none, ply_inner ss0 ss.toNat a.flat) :=
            Prod.ext hs (scan_found_none op _ hs)
          rw [this]
          simp [hc, bind, Except.bind]
      | true =>
        simp only [if_true] at h
        cases hl : ply_loop order ocd sha ss ss0 fuel a1 ind1 with
        | error e => rw [hl] at h; simp at h
        | ok r2 =>
          obtain ⟨a2, rest⟩ := r2
          rw [hl] at h
          simp only [Except.ok.injEq, Prod.mk.injEq] at h
          obtain ⟨-, rfl⟩ := h
          have h2 := ih a1 ind1 a2 rest hl
          rw [scan_found_append]
          cases hs : (scan_found op (ply_inner ss0 ss.toNat a.flat)).1 with
          | some v =>
            have : scan_found op (ply_inner ss0 ss.toNat a.flat)
                = (some v, (scan_found op (ply_inner ss0 ss.toNat a.flat)).2) :=
              Prod.ext hs rfl
            rw [this]
            simp
          | none =>
            have : scan_found op (ply_inner ss0 ss.toNat a.flat)
                = (none, ply_inner ss0 ss.toNat a.flat) :=
              Prod.ext hs (scan_found_none op _ hs)
            rw [this]
            simp [hc, h2, bind, Except.bind]

theorem ply_ravel_exit_of_ravel {β : Type} (op : Int → Bool × β) (dflt : β) (a a' : cell_iterator)
    (tr : List Int) (h : ply_ravel a = .ok (a', tr)) :
    ply_ravel_exit op a dflt = .ok (((scan_found op tr).1).getD dflt, (scan_found op tr).2) := by
  unfold ply_ravel at h
  unfold ply_ravel_exit
  by_cases hr : a.rank < 0
  · simp [hr] at h
  · simp only [hr, if_false] at h ⊢
    by_cases h0 : a.rank.toNat = 0
    · simp only [h0, if_true, Except.ok.injEq, Prod.mk.injEq] at h ⊢
      obtain ⟨-, rfl⟩ := h
      by_cases hf : (op a.flat).1 = true <;> simp [scan_found, hf]
    · simp only [h0, if_false, bind, Except.bind] at h ⊢
      cases h1 : rd (ply_order a.rank.toNat) 0 with
      | error e => rw [h1] at h; simp at h
      | ok o0 =>
        rw [h1] at h
        simp only at h ⊢
        cases h2 : a.size o0 with
        | error e => rw [h2] at h; simp at h
        | ok ss =>
          rw [h2] at h
          simp only at h ⊢
          cases h3 : ply_fuse a (ply_order a.rank.toNat) (a.rank.toNat - 1) 1 ss with
          | error e => rw [h3] at h; simp at h
          | ok r =>
            obtain ⟨rank1, ocd, ss1⟩ := r
            rw [h3] at h
            simp only at h ⊢
            cases h4 : ply_sha a (ply_order a.rank.toNat) ocd rank1 0 with
            | error e => rw [h4] at h; simp at h
            | ok sh =>
              rw [h4] at h
              cases sh with
              | none =>
                simp only [Except.ok.injEq, Prod.mk.injEq] at h ⊢
                obtain ⟨-, rfl⟩ := h
                simp [scan_found]
              | some sha =>
                simp only at h ⊢
                cases h5 : a.stride o0 with
                | error e => rw [h5] at h; simp at h
                | ok ss0 =>
                  rw [h5] at h
                  simp only at h ⊢
                  exact ply_loop_exit_of_loop op dflt _ _ _ _ _ _ _ _ _ _ h

theorem length_row_major_addresses (a : cell_iterator) (hs : ∀ d ∈ a.dim, (0 : Int) ≤ d.size) :
    ((row_major_addresses a).length : Int) = proddim a.dim := by
  rw [proddim_eq, ← length_row_major_int a.dim hs, row_major_eq_map]
  simp [row_major_addresses]

/-- C16: over an iterator in which some axis has size 0 and the other axes have non-negative
sizes, `ply_ravel` applies the operation at no address and returns normally with the
iterator where it was; in `{2,0},{0,1}` the axis of size 0 is part of the fused run (no axis
is left to the odometer), in `{0,7},{3,1}` it is the one odometer axis. -/
theorem ply_ravel_zero_size :
    (∀ (a : cell_iterator) (n : Nat), a.rank = (n : Int) → n ≤ a.dim.length →
      (∀ d ∈ a.dim.take n, (0 : Int) ≤ d.size) → (∃ d ∈ a.dim.take n, d.size = 0) →
        ply_ravel a = .ok (a, []))
    ∧ (∀ v : View, (∀ d ∈ v.dim, (0 : Int) ≤ d.size) → (∃ d ∈ v.dim, d.size = 0) →
        (do let a ← v.iter 0; ply_ravel a) = .ok (⟨v.dim, 0, ⟨[], v.p⟩⟩, []))
    ∧ (ply_fuse ⟨[⟨2, 0⟩, ⟨0, 1⟩], 0, ⟨[], 0⟩⟩ (ply_order 2) 1 1 0 = .ok (0, 2, 0)
        ∧ ply_ravel ⟨[⟨2, 0⟩, ⟨0, 1⟩], 0, ⟨[], 0⟩⟩ = .ok (⟨[⟨2, 0⟩, ⟨0, 1⟩], 0, ⟨[], 0⟩⟩, []))
    ∧ (ply_fuse ⟨[⟨0, 7⟩, ⟨3, 1⟩], 0, ⟨[], 0⟩⟩ (ply_order 2) 1 1 3 = .ok (1, 1, 3)
        ∧ ply_ravel ⟨[⟨0, 7⟩, ⟨3, 1⟩], 0, ⟨[], 0⟩⟩ = .ok (⟨[⟨0, 7⟩, ⟨3, 1⟩], 0, ⟨[], 0⟩⟩, [])) := by
  have gen : ∀ (a : cell_iterator) (n : Nat), a.rank = (n : Int) → n ≤ a.dim.length →
      (∀ d ∈ a.dim.take n, (0 : Int) ≤ d.size) → (∃ d ∈ a.dim.take n, d.size = 0) →
        ply_ravel a = .ok (a, []) := by
    intro a n hn h1 hs hz
    rw [ply_ravel_spec a n hn h1 hs, row_major_zero _ hz]
    rfl
  refine ⟨gen, ?_, by decide, by decide⟩
  intro v hs hz
  have h := gen ⟨v.dim, 0, ⟨[], v.p⟩⟩ v.dim.length
    (by simp [cell_iterator.rank, dependent_frame_rank, dependent_cell_rank]) (le_refl _)
    (by simpa using hs) (by simpa using hz)
  simp only [iter_zero, bind, Except.bind, h]

theorem ply_ravel_zero_size_witness :
    ply_ravel ⟨[⟨3, 4⟩, ⟨0, 2⟩, ⟨2, 1⟩], 0, ⟨[], 9⟩⟩
      = .ok (⟨[⟨3, 4⟩, ⟨0, 2⟩, ⟨2, 1⟩], 0, ⟨[], 9⟩⟩, []) :=
  ply_ravel_zero_size.1 ⟨[⟨3, 4⟩, ⟨0, 2⟩, ⟨2, 1⟩], 0, ⟨[], 9⟩⟩ 3 (by decide) (by decide)
    (by decide) (by decide)

theorem DIM_BAD_ne_zero : DIM_BAD ≠ 0 := by decide

theorem ply_sha_bad (a : cell_iterator) (order : List Int) (ocd : Nat) :
    ∀ (pre : List Dim) (d : Dim) (post : List Dim) (k : Nat),
      AxesAt a order (ocd + k) (pre ++ d :: post) → d.size = DIM_BAD →
      (∀ x ∈ pre, x.size ≠ 0) →
      ply_sha a order ocd (pre ++ d :: post).length k = .error .check := by
  intro pre
  induction pre with
  | nil =>
    intro d post k hax hd _
    obtain ⟨⟨ax, hrd, -, hsz⟩, -⟩ := hax
    simp only [List.nil_append, List.length_cons, ply_sha, hrd, hsz, bind, Except.bind, hd,
      DIM_BAD_ne_zero, if_false, if_true]
  | cons x xs ih =>
    intro d post k hax hd hnz
    obtain ⟨⟨ax, hrd, -, hsz⟩, hax'⟩ := hax
    have hx : x.size ≠ 0 := hnz x (by simp)
    have h2 := ih d post (k + 1) (by rwa [Nat.add_assoc] at hax') hd
      fun y hy => hnz y (by simp [hy])
    simp only [List.cons_append, List.length_cons] at h2 ⊢
    simp only [ply_sha, hrd, hsz, bind, Except.bind, hx, if_false, h2]
    split <;> rfl

theorem fused_suffix (st0 : Int) : ∀ l1 l2 : List Dim, Fused st0 (l1 ++ l2) → Fused st0 l2 := by
  intro l1
  induction l1 with
  | nil => intro l2 h; simpa using h
  | cons x xs ih => intro l2 h; exact ih l2 h.2

theorem psize_pos (l : List Dim) (h : ∀ d ∈ l, (1 : Int) ≤ d.size) : 0 < psize l := by
  induction l with
  | nil => simp [psize]
  | cons d ds ih =>
    simp only [psize, List.map_cons, List.prod_cons]
    have h1 : (1 : Int) ≤ d.size := h d (by simp)
    exact mul_pos (by omega) (ih fun x hx => h x (by simp [hx]))

theorem ply_ravel_bad_outer (a : cell_iterator) (n : Nat) (ss : Int) (r ocd : Nat) (ss1 : Int)
    (pre post : List Dim) (d : Dim) (hn : a.rank = ((n + 1 : Nat) : Int))
    (h1 : n + 1 ≤ a.dim.length) (hss : a.size (n : Int) = .ok ss)
    (hfu : ply_fuse a (ply_order (n + 1)) n 1 ss = .ok (r, ocd, ss1))
    (hdrop : (a.dim.take (n + 1)).reverse.drop ocd = pre ++ d :: post)
    (hd : d.size = DIM_BAD) (hnz : ∀ x ∈ pre, x.size ≠ 0) :
    ply_ravel a = .error .check := by
  have hnn : ¬ (a.rank < 0) := by omega
  have htn : a.rank.toNat = n + 1 := by omega
  have hlen : (a.dim.take (n + 1)).length = n + 1 := by simp only [List.length_take]; omega
  have hAx := frame_axes a (n + 1) hn h1
  have h0 : rd (ply_order (n + 1)) 0 = .ok (n : Int) := by
    have := rd_ply_order (n + 1) 0 (by omega)
    simpa using this
  cases hrv : (a.dim.take (n + 1)).reverse with
  | nil =>
    have := congrArg List.length hrv
    simp only [List.length_reverse, hlen] at this
    simp at this
  | cons d0 rest =>
    rw [hrv] at hAx hdrop
    have hrl : (d0 :: rest).length = n + 1 := by rw [← hrv, List.length_reverse, hlen]
    obtain ⟨⟨ax0, h0', hst, hsz⟩, -⟩ := id hAx
    rw [h0] at h0'
    simp only [Except.ok.injEq] at h0'
    subst h0'
    obtain ⟨m, hm, hfu', -⟩ := ply_fuse_spec a (ply_order (n + 1)) (d0 :: rest) (n : Int) d0.stride
      h0 hst n 1 (by simpa using axesAt_drop a _ 1 _ 0 hAx) (by rw [hrl]; omega)
      (by simp [Fused, psize])
    have hps1 : psize (List.take 1 (d0 :: rest)) = d0.size := by simp [psize]
    rw [hps1] at hfu'
    rw [hsz] at hss
    simp only [Except.ok.injEq] at hss
    subst hss
    rw [hfu'] at hfu
    simp only [Except.ok.injEq, Prod.mk.injEq] at hfu
    obtain ⟨hr, hocd, -⟩ := hfu
    have hAxo : AxesAt a (ply_order (n + 1)) (ocd + 0) (pre ++ d :: post) := by
      have := axesAt_drop a _ ocd _ 0 hAx
      rw [hdrop] at this
      simpa using this
    have hlen2 : (pre ++ d :: post).length = r := by
      rw [← hdrop, List.length_drop, hrl]; omega
    have hsha := ply_sha_bad a (ply_order (n + 1)) ocd pre d post 0 hAxo hd hnz
    rw [hlen2] at hsha
    simp only [ply_ravel, hnn, if_false, htn, Nat.succ_ne_zero, h0, hsz, bind, Except.bind,
      Nat.add_sub_cancel, hfu', hr, hocd, hsha]

theorem ply_fuse_frame (a : cell_iterator) (n : Nat) (hn : a.rank = ((n + 1 : Nat) : Int))
    (h1 : n + 1 ≤ a.dim.length) :
    ∃ d0 rest m, (a.dim.take (n + 1)).reverse = d0 :: rest
      ∧ a.size (n : Int) = .ok d0.size ∧ m ≤ n
      ∧ ply_fuse a (ply_order (n + 1)) n 1 d0.size
          = .ok (n - m, 1 + m, psize ((d0 :: rest).take (1 + m)))
      ∧ Fused d0.stride ((d0 :: rest).take (1 + m)).reverse := by
  have hlen : (a.dim.take (n + 1)).length = n + 1 := by simp only [List.length_take]; omega
  have hAx := frame_axes a (n + 1) hn h1
  have h0 : rd (ply_order (n + 1)) 0 = .ok (n : Int) := by
    have := rd_ply_order (n + 1) 0 (by omega)
    simpa using this
  cases hrv : (a.dim.take (n + 1)).reverse with
  | nil =>
    have := congrArg List.length hrv
    simp only [List.length_reverse, hlen] at this
    simp at this
  | cons d0 rest =>
    rw [hrv] at hAx
    have hrl : (d0 :: rest).length = n + 1 := by rw [← hrv, List.length_reverse, hlen]
    obtain ⟨⟨ax0, h0', hst, hsz⟩, -⟩ := id hAx
    rw [h0] at h0'
    simp only [Except.ok.injEq] at h0'
    subst h0'
    obtain ⟨m, hm, hfu', hF⟩ := ply_fuse_spec a (ply_order (n + 1)) (d0 :: rest) (n : Int) d0.stride
      h0 hst n 1 (by simpa using axesAt_drop a _ 1 _ 0 hAx) (by rw [hrl]; omega)
      (by simp [Fused, psize])
    have hps1 : psize (List.take 1 (d0 :: rest)) = d0.size := by simp [psize]
    rw [hps1] at hfu'
    exact ⟨d0, rest, m, rfl, hsz, hm, hfu', hF⟩

theorem ply_ravel_inserted (a : cell_iterator) (outer inner : List Dim) (dl : Dim)
    (hn : a.rank = ((outer.length + inner.length + 2 : Nat) : Int))
    (hdim : a.dim.take (outer.length + inner.length + 2)
      = outer ++ ⟨DIM_BAD, 0⟩ :: (inner ++ [dl]))
    (hin : ∀ x ∈ inner, (1 : Int) ≤ x.size) (hdl : (1 : Int) ≤ dl.size)
    (hst : dl.stride ≠ 0) : ply_ravel a = .error .check := by
  have hlen : outer.length + inner.length + 1 + 1 ≤ a.dim.length := by
    have := congrArg List.length hdim
    simp only [List.length_take, List.length_append, List.length_cons, List.length_nil] at this
    omega
  obtain ⟨d0, rest, m, hrv, hsz, hm, hfu, hF⟩ :=
    ply_fuse_frame a (outer.length + inner.length + 1) hn hlen
  have hrv2 : d0 :: rest = (dl :: inner.reverse) ++ ⟨DIM_BAD, 0⟩ :: outer.reverse := by
    rw [← hrv, hdim]; simp
  have hd0 : d0 = dl := by
    have := congrArg List.head? hrv2
    simpa using this
  subst hd0
  have hpos : ∀ x ∈ inner ++ [d0], (1 : Int) ≤ x.size := by
    intro x hx
    rcases List.mem_append.1 hx with h | h
    · exact hin x h
    · simp only [List.mem_singleton] at h; rw [h]; exact hdl
  have hle : 1 + m ≤ inner.length + 1 := by
    by_contra hgt
    have hsplit : (d0 :: rest).take (1 + m)
        = ((d0 :: inner.reverse) ++ [⟨DIM_BAD, 0⟩])
          ++ (outer.reverse).take (1 + m - (inner.length + 2)) := by
      rw [hrv2]
      have e : (d0 :: inner.reverse) ++ ⟨DIM_BAD, 0⟩ :: outer.reverse
          = ((d0 :: inner.reverse) ++ [⟨DIM_BAD, 0⟩]) ++ outer.reverse := by simp
      rw [e, List.take_append_eq_append_take]
      have hl : ((d0 :: inner.reverse) ++ [(⟨DIM_BAD, 0⟩ : Dim)]).length = inner.length + 2 := by
        simp
      rw [hl, List.take_of_length_le (by rw [hl]; omega)]
    rw [hsplit] at hF
    have hF2 : Fused d0.stride
        (((outer.reverse).take (1 + m - (inner.length + 2))).reverse
          ++ (⟨DIM_BAD, 0⟩ :: (inner ++ [d0]))) := by
      have e : (((d0 :: inner.reverse) ++ [(⟨DIM_BAD, 0⟩ : Dim)])
            ++ (outer.reverse).take (1 + m - (inner.length + 2))).reverse
          = ((outer.reverse).take (1 + m - (inner.length + 2))).reverse
            ++ (⟨DIM_BAD, 0⟩ :: (inner ++ [d0])) := by simp
      rw [← e]; exact hF
    have hF3 := fused_suffix _ _ _ hF2
    have hp := psize_pos _ hpos
    have h0 : psize (inner ++ [d0]) * d0.stride = 0 := hF3.1
    rcases mul_eq_zero.1 h0 with h | h
    · omega
    · exact hst h
  have hdrop : (a.dim.take (outer.length + inner.length + 1 + 1)).reverse.drop (1 + m)
      = (d0 :: inner.reverse).drop (1 + m) ++ ⟨DIM_BAD, 0⟩ :: outer.reverse := by
    rw [hrv, hrv2, List.drop_append_of_le_length (by simpa using hle)]
  refine ply_ravel_bad_outer a (outer.length + inner.length + 1) d0.size _ _ _ _ _ _ hn hlen hsz
    hfu hdrop rfl ?_
  intro x hx
  have hx2 := List.mem_of_mem_drop hx
  have : (1 : Int) ≤ x.size := by
    apply hpos
    simp only [List.mem_cons, List.mem_reverse] at hx2
    simp only [List.mem_append, List.mem_singleton]
    tauto
  omega

theorem ply_ravel_rank_one (d : Dim) (cdim : List Dim) (p : Int) :
    ply_ravel ⟨[d], 0, ⟨cdim, p⟩⟩
      = .ok (⟨[d], 0, ⟨cdim, p⟩⟩, ply_inner d.stride d.size.toNat p) := by
  have hr : cell_iterator.rank ⟨[d], 0, ⟨cdim, p⟩⟩ = 1 := by
    simp [cell_iterator.rank, dependent_frame_rank, dependent_cell_rank]
  simp [ply_ravel, hr, ply_order, rd, cell_iterator.size, cell_iterator.stride, inside, rdI,
    ply_fuse, ply_sha, ply_fuel, ply_loop, ply_carry, cell_iterator.flat, bind, Except.bind,
    Except.map]

/-- C17 fails on the code: `ply_ravel` over the iterator of rank 1 whose one axis is the
inserted axis `{DIM_BAD, 0}` returns normally, the operation applied nowhere: the size of the
innermost axis is never compared with `DIM_BAD`; it is so for every stride and address. So
does the traversal of the view that "insert 1" makes of a view of rank 0. The check is made
on the axes left to the odometer: the same inserted axis in front of a compact 3 by 2 view
ends the traversal with a check error. -/
theorem ply_ravel_bad_innermost :
    cell_iterator.rank ⟨[⟨DIM_BAD, 0⟩], 0, ⟨[], 0⟩⟩ = 1
    ∧ ply_ravel ⟨[⟨DIM_BAD, 0⟩], 0, ⟨[], 0⟩⟩ = .ok (⟨[⟨DIM_BAD, 0⟩], 0, ⟨[], 0⟩⟩, [])
    ∧ (∀ st p : Int,
        ply_ravel ⟨[⟨DIM_BAD, st⟩], 0, ⟨[], p⟩⟩ = .ok (⟨[⟨DIM_BAD, st⟩], 0, ⟨[], p⟩⟩, []))
    ∧ View.call ⟨[], 0⟩ [.insert 1] = .ok ⟨[⟨DIM_BAD, 0⟩], 0⟩
    ∧ (do
        let v ← View.call ⟨[], 0⟩ [.insert 1]
        let a ← v.iter 0
        ply_ravel a) = .ok (⟨[⟨DIM_BAD, 0⟩], 0, ⟨[], 0⟩⟩, [])
    ∧ (do
        let v ← View.call ⟨[⟨3, 2⟩, ⟨2, 1⟩], 0⟩ [.insert 1, .dots 2]
        let a ← v.iter 0
        ply_ravel a) = .error .check := by
  refine ⟨by decide, by decide, ?_, by decide, by decide, by decide⟩
  intro st p
  rw [ply_ravel_rank_one]
  rfl

/-! ## Theorems: slices traversed -/

theorem beat_ints : ∀ (src : List Dim) (i : List Int), i.length ≤ src.length → in_bounds src i →
    beat src (i.map Index.int) = some (offset_sum src i, [], src.drop i.length) := by
  intro src i
  induction i generalizing src with
  | nil => intro _ _; simp [beat, offset_sum]
  | cons x xs ih =>
    intro hl hb
    cases src with
    | nil => simp at hl
    | cons d ds =>
      obtain ⟨h0, hrest⟩ := (in_bounds_cons_iff _ _ _ _).1 hb
      have := ih ds (by simpa using hl) hrest
      simp only [List.map_cons, beat, h0, and_self, if_true, this, Option.map_some',
        offset_sum_cons, List.length_cons, List.drop_succ_cons]

theorem select_loop_ints_fail (src : List Dim) (idx : List Int) (buf : DimBuf) (d s : Nat)
    (hl : idx.length ≤ (src.drop s).length) (hb : ¬ in_bounds (src.drop s) idx) :
    select_loop src (idx.map Index.int) buf d s = .error .check := by
  induction idx generalizing s with
  | nil => exact absurd (by simp [in_bounds]) hb
  | cons i is ih =>
    cases hd : src.drop s with
    | nil => rw [hd] at hl; simp at hl
    | cons x tl =>
      rw [hd] at hl hb
      obtain ⟨hr, htl⟩ := rd_of_drop hd
      by_cases h0 : 0 ≤ i ∧ i < x.size
      · have hi : inside i x.size = true := (inside_iff _ _).2 h0
        have hrest : ¬ in_bounds tl is := fun h => hb ((in_bounds_cons_iff _ _ _ _).2 ⟨h0, h⟩)
        have := ih (s + 1) (by rw [htl]; simpa using hl) (by rw [htl]; exact hrest)
        simp only [List.map_cons, select_loop, select_int, hr, is_beatable.skip,
          is_beatable.skip_src, Nat.add_zero, bind, Except.bind, hi, if_true, this]
      · have hi : inside i x.size = false := by
          rw [← Bool.not_eq_true, inside_iff]; exact h0
        simp only [List.map_cons, select_loop, select_int, hr, bind, Except.bind, hi]
        rfl

theorem call_ints_fail (v : View) (i : List Int) (hl : i.length ≤ v.dim.length)
    (hb : ¬ in_bounds v.dim i) :
    v.call (i.map Index.int) = .error .check ∧ v.call_fixed (i.map Index.int) = .error .check := by
  have h : ∀ buf, select_loop v.dim (i.map Index.int) buf 0 0 = .error .check := fun buf =>
    select_loop_ints_fail v.dim i buf 0 0 (by simpa using hl) (by simpa using hb)
  constructor
  · unfold View.call
    split
    · rfl
    · simp only [subscript_core, h, bind, Except.bind]
  · unfold View.call_fixed
    split
    · rfl
    · simp only [subscript_core, h, bind, Except.bind]

theorem at_ok (v : View) (i : List Int) (hl : i.length ≤ v.dim.length) (hb : in_bounds v.dim i) :
    v.at i = .ok ⟨v.dim.drop i.length, v.p + offset_sum v.dim i⟩
    ∧ v.at_fixed i.length i = .ok ⟨v.dim.drop i.length, v.p + offset_sum v.dim i⟩
    ∧ v.at_fixed DIM_ANY i = .ok ⟨v.dim.drop i.length, v.p + offset_sum v.dim i⟩ := by
  have hp : Indexer1.index_p v.dim i = .ok (offset_sum v.dim i) := by
    have h : (v.dim.length : Int) ≥ i.length := by exact_mod_cast hl
    simp only [Indexer1.index_p, h, if_true]
    rw [index_p_loop_ok v.dim i 0 hl hb]
    simp
  have hnl : ¬ v.dim.length < i.length := by omega
  have hany : ∀ n : Nat, (n : Int) ≠ RANK_ANY := by
    intro n h
    have : RANK_ANY < 0 := by decide
    omega
  refine ⟨?_, ?_, ?_⟩
  · simp only [View.at, hnl, if_false, hp, bind, Except.bind]
  · have hsub : rank_diff v.rank i.length = ((v.dim.length - i.length : Nat) : Int) := by
      simp only [rank_diff, View.rank, hany, if_false]
      omega
    have htk : (v.dim.drop i.length).take (v.dim.length - i.length) = v.dim.drop i.length := by
      apply List.take_of_length_le
      simp
    have hn0 : ¬ (((v.dim.length - i.length : Nat) : Int) < 0) := by omega
    simp only [View.at_fixed, hsub, hany, if_false, hn0, Int.toNat_ofNat, htk, hp, bind,
      Except.bind]
  · have hsub : rank_diff v.rank DIM_ANY = RANK_ANY := by
      simp [rank_diff, DIM_ANY, RANK_ANY]
    simp only [View.at_fixed, hsub, if_true, hnl, if_false, hp, bind, Except.bind]

theorem at_fail (v : View) (i : List Int) (hl : i.length ≤ v.dim.length)
    (hb : ¬ in_bounds v.dim i) :
    v.at i = .error .check ∧ v.at_fixed i.length i = .error .check
    ∧ v.at_fixed DIM_ANY i = .error .check := by
  have hp : Indexer1.index_p v.dim i = .error .check := by
    have h : (v.dim.length : Int) ≥ i.length := by exact_mod_cast hl
    simp only [Indexer1.index_p, h, if_true]
    exact index_p_loop_fail v.dim i 0 hl hb
  have hnl : ¬ v.dim.length < i.length := by omega
  have hany : ∀ n : Nat, (n : Int) ≠ RANK_ANY := by
    intro n h
    have : RANK_ANY < 0 := by decide
    omega
  refine ⟨?_, ?_, ?_⟩
  · simp only [View.at, hnl, if_false, hp, bind, Except.bind]
  · have hsub : rank_diff v.rank i.length = ((v.dim.length - i.length : Nat) : Int) := by
      simp only [rank_diff, View.rank, hany, if_false]
      omega
    have hn0 : ¬ (((v.dim.length - i.length : Nat) : Int) < 0) := by omega
    simp only [View.at_fixed, hsub, hany, if_false, hn0, hp, bind, Except.bind]
  · have hsub : rank_diff v.rank DIM_ANY = RANK_ANY := by
      simp [rank_diff, DIM_ANY, RANK_ANY]
    simp only [View.at_fixed, hsub, if_true, hnl, if_false, hp, bind, Except.bind]

/-- C22: for a list of `k <= rank` integer indices within bounds, `View::at` (through
`index_p`) and `View::operator()` (through `select_loop`) give the same sub-view, whose
pointer is moved by the sum of `stride[j]*index[j]` and whose dope vector is the last
`rank-k` source dimensions; this holds for the views of run-time rank and of fixed rank, and
with `k = rank` the operator of fixed rank gives the element at that same address. With an
index out of bounds all of them fail, with a check failure. For the view `{3,1},{2,3}` over
`[1..6]`, `r(1)` and `r.at({1})` are both `[2,5]` and `r.at({})` is the whole view. -/
theorem at_eq_call :
    (∀ (v : View) (i : List Int), i.length ≤ v.dim.length → in_bounds v.dim i →
      v.at i = .ok ⟨v.dim.drop i.length, v.p + offset_sum v.dim i⟩
      ∧ v.call (i.map Index.int) = .ok ⟨v.dim.drop i.length, v.p + offset_sum v.dim i⟩
      ∧ v.at_fixed i.length i = .ok ⟨v.dim.drop i.length, v.p + offset_sum v.dim i⟩
      ∧ v.at_fixed DIM_ANY i = .ok ⟨v.dim.drop i.length, v.p + offset_sum v.dim i⟩)
    ∧ (∀ (v : View) (i : List Int), i.length < v.dim.length → in_bounds v.dim i →
      v.call_fixed (i.map Index.int) = .ok ⟨v.dim.drop i.length, v.p + offset_sum v.dim i⟩)
    ∧ (∀ (mem : Int → Int) (v : View) (i : List Int), i.length = v.dim.length →
      in_bounds v.dim i →
        v.call_scalar mem i = .ok (mem (v.p + offset_sum v.dim i))
        ∧ v.at_fixed i.length i = .ok ⟨[], v.p + offset_sum v.dim i⟩)
    ∧ (∀ (mem : Int → Int) (v : View) (i : List Int), i.length ≤ v.dim.length →
      ¬ in_bounds v.dim i →
        v.at i = .error .check ∧ v.call (i.map Index.int) = .error .check
        ∧ v.at_fixed i.length i = .error .check ∧ v.at_fixed DIM_ANY i = .error .check
        ∧ v.call_fixed (i.map Index.int) = .error .check
        ∧ v.call_scalar mem i = .error .check)
    ∧ ((do let w ← View.call ⟨[⟨3, 1⟩, ⟨2, 3⟩], 0⟩ [.int 1]
           View.elements (mem_of [1, 2, 3, 4, 5, 6]) w) = .ok [2, 5]
      ∧ (do let w ← View.at ⟨[⟨3, 1⟩, ⟨2, 3⟩], 0⟩ [1]
            View.elements (mem_of [1, 2, 3, 4, 5, 6]) w) = .ok [2, 5]
      ∧ (do let w ← View.at_fixed ⟨[⟨3, 1⟩, ⟨2, 3⟩], 0⟩ 1 [1]
            View.elements (mem_of [1, 2, 3, 4, 5, 6]) w) = .ok [2, 5]
      ∧ View.at ⟨[⟨3, 1⟩, ⟨2, 3⟩], 0⟩ [] = .ok ⟨[⟨3, 1⟩, ⟨2, 3⟩], 0⟩
      ∧ View.at_fixed ⟨[⟨3, 1⟩, ⟨2, 3⟩], 0⟩ 0 [] = .ok ⟨[⟨3, 1⟩, ⟨2, 3⟩], 0⟩) := by
  refine ⟨?_, ?_, ?_, ?_, by decide⟩
  · intro v i hl hb
    obtain ⟨h1, h2, h3⟩ := at_ok v i hl hb
    have hc := (call_beat v (i.map Index.int) _ _ _ (beat_ints v.dim i hl hb)).1
    simp only [List.nil_append] at hc
    exact ⟨h1, hc, h2, h3⟩
  · intro v i hl hb
    have hc := (call_beat v (i.map Index.int) _ _ _ (beat_ints v.dim i (by omega) hb)).2
    simpa only [List.nil_append] using hc
  · intro mem v i hl hb
    have h := select_loop_ints v.dim i [] 0 0 (by simp [hl]) (by simpa using hb)
    simp only [List.drop_zero] at h
    have h2 := (at_ok v i (by omega) hb).2.1
    have hd : v.dim.drop i.length = [] := by rw [hl]; simp
    rw [hd] at h2
    exact ⟨by simp [View.call_scalar, h, bind, Except.bind], h2⟩
  · intro mem v i hl hb
    obtain ⟨h1, h2, h3⟩ := at_fail v i hl hb
    obtain ⟨h4, h5⟩ := call_ints_fail v i hl hb
    have h := select_loop_ints_fail v.dim i [] 0 0 (by simpa using hl) (by simpa using hb)
    exact ⟨h1, h4, h2, h3, h5, by simp only [View.call_scalar, h, bind, Except.bind]⟩

theorem at_eq_call_witness :
    View.at ⟨[⟨3, 1⟩, ⟨2, 3⟩, ⟨4, 6⟩], 5⟩ [2, 1]
      = .ok ⟨List.drop ([2, 1] : List Int).length [⟨3, 1⟩, ⟨2, 3⟩, ⟨4, 6⟩],
          5 + offset_sum [⟨3, 1⟩, ⟨2, 3⟩, ⟨4, 6⟩] [2, 1]⟩ :=
  (at_eq_call.1 ⟨[⟨3, 1⟩, ⟨2, 3⟩, ⟨4, 6⟩], 5⟩ [2, 1] (by decide) (by decide)).1

/-! ## Theorems: `cell_iterator` -/

theorem cell_frame_rank_facts (r c : Int) (h1 : -r ≤ c) (h2 : c ≤ r) :
    dependent_frame_rank r c + dependent_cell_rank r c = r
    ∧ (0 ≤ c → dependent_cell_rank r c = c) ∧ (c < 0 → dependent_cell_rank r c = r + c)
    ∧ 0 ≤ dependent_cell_rank r c ∧ dependent_cell_rank r c ≤ r
    ∧ 0 ≤ dependent_frame_rank r c ∧ dependent_frame_rank r c ≤ r := by
  unfold dependent_frame_rank dependent_cell_rank
  split <;> omega

theorem cell_dim_loop_spec (dim_ : List Dim) (f : Nat) :
    ∀ (n k : Nat) (slots : List Dim), slots.length = n → f + k + n = dim_.length →
      cell_dim_loop dim_ (f : Int) n (k : Int) ((dim_.drop f).take k ++ slots)
        = .ok (dim_.drop f) := by
  intro n
  induction n with
  | zero =>
    intro k slots hs hl
    have : slots = [] := List.length_eq_zero.1 hs
    subst this
    simp only [cell_dim_loop, List.append_nil]
    rw [List.take_of_length_le (by simp; omega)]
  | succ n ih =>
    intro k slots hs hl
    cases slots with
    | nil => simp at hs
    | cons s0 slots =>
      have hk : k + f < dim_.length := by omega
      have hx : dim_[k + f]? = some (dim_.get ⟨k + f, hk⟩) := by simp
      have hnn : ¬ ((k : Int) + (f : Int) < 0) := by omega
      have htn : ((k : Int) + (f : Int)).toNat = k + f := by omega
      have hkn : ¬ ((k : Int) < 0) := by omega
      have hlen : ((dim_.drop f).take k).length = k := by simp; omega
      have hw : k < ((dim_.drop f).take k ++ s0 :: slots).length := by simp; omega
      have hset : ((dim_.drop f).take k ++ s0 :: slots).set k (dim_.get ⟨k + f, hk⟩)
          = (dim_.drop f).take (k + 1) ++ slots := by
        rw [List.set_append_right _ _ (by omega), hlen, Nat.sub_self, List.set_cons_zero]
        have hd : (dim_.drop f)[k]? = some (dim_.get ⟨k + f, hk⟩) := by
          rw [List.getElem?_drop, Nat.add_comm]; exact hx
        rw [List.take_succ, hd]
        simp
      have hih := ih (k + 1) slots (by simpa using hs) (by omega)
      simp only [cell_dim_loop, rdI, hnn, if_false, htn, rd, hx, wrI, hkn, Int.toNat_ofNat, wr,
        hw, if_true, hset, bind, Except.bind]
      exact_mod_cast hih

theorem make_spec (dim_ : List Dim) (c p : Int) (f : Nat)
    (hf : dependent_frame_rank dim_.length c = (f : Int)) (hle : f ≤ dim_.length) :
    cell_iterator.make dim_ c p = .ok ⟨dim_, c, ⟨dim_.drop f, p⟩⟩ := by
  have hc : dependent_cell_rank dim_.length c = ((dim_.length - f : Nat) : Int) := by
    unfold dependent_frame_rank at hf
    omega
  have hnn : ¬ (((dim_.length - f : Nat) : Int) < 0) := by omega
  have h := cell_dim_loop_spec dim_ f (dim_.length - f) 0
    (List.replicate (dim_.length - f) ⟨0, 0⟩) (by simp) (by omega)
  simp only [List.take_zero, List.nil_append, Nat.cast_zero] at h
  simp only [cell_iterator.make, hc, hf, hnn, if_false, Int.toNat_ofNat, h, bind, Except.bind]

theorem size_spec (a : cell_iterator) (k : Nat) (d : Dim) (hk : (k : Int) < a.rank)
    (hd : a.dim[k]? = some d) : a.size (k : Int) = .ok d.size := by
  have hi : inside (k : Int) a.rank = true := (inside_iff _ _).2 ⟨by omega, hk⟩
  have hnn : ¬ ((k : Int) < 0) := by omega
  simp only [cell_iterator.size, hi, if_true, rdI, hnn, if_false, Int.toNat_ofNat, rd, hd,
    Except.map]

theorem stride_spec (a : cell_iterator) (k : Nat) (d : Dim) (hk : (k : Int) < a.rank)
    (hd : a.dim[k]? = some d) : a.stride (k : Int) = .ok d.stride := by
  have hnn : ¬ ((k : Int) < 0) := by omega
  simp only [cell_iterator.stride, hk, if_true, rdI, hnn, if_false, Int.toNat_ofNat, rd, hd,
    Except.map]

theorem shape_from_spec (a : cell_iterator) (f : Nat) (hf : a.rank = (f : Int))
    (hle : f ≤ a.dim.length) :
    ∀ (n k : Nat), k + n ≤ f →
      shape_from a n (k : Int) = .ok (((a.dim.drop k).take n).map Dim.size) := by
  intro n
  induction n with
  | zero => intro k _; simp [shape_from]
  | succ n ih =>
    intro k hk
    have hlt : k < a.dim.length := by omega
    have hd : a.dim[k]? = some (a.dim.get ⟨k, hlt⟩) := by simp
    have hs := size_spec a k _ (by omega) hd
    have hih := ih (k + 1) (by omega)
    have hdr : a.dim.drop k = a.dim.get ⟨k, hlt⟩ :: a.dim.drop (k + 1) := by
      simp
    have hih2 : shape_from a n ((k : Int) + 1)
        = .ok (((a.dim.drop (k + 1)).take n).map Dim.size) := by exact_mod_cast hih
    simp only [shape_from, hs, hih2, bind, Except.bind]
    rw [hdr]
    rfl

theorem shape_spec (a : cell_iterator) (f : Nat) (hf : a.rank = (f : Int))
    (hle : f ≤ a.dim.length) : a.shape = .ok ((a.dim.take f).map Dim.size) := by
  have h := shape_from_spec a f hf hle f 0 (by omega)
  have htn : a.rank.toNat = f := by omega
  simpa [cell_iterator.shape, htn] using h

/-- C23: for a full rank `r` and a cell-rank spec `c` with `-r <= c <= r`, frame rank and cell
rank sum to `r`, the cell rank being `c` for `c >= 0` and `r + c` for `c < 0`; the iterator
`iter<c>()` of a view has these ranks, and its shape is the sizes of the first frame-rank
dimensions of the view. For the 6 by 7 array the shapes of `iter<0>`, `iter<-2>`, `iter<1>`,
`iter<-1>` and `iter<2>` are `{6,7}`, `{6,7}`, `{6}`, `{6}` and `{}`. -/
theorem cell_frame_ranks :
    (∀ r c : Int, -r ≤ c → c ≤ r →
      dependent_frame_rank r c + dependent_cell_rank r c = r
      ∧ (0 ≤ c → dependent_cell_rank r c = c) ∧ (c < 0 → dependent_cell_rank r c = r + c))
    ∧ (∀ (v : View) (c : Int), -v.rank ≤ c → c ≤ v.rank →
        ∃ a, v.iter c = .ok a
          ∧ a.rank = dependent_frame_rank v.rank c
          ∧ (a.c.dim.length : Int) = dependent_cell_rank v.rank c
          ∧ a.rank + (a.c.dim.length : Int) = v.rank
          ∧ a.shape = .ok ((v.dim.take a.rank.toNat).map Dim.size))
    ∧ ((do let v ← View.of_shape [6, 7] 0; let a ← v.iter 0; a.shape) = .ok [6, 7]
      ∧ (do let v ← View.of_shape [6, 7] 0; let a ← v.iter (-2); a.shape) = .ok [6, 7]
      ∧ (do let v ← View.of_shape [6, 7] 0; let a ← v.iter 1; a.shape) = .ok [6]
      ∧ (do let v ← View.of_shape [6, 7] 0; let a ← v.iter (-1); a.shape) = .ok [6]
      ∧ (do let v ← View.of_shape [6, 7] 0; let a ← v.iter 2; a.shape) = .ok []) := by
  refine ⟨?_, ?_, by decide⟩
  · intro r c h1 h2
    obtain ⟨h, h3, h4, -⟩ := cell_frame_rank_facts r c h1 h2
    exact ⟨h, h3, h4⟩
  · intro v c h1 h2
    obtain ⟨hsum, -, -, hc0, hcr, hf0, hfr⟩ := cell_frame_rank_facts v.rank c h1 h2
    simp only [View.rank] at hsum hc0 hcr hf0 hfr
    obtain ⟨f, hf⟩ := Int.eq_ofNat_of_zero_le hf0
    have hle : f ≤ v.dim.length := by omega
    have hm := make_spec v.dim c v.p f hf hle
    refine ⟨_, hm, ?_, ?_, ?_, ?_⟩
    · simp [cell_iterator.rank, View.rank]
    · simp only [List.length_drop, View.rank]
      omega
    · simp only [List.length_drop, View.rank, cell_iterator.rank]
      omega
    · have hr : cell_iterator.rank ⟨v.dim, c, ⟨v.dim.drop f, v.p⟩⟩ = (f : Int) := by
        simp [cell_iterator.rank, hf]
      rw [shape_spec _ f hr hle, hr]
      simp

theorem cell_frame_ranks_witness :
    dependent_frame_rank 3 (-1) + dependent_cell_rank 3 (-1) = 3
      ∧ ((0 : Int) ≤ -1 → dependent_cell_rank 3 (-1) = -1)
      ∧ ((-1 : Int) < 0 → dependent_cell_rank 3 (-1) = 3 + -1) :=
  cell_frame_ranks.1 3 (-1) (by decide) (by decide)

/-- C24: constructing a `cell_iterator` from a dope vector of rank `r` and a pointer `p`, for
a cell-rank spec within `[-r, r]`, gives frame rank `f = r - cellrank`, a cell whose dope
vector is the entries `dim[f..r)` of the full one in order, and the cell pointer `p`; the
dope vector of the iterator is the full one. In the test of `ra-0.cc` the cell pointer of
the iterator over `{3,2},{2,1}` is the data pointer of the view. -/
theorem make_splits :
    (∀ (dim_ : List Dim) (c p : Int), -(dim_.length : Int) ≤ c → c ≤ (dim_.length : Int) →
      ∃ f : Nat, (f : Int) = (dim_.length : Int) - dependent_cell_rank dim_.length c
        ∧ f ≤ dim_.length
        ∧ cell_iterator.make dim_ c p = .ok ⟨dim_, c, ⟨dim_.drop f, p⟩⟩
        ∧ cell_iterator.rank ⟨dim_, c, ⟨dim_.drop f, p⟩⟩ = (f : Int)
        ∧ ((dim_.drop f).length : Int) = dependent_cell_rank dim_.length c)
    ∧ (cell_iterator.make [⟨3, 2⟩, ⟨2, 1⟩] 0 100).map (fun a => a.c.p) = .ok 100
    ∧ cell_iterator.make [⟨4, 6⟩, ⟨3, 2⟩, ⟨2, 1⟩] (-1) 100
        = .ok ⟨[⟨4, 6⟩, ⟨3, 2⟩, ⟨2, 1⟩], -1, ⟨[⟨3, 2⟩, ⟨2, 1⟩], 100⟩⟩ := by
  refine ⟨?_, by decide, by decide⟩
  intro dim_ c p h1 h2
  obtain ⟨hsum, -, -, hc0, hcr, hf0, hfr⟩ := cell_frame_rank_facts dim_.length c h1 h2
  obtain ⟨f, hf⟩ := Int.eq_ofNat_of_zero_le hf0
  have hle : f ≤ dim_.length := by omega
  refine ⟨f, by omega, hle, make_spec dim_ c p f hf hle, ?_, ?_⟩
  · simp [cell_iterator.rank, hf]
  · simp only [List.length_drop]
    omega

theorem make_splits_witness :
    ∃ f : Nat, (f : Int) = (([⟨3, 2⟩, ⟨2, 1⟩] : List Dim).length : Int)
          - dependent_cell_rank ([⟨3, 2⟩, ⟨2, 1⟩] : List Dim).length 1
      ∧ f ≤ ([⟨3, 2⟩, ⟨2, 1⟩] : List Dim).length
      ∧ cell_iterator.make [⟨3, 2⟩, ⟨2, 1⟩] 1 7
          = .ok ⟨[⟨3, 2⟩, ⟨2, 1⟩], 1, ⟨List.drop f [⟨3, 2⟩, ⟨2, 1⟩], 7⟩⟩
      ∧ cell_iterator.rank ⟨[⟨3, 2⟩, ⟨2, 1⟩], 1, ⟨List.drop f [⟨3, 2⟩, ⟨2, 1⟩], 7⟩⟩ = (f : Int)
      ∧ ((List.drop f ([⟨3, 2⟩, ⟨2, 1⟩] : List Dim)).length : Int)
          = dependent_cell_rank ([⟨3, 2⟩, ⟨2, 1⟩] : List Dim).length 1 :=
  make_splits.1 [⟨3, 2⟩, ⟨2, 1⟩] 1 7 (by decide) (by decide)

/-- C25: `cell_iterator::at(i)` fails, with a check failure, when the multi-index has fewer
entries than the frame rank; otherwise it is the cell whose pointer is the cell pointer of
the iterator plus `index_short(rank(), dim, i)` and whose dope vector is the cell dope vector
of the iterator, and the iterator after the call is the iterator before it. With every
index of the frame within bounds (or on a sentinel axis) the offset is the sum of
`stride[k]*i[k]` over the frame axes. -/
theorem cell_at :
    (∀ (a : cell_iterator) (i : List Int), (i.length : Int) < a.rank → a.at i = .error .check)
    ∧ (∀ (a : cell_iterator) (i : List Int), a.rank ≤ (i.length : Int) →
        a.at i = (Indexer1.index_short a.rank a.dim i).map fun off =>
          (a, ⟨a.c.dim, a.c.p + off⟩))
    ∧ (∀ (a : cell_iterator) (i : List Int) (r : cell_iterator × View), a.at i = .ok r →
        r.1 = a ∧ r.2.dim = a.c.dim)
    ∧ (∀ (a : cell_iterator) (f : Nat) (i : List Int), a.rank = (f : Int) →
        f ≤ a.dim.length → f ≤ i.length → in_bounds_or_sentinel (a.dim.take f) i →
          a.at i = .ok (a, ⟨a.c.dim, a.c.p + offset_sum (a.dim.take f) i⟩))
    ∧ (do
        let a ← cell_iterator.make [⟨4, 6⟩, ⟨3, 2⟩, ⟨2, 1⟩] 1 100
        let r ← a.at [3, 2]
        pure r.2) = .ok ⟨[⟨2, 1⟩], 122⟩ := by
  refine ⟨?_, ?_, ?_, ?_, by decide⟩
  · intro a i h
    have : ¬ a.rank ≤ (i.length : Int) := by omega
    simp only [cell_iterator.at, this, if_false]
  · intro a i h
    simp only [cell_iterator.at, h, if_true]
    cases Indexer1.index_short a.rank a.dim i <;> rfl
  · intro a i r h
    unfold cell_iterator.at at h
    split at h
    · cases ho : Indexer1.index_short a.rank a.dim i with
      | error e => rw [ho] at h; cases h
      | ok off =>
        rw [ho] at h
        simp only [bind, Except.bind, Except.ok.injEq] at h
        subst h
        exact ⟨rfl, rfl⟩
    · cases h
  · intro a f i hf hle hi hb
    have h1 : a.rank ≤ (i.length : Int) := by omega
    have h2 := index_short_loop_ok a.dim i f 0 0 (by simpa using hle) (by simpa using hi)
      (by simpa using hb)
    have htn : a.rank.toNat = f := by omega
    simp only [List.drop_zero, Nat.cast_zero, zero_add] at h2
    simp only [cell_iterator.at, h1, if_true, Indexer1.index_short, htn, h2, bind, Except.bind]

theorem cell_at_witness :
    cell_iterator.at ⟨[⟨4, 6⟩, ⟨3, 2⟩, ⟨2, 1⟩], 1, ⟨[⟨2, 1⟩], 100⟩⟩ [3] = .error .check :=
  cell_at.1 ⟨[⟨4, 6⟩, ⟨3, 2⟩, ⟨2, 1⟩], 1, ⟨[⟨2, 1⟩], 100⟩⟩ [3] (by decide)

/-- C26: `cell_iterator::size(k)` is the size of dimension `k` of the dope vector for
`0 <= k < rank()`, the frame rank, and fails, with a check failure, for every `k` outside
`[0, rank())`. -/
theorem size_frame :
    (∀ (a : cell_iterator) (k : Int), ¬ (0 ≤ k ∧ k < a.rank) → a.size k = .error .check)
    ∧ (∀ (a : cell_iterator) (k : Nat) (d : Dim), (k : Int) < a.rank → a.dim[k]? = some d →
        a.size (k : Int) = .ok d.size)
    ∧ (∀ (a : cell_iterator) (k : Int), 0 ≤ k → k < a.rank → a.rank ≤ (a.dim.length : Int) →
        ∃ d, a.dim[k.toNat]? = some d ∧ a.size k = .ok d.size)
    ∧ (cell_iterator.size ⟨[⟨4, 6⟩, ⟨3, 2⟩, ⟨2, 1⟩], 1, ⟨[⟨2, 1⟩], 0⟩⟩ 1 = .ok 3
      ∧ cell_iterator.size ⟨[⟨4, 6⟩, ⟨3, 2⟩, ⟨2, 1⟩], 1, ⟨[⟨2, 1⟩], 0⟩⟩ 2 = .error .check
      ∧ cell_iterator.size ⟨[⟨4, 6⟩, ⟨3, 2⟩, ⟨2, 1⟩], 1, ⟨[⟨2, 1⟩], 0⟩⟩ (-1) = .error .check) := by
  refine ⟨?_, size_spec, ?_, by decide⟩
  · intro a k h
    have hi : inside k a.rank = false := by
      rw [← Bool.not_eq_true, inside_iff]; exact h
    simp only [cell_iterator.size, hi]
    rfl
  · intro a k h0 h1 h2
    have hlt : k.toNat < a.dim.length := by omega
    refine ⟨a.dim.get ⟨k.toNat, hlt⟩, by simp, ?_⟩
    have := size_spec a k.toNat (a.dim.get ⟨k.toNat, hlt⟩) (by omega) (by simp)
    rwa [Int.toNat_of_nonneg h0] at this

theorem size_frame_witness :
    cell_iterator.size ⟨[⟨4, 6⟩, ⟨3, 2⟩, ⟨2, 1⟩], -1, ⟨[⟨2, 1⟩], 0⟩⟩ 5 = .error .check :=
  size_frame.1 ⟨[⟨4, 6⟩, ⟨3, 2⟩, ⟨2, 1⟩], -1, ⟨[⟨2, 1⟩], 0⟩⟩ 5 (by decide)

/-- C27, as stated, fails: over the dope vector `{3,4},{4,1}`, `keep_stride(4, 1, 0)` is true,
four steps along axis 1 being one step along axis 0, while `4 * stride(0)` is 16 and
`stride(1)` is 1. -/
theorem keep_stride_swapped :
    cell_iterator.keep_stride ⟨[⟨3, 4⟩, ⟨4, 1⟩], 0, ⟨[], 0⟩⟩ 4 1 0 = .ok true
    ∧ cell_iterator.stride ⟨[⟨3, 4⟩, ⟨4, 1⟩], 0, ⟨[], 0⟩⟩ 0 = .ok 4
    ∧ cell_iterator.stride ⟨[⟨3, 4⟩, ⟨4, 1⟩], 0, ⟨[], 0⟩⟩ 1 = .ok 1
    ∧ ¬ ((4 : Int) * 4 = 1) := by
  decide

/-- C27 (amended): `cell_iterator::keep_stride(big_step, i, j)` is true if and only if
`big_step` steps along axis `i` have the same total pointer displacement as one step along
axis `j`, that is `big_step * stride(i) == stride(j)`, where `stride(k)` is the stride of
dimension `k` for `k < rank()` and 0 for `k >= rank()`. -/
theorem keep_stride_iff :
    (∀ (a : cell_iterator) (st z j sz sj : Int), a.stride z = .ok sz → a.stride j = .ok sj →
      a.keep_stride st z j = .ok (decide (st * sz = sj)))
    ∧ (∀ (a : cell_iterator) (st : Int) (z j : Nat) (dz dj : Dim), (z : Int) < a.rank →
        (j : Int) < a.rank → a.dim[z]? = some dz → a.dim[j]? = some dj →
          (a.keep_stride st z j = .ok true ↔ st * dz.stride = dj.stride))
    ∧ (∀ (a : cell_iterator) (st : Int) (z : Nat) (j : Int) (dz : Dim), (z : Int) < a.rank →
        a.rank ≤ j → a.dim[z]? = some dz →
          (a.keep_stride st z j = .ok true ↔ st * dz.stride = 0)) := by
  have h1 : ∀ (a : cell_iterator) (st z j sz sj : Int), a.stride z = .ok sz →
      a.stride j = .ok sj → a.keep_stride st z j = .ok (decide (st * sz = sj)) := by
    intro a st z j sz sj hz hj
    simp only [cell_iterator.keep_stride, hz, hj, bind, Except.bind]
  refine ⟨h1, ?_, ?_⟩
  · intro a st z j dz dj hz hj hdz hdj
    rw [h1 a st z j _ _ (stride_spec a z dz hz hdz) (stride_spec a j dj hj hdj)]
    simp
  · intro a st z j dz hz hj hdz
    have hs : a.stride j = .ok 0 := by
      have : ¬ j < a.rank := by omega
      simp only [cell_iterator.stride, this, if_false]
    rw [h1 a st z j _ _ (stride_spec a z dz hz hdz) hs]
    simp

theorem keep_stride_iff_witness :
    cell_iterator.keep_stride ⟨[⟨3, 4⟩, ⟨4, 1⟩], 0, ⟨[], 0⟩⟩ 4 1 0 = .ok (decide ((4 : Int) * 1 = 4)) :=
  keep_stride_iff.1 ⟨[⟨3, 4⟩, ⟨4, 1⟩], 0, ⟨[], 0⟩⟩ 4 1 0 1 4 (by decide) (by decide)

/-! ## Theorems: the fused run of a dense view -/

theorem foldl_write_op (tr : List Int) :
    ∀ (mem : Int → Int) (vals : List Int),
      tr.foldl write_op (mem, vals) = (write_all mem tr vals, vals.drop tr.length) := by
  induction tr with
  | nil => intro mem vals; cases vals <;> simp [write_all]
  | cons p ps ih =>
    intro mem vals
    cases vals with
    | nil =>
      have h := ih mem []
      simp only [List.drop_nil] at h
      have hw : ∀ l : List Int, write_all mem l [] = mem := by
        intro l; cases l <;> rfl
      rw [hw] at h
      simp only [List.foldl_cons, write_op, h, List.drop_nil, hw]
    | cons x xs =>
      simp only [List.foldl_cons, write_op, ih, write_all, List.length_cons, List.drop_succ_cons]

theorem foldl_read_op (mem : Int → Int) (tr : List Int) :
    ∀ out : List Int, tr.foldl read_op (mem, out) = (mem, out ++ tr.map mem) := by
  induction tr with
  | nil => intro out; simp
  | cons p ps ih =>
    intro out
    simp only [List.foldl_cons, read_op, ih, List.map_cons, List.append_assoc,
      List.singleton_append]

theorem write_all_other (ps : List Int) :
    ∀ (mem : Int → Int) (xs : List Int) (q : Int), q ∉ ps → write_all mem ps xs q = mem q := by
  induction ps with
  | nil => intro mem xs q _; cases xs <;> rfl
  | cons p ps ih =>
    intro mem xs q hq
    cases xs with
    | nil => rfl
    | cons x xs =>
      have h1 : q ≠ p := fun h => hq (by simp [h])
      have h2 : q ∉ ps := fun h => hq (by simp [h])
      rw [write_all, ih _ _ _ h2]
      simp [store_at, h1]

theorem map_write_all (ps : List Int) :
    ∀ (mem : Int → Int) (xs : List Int), ps.Nodup → xs.length = ps.length →
      ps.map (write_all mem ps xs) = xs := by
  induction ps with
  | nil =>
    intro mem xs _ hl
    have : xs = [] := List.length_eq_zero.1 (by simpa using hl)
    simp [this]
  | cons p ps ih =>
    intro mem xs hn hl
    cases xs with
    | nil => simp at hl
    | cons x xs =>
      obtain ⟨hp, hn'⟩ := List.nodup_cons.1 hn
      simp only [List.map_cons, write_all]
      rw [write_all_other ps _ xs p hp, ih _ xs hn' (by simpa using hl)]
      simp [store_at]

theorem nodup_addresses (dim : List Dim) (p : Int) (h : offsets_injective dim) :
    ((multi_indices dim).map fun idx => p + offset_sum dim idx).Nodup := by
  apply List.Nodup.map_on _ (nodup_multi_indices dim)
  intro x hx y hy hxy
  exact h x hx y hy (by omega)

theorem ply_ravel_with_cell_zero {σ : Type} (op : σ → Int → σ) (a : cell_iterator) (s : σ)
    (hc : dependent_cell_rank a.dim.length a.cellr_spec = 0)
    (hs : ∀ d ∈ a.dim, (0 : Int) ≤ d.size) :
    ply_ravel_with op a s = .ok (a, (row_major_addresses a).foldl op s) := by
  simp only [ply_ravel_with, ply_ravel_cell_zero a hc hs, bind, Except.bind, row_major_addresses]

/-- C28: over a view whose sizes are non-negative and whose index-to-offset map is injective,
a `ply_ravel` traversal that writes the values `v_0, v_1, ...` (one for each element)
followed by a second `ply_ravel` traversal of the same view that reads gives back
`v_0, v_1, ...` in the same order; and a traversal whose operation leaves the buffer as it
is, such as the one that reads, ends with the buffer it started with. -/
theorem write_then_read :
    (∀ (a : cell_iterator) (mem : Int → Int) (vals : List Int),
      dependent_cell_rank a.dim.length a.cellr_spec = 0 →
      (∀ d ∈ a.dim, (0 : Int) ≤ d.size) → offsets_injective a.dim →
      (vals.length : Int) = View.size ⟨a.dim, a.c.p⟩ →
        ∃ mem1, ply_ravel_with write_op a (mem, vals) = .ok (a, (mem1, []))
          ∧ ply_ravel_with read_op a (mem1, []) = .ok (a, (mem1, vals)))
    ∧ (∀ (v : View) (mem : Int → Int) (vals : List Int),
      (∀ d ∈ v.dim, (0 : Int) ≤ d.size) → offsets_injective v.dim →
      (vals.length : Int) = v.size →
        ∃ mem1,
          (do let a ← v.iter 0
              let r ← ply_ravel_with write_op a (mem, vals)
              pure r.2) = .ok (mem1, [])
          ∧ View.elements mem1 v = .ok vals)
    ∧ (∀ (σ α : Type) (op : σ → Int → σ) (buf : σ → α), (∀ s p, buf (op s p) = buf s) →
        ∀ (a : cell_iterator) (s : σ) (r : cell_iterator × σ),
          ply_ravel_with op a s = .ok r → buf r.2 = buf s)
    ∧ (∀ (a : cell_iterator) (mem : Int → Int) (out : List Int)
        (r : cell_iterator × ((Int → Int) × List Int)),
          ply_ravel_with read_op a (mem, out) = .ok r → r.2.1 = mem)
    ∧ (ply_ravel_with write_op ⟨[⟨2, 1⟩, ⟨3, 2⟩], 0, ⟨[], 0⟩⟩
          (mem_of [0, 0, 0, 0, 0, 0], [1, 2, 3, 4, 5, 6])).map
        (fun r => (r.2.1 0, r.2.1 1, r.2.1 2, r.2.1 3, r.2.1 4, r.2.1 5))
        = .ok (1, 4, 2, 5, 3, 6) := by
  have main : ∀ (a : cell_iterator) (mem : Int → Int) (vals : List Int),
      dependent_cell_rank a.dim.length a.cellr_spec = 0 →
      (∀ d ∈ a.dim, (0 : Int) ≤ d.size) → offsets_injective a.dim →
      (vals.length : Int) = View.size ⟨a.dim, a.c.p⟩ →
        ply_ravel_with write_op a (mem, vals)
            = .ok (a, (write_all mem (row_major_addresses a) vals, []))
          ∧ (row_major_addresses a).map (write_all mem (row_major_addresses a) vals) = vals := by
    intro a mem vals hc hs hinj hlen
    have hl : vals.length = (row_major_addresses a).length := by
      have := length_row_major_addresses a hs
      simp only [View.size] at hlen
      omega
    refine ⟨?_, map_write_all _ mem vals (nodup_addresses a.dim a.c.p hinj) hl⟩
    rw [ply_ravel_with_cell_zero write_op a _ hc hs, foldl_write_op, ← hl, List.drop_length]
  have hbuf : ∀ (σ α : Type) (op : σ → Int → σ) (buf : σ → α), (∀ s p, buf (op s p) = buf s) →
      ∀ (a : cell_iterator) (s : σ) (r : cell_iterator × σ),
        ply_ravel_with op a s = .ok r → buf r.2 = buf s := by
    intro σ α op buf hop a s r h
    have hfold : ∀ (tr : List Int) (s : σ), buf (tr.foldl op s) = buf s := by
      intro tr
      induction tr with
      | nil => intro s; rfl
      | cons p ps ih => intro s; rw [List.foldl_cons, ih, hop]
    unfold ply_ravel_with at h
    cases hr : ply_ravel a with
    | error e => rw [hr] at h; cases h
    | ok x =>
      rw [hr] at h
      simp only [bind, Except.bind, Except.ok.injEq] at h
      subst h
      exact hfold _ _
  refine ⟨?_, ?_, hbuf, ?_, by decide⟩
  · intro a mem vals hc hs hinj hlen
    obtain ⟨h1, h2⟩ := main a mem vals hc hs hinj hlen
    refine ⟨_, h1, ?_⟩
    rw [ply_ravel_with_cell_zero read_op a _ hc hs, foldl_read_op, h2]
    rfl
  · intro v mem vals hs hinj hlen
    have hc : dependent_cell_rank (cell_iterator.dim ⟨v.dim, 0, ⟨[], v.p⟩⟩).length
        (cell_iterator.cellr_spec ⟨v.dim, 0, ⟨[], v.p⟩⟩) = 0 := by
      simp [dependent_cell_rank]
    obtain ⟨h1, h2⟩ := main ⟨v.dim, 0, ⟨[], v.p⟩⟩ mem vals hc hs hinj hlen
    refine ⟨_, by rw [iter_zero]; simp only [bind, Except.bind, h1]; rfl, ?_⟩
    simp only [View.elements, iter_zero, bind, Except.bind, ply_ravel_cell_zero _ hc hs]
    exact congrArg Except.ok h2
  · intro a mem out r h
    exact hbuf _ _ read_op (fun s => s.1) (fun s p => rfl) a (mem, out) r h

theorem write_then_read_witness :
    ∃ mem1, ply_ravel_with write_op ⟨[⟨2, 1⟩, ⟨3, 2⟩], 0, ⟨[], 0⟩⟩
          (mem_of [], [1, 2, 3, 4, 5, 6])
        = .ok (⟨[⟨2, 1⟩, ⟨3, 2⟩], 0, ⟨[], 0⟩⟩, (mem1, []))
      ∧ ply_ravel_with read_op ⟨[⟨2, 1⟩, ⟨3, 2⟩], 0, ⟨[], 0⟩⟩ (mem1, [])
        = .ok (⟨[⟨2, 1⟩, ⟨3, 2⟩], 0, ⟨[], 0⟩⟩, (mem1, [1, 2, 3, 4, 5, 6])) :=
  write_then_read.1 ⟨[⟨2, 1⟩, ⟨3, 2⟩], 0, ⟨[], 0⟩⟩ (mem_of []) [1, 2, 3, 4, 5, 6] (by decide)
    (by decide) (by unfold offsets_injective; decide) (by decide)

/-! ## Theorems: `Container` keeps the row-major layout -/

theorem view_stride_spec (v : View) (k : Nat) (d : Dim) (hd : v.dim[k]? = some d) :
    v.stride (k : Int) = .ok d.stride ∧ v.size_j (k : Int) = .ok d.size := by
  have hk : k < v.dim.length := by
    rcases List.getElem?_eq_some_iff.1 hd with ⟨h, -⟩
    exact h
  have hlt : (k : Int) < v.rank := by simp only [View.rank]; omega
  have hnn : ¬ ((k : Int) < 0) := by omega
  constructor
  · simp only [View.stride, hlt, if_true, rdI, hnn, if_false, Int.toNat_ofNat, rd, hd, Except.map]
  · simp only [View.size_j, hlt, if_true, rdI, hnn, if_false, Int.toNat_ofNat, rd, hd, Except.map]

theorem is_c_order_loop_strides (v : View)
    (h : ∀ (k : Nat) (d : Dim), v.dim[k]? = some d → d.stride = psize (v.dim.drop (k + 1))) :
    ∀ n : Nat, n ≤ v.dim.length → is_c_order_loop v n (psize (v.dim.drop n)) = .ok true := by
  intro n
  induction n with
  | zero => intro _; rfl
  | succ i ih =>
    intro hn
    have hlt : i < v.dim.length := by omega
    have hd : v.dim[i]? = some (v.dim.get ⟨i, hlt⟩) := by simp
    obtain ⟨hst, hsz⟩ := view_stride_spec v i _ hd
    have hs := h i _ hd
    have hdr : v.dim.drop i = v.dim.get ⟨i, hlt⟩ :: v.dim.drop (i + 1) := by simp
    have hp : psize (v.dim.drop (i + 1)) * (v.dim.get ⟨i, hlt⟩).size = psize (v.dim.drop i) := by
      rw [hdr]
      simp only [psize, List.map_cons, List.prod_cons]
      ring
    simp only [is_c_order_loop, hst, hsz, bind, Except.bind, hs, ne_eq, not_true_eq_false,
      if_false, hp]
    split
    · rfl
    · exact ih (by omega)

theorem is_c_order_strides (v : View)
    (h : ∀ (k : Nat) (d : Dim), v.dim[k]? = some d → d.stride = psize (v.dim.drop (k + 1))) :
    is_c_order v = .ok true := by
  have := is_c_order_loop_strides v h v.dim.length (le_refl _)
  rw [List.drop_length] at this
  simpa [is_c_order, View.rank, psize] using this

theorem is_c_order_loop_first (d0 d1 : Dim) (rest : List Dim) (p q : Int)
    (hst : d0.stride = d1.stride) :
    ∀ (n : Nat) (s : Int), n ≤ rest.length + 1 →
      is_c_order_loop ⟨d0 :: rest, p⟩ n s = is_c_order_loop ⟨d1 :: rest, q⟩ n s := by
  intro n
  induction n with
  | zero => intro s _; rfl
  | succ i ih =>
    intro s hn
    cases i with
    | zero =>
      obtain ⟨h1, h2⟩ := view_stride_spec ⟨d0 :: rest, p⟩ 0 d0 (by simp)
      obtain ⟨h3, h4⟩ := view_stride_spec ⟨d1 :: rest, q⟩ 0 d1 (by simp)
      simp only [is_c_order_loop, h1, h2, h3, h4, bind, Except.bind, hst]
      split
      · rfl
      · split <;> split <;> rfl
    | succ j =>
      have hlt : j < rest.length := by omega
      have hd0 : (d0 :: rest)[j + 1]? = some (rest.get ⟨j, hlt⟩) := by simp
      have hd1 : (d1 :: rest)[j + 1]? = some (rest.get ⟨j, hlt⟩) := by simp
      obtain ⟨h1, h2⟩ := view_stride_spec ⟨d0 :: rest, p⟩ (j + 1) _ hd0
      obtain ⟨h3, h4⟩ := view_stride_spec ⟨d1 :: rest, q⟩ (j + 1) _ hd1
      simp only [is_c_order_loop, h1, h2, h3, h4, bind, Except.bind]
      split
      · rfl
      · split
        · rfl
        · exact ih _ (by omega)

theorem is_c_order_first (d0 d1 : Dim) (rest : List Dim) (p q : Int)
    (hst : d0.stride = d1.stride) :
    is_c_order ⟨d0 :: rest, p⟩ = is_c_order ⟨d1 :: rest, q⟩ := by
  have := is_c_order_loop_first d0 d1 rest p q hst (rest.length + 1) 1 (le_refl _)
  simpa [is_c_order, View.rank] using this

theorem set_first_size (c : Container) (f : Int → Int) (dim1 : List Dim) (d0 : Dim)
    (h0 : rd c.dim 0 = .ok d0) (hw : wr c.dim 0 { d0 with size := f d0.size } = .ok dim1)
    (p q : Int) : is_c_order ⟨dim1, q⟩ = is_c_order ⟨c.dim, p⟩ := by
  cases hc : c.dim with
  | nil => rw [hc] at h0; simp [rd] at h0
  | cons x rest =>
    rw [hc] at h0 hw
    simp only [rd_cons_zero, Except.ok.injEq] at h0
    subst h0
    simp only [wr, List.length_cons, Nat.zero_lt_succ, if_true, List.set_cons_zero,
      Except.ok.injEq] at hw
    subst hw
    exact is_c_order_first _ _ rest q p rfl

theorem default_c_order (rank : Nat) : is_c_order (Container.default_ctor rank).view = .ok true := by
  cases rank with
  | zero => rfl
  | succ n =>
    have hd : (Container.default_ctor (n + 1)).view.dim[n]? = some ⟨0, 1⟩ := by
      simp [Container.default_ctor, Container.view, List.getElem?_replicate]
    obtain ⟨h1, h2⟩ := view_stride_spec _ n _ hd
    have hr : (Container.default_ctor (n + 1)).view.rank.toNat = n + 1 := by
      simp [Container.default_ctor, Container.view, View.rank]
    rw [is_c_order, hr, is_c_order_loop, h1]
    simp only [bind, Except.bind, h2]
    rfl

theorem sizes_zipWith : ∀ (dim0 : List Dim) (s : List Int), dim0.length = s.length →
    (List.zipWith (fun (d : Dim) (sz : Int) => ({ d with size := sz } : Dim)) dim0 s).map Dim.size
      = s := by
  intro dim0
  induction dim0 with
  | nil => intro s h; cases s with
    | nil => rfl
    | cons _ _ => simp at h
  | cons d ds ih =>
    intro s h
    cases s with
    | nil => simp at h
    | cons x xs =>
      simp only [List.zipWith_cons_cons, List.map_cons]
      rw [ih xs (by simpa using h)]

theorem c_strides_c_order (l : List Dim) (p : Int) : is_c_order ⟨c_strides l, p⟩ = .ok true := by
  apply is_c_order_strides
  intro k d hd
  rw [c_strides_stride l k d hd]
  simp only [psize]
  rw [List.map_drop, List.map_drop, c_strides_size]

theorem init_eq (c : Container) (RANK : Int) (s : List Int) (data : Int)
    (hs : ∀ x ∈ s, (0 : Int) ≤ x) :
    c.init RANK s data
      = if (init_dims c RANK s).length = s.length then
          .ok ⟨c_strides (List.zipWith (fun (d : Dim) (sz : Int) => ({ d with size := sz } : Dim))
                  (init_dims c RANK s) s), data, s.prod⟩
        else .error .check := by
  unfold Container.init init_dims assign_sizes
  simp only [bind, Except.bind]
  generalize (if RANK = RANK_ANY then resize_dims c.dim s.length else c.dim) = dim0
  by_cases hlen : dim0.length = s.length
  · rw [if_neg (not_not.2 hlen), if_pos hlen]
    simp only
    have hsz := sizes_zipWith dim0 s hlen
    generalize List.zipWith (fun (d : Dim) (sz : Int) => ({ d with size := sz } : Dim)) dim0 s
      = dim1 at hsz
    have hall : ∀ d ∈ dim1, (0 : Int) ≤ d.size := by
      intro d hd
      apply hs
      rw [← hsz]
      exact List.mem_map_of_mem _ hd
    have hf := filldim_spec [] dim1
    simp only [List.nil_append] at hf
    rw [if_pos hall] at hf
    have hc : storage_create (psize dim1) = .ok (psize dim1) := by
      have := psize_nonneg dim1 hall
      simp only [storage_create, ge_iff_le, this, if_true]
    have hp : psize dim1 = s.prod := by rw [psize, hsz]
    rw [hp] at hc
    rw [hf]
    simp only [hp, hc]
  · rw [if_pos hlen, if_neg hlen]

theorem init_spec (c : Container) (RANK : Int) (s : List Int) (data : Int) (c1 : Container)
    (hs : ∀ x ∈ s, (0 : Int) ≤ x) (h : c.init RANK s data = .ok c1) :
    is_c_order c1.view = .ok true ∧ c1.dim.map Dim.size = s ∧ c1.p = data ∧ c1.store = s.prod := by
  rw [init_eq c RANK s data hs] at h
  split at h
  · rename_i hlen
    simp only [Except.ok.injEq] at h
    subst h
    refine ⟨c_strides_c_order _ data, ?_, rfl, rfl⟩
    simp only [c_strides_size]
    exact sizes_zipWith _ s hlen
  · cases h

theorem init_ok (c : Container) (RANK : Int) (s : List Int) (data : Int)
    (hs : ∀ x ∈ s, (0 : Int) ≤ x) (hl : RANK = RANK_ANY ∨ c.dim.length = s.length) :
    ∃ c1, c.init RANK s data = .ok c1 := by
  have hlen : (init_dims c RANK s).length = s.length := by
    unfold init_dims
    split
    · simp only [resize_dims, List.length_append, List.length_take, List.length_replicate]
      omega
    · rcases hl with h | h
      · contradiction
      · exact h
  rw [init_eq c RANK s data hs, if_pos hlen]
  exact ⟨_, rfl⟩

theorem resize_c_order (c : Container) (s data : Int) (c1 : Container)
    (h : c.resize s data = .ok c1) : is_c_order c1.view = is_c_order c.view := by
  unfold Container.resize at h
  split at h
  · simp only at h
    split at h
    · cases h
    · cases h0 : rd c.dim 0 with
      | error e => rw [h0] at h; cases h
      | ok d0 =>
        rw [h0] at h
        simp only [bind, Except.bind] at h
        cases hw : wr c.dim 0 { d0 with size := s } with
        | error e => rw [hw] at h; cases h
        | ok dim1 =>
          rw [hw] at h
          simp only [Except.ok.injEq] at h
          subst h
          exact set_first_size c (fun _ => s) dim1 d0 h0 hw c.p data
  · cases h

theorem push_back_c_order (c : Container) (data : Int) (c1 : Container)
    (h : c.push_back data = .ok c1) : is_c_order c1.view = is_c_order c.view := by
  unfold Container.push_back at h
  split at h
  · cases h0 : rd c.dim 0 with
    | error e => rw [h0] at h; cases h
    | ok d0 =>
      rw [h0] at h
      simp only [bind, Except.bind] at h
      cases hw : wr c.dim 0 { d0 with size := d0.size + 1 } with
      | error e => rw [hw] at h; cases h
      | ok dim1 =>
        rw [hw] at h
        simp only [Except.ok.injEq] at h
        subst h
        exact set_first_size c (fun x => x + 1) dim1 d0 h0 hw c.p data
  · cases h

theorem pop_back_c_order (c : Container) (c1 : Container)
    (h : c.pop_back = .ok c1) : is_c_order c1.view = is_c_order c.view := by
  unfold Container.pop_back at h
  split at h
  · cases h0 : rd c.dim 0 with
    | error e => rw [h0] at h; cases h
    | ok d0 =>
      rw [h0] at h
      simp only [bind, Except.bind] at h
      split at h
      · split at h
        · cases h
        · cases hw : wr c.dim 0 { d0 with size := d0.size - 1 } with
          | error e => rw [hw] at h; cases h
          | ok dim1 =>
            rw [hw] at h
            simp only [Except.ok.injEq] at h
            subst h
            exact set_first_size c (fun x => x - 1) dim1 d0 h0 hw c.p c.p
      · cases h
  · cases h

theorem reachable_c_order (c : Container) (h : c.Reachable) : is_c_order c.view = .ok true := by
  induction h with
  | default_ctor rank => exact default_c_order rank
  | init c RANK s data c1 hs hi => exact (init_spec c RANK s data c1 hs hi).1
  | resize c s data c1 _ _ hr ih => rw [resize_c_order c s data c1 hr]; exact ih
  | push_back c data c1 _ hp ih => rw [push_back_c_order c data c1 hp]; exact ih
  | pop_back c c1 _ hp ih => rw [pop_back_c_order c c1 hp]; exact ih

/-- C29: `is_c_order` holds of a container after the default constructor and after
`init(shape)` with non-negative sizes (which succeeds when the shape fits the rank), and it
is preserved by `resize(s)` with `s >= 0`, by `push_back` and by `pop_back`; hence the
assertion of `Container::begin()` holds on every container reached through these operations,
and `begin()` returns the data pointer. -/
theorem container_c_order :
    (∀ rank : Nat, is_c_order (Container.default_ctor rank).view = .ok true)
    ∧ (∀ (c : Container) (RANK : Int) (s : List Int) (data : Int), (∀ x ∈ s, (0 : Int) ≤ x) →
        (RANK = RANK_ANY ∨ c.dim.length = s.length) →
          ∃ c1, c.init RANK s data = .ok c1 ∧ is_c_order c1.view = .ok true
            ∧ c1.dim.map Dim.size = s)
    ∧ (∀ (c : Container) (s data : Int) (c1 : Container), 0 ≤ s →
        is_c_order c.view = .ok true → c.resize s data = .ok c1 →
          is_c_order c1.view = .ok true)
    ∧ (∀ (c : Container) (data : Int) (c1 : Container),
        is_c_order c.view = .ok true → c.push_back data = .ok c1 →
          is_c_order c1.view = .ok true)
    ∧ (∀ (c c1 : Container),
        is_c_order c.view = .ok true → c.pop_back = .ok c1 → is_c_order c1.view = .ok true)
    ∧ (∀ c : Container, c.Reachable → c.begin = .ok c.p)
    ∧ ((do
        let c1 ← (Container.default_ctor 1).push_back 10
        let c2 ← c1.push_back 20
        let c3 ← c2.pop_back
        let c4 ← c3.resize 5 30
        let b ← c4.begin
        pure (c4, b)) = .ok (⟨[⟨5, 1⟩], 30, 5⟩, 30)
      ∧ (do
        let c1 ← (Container.default_ctor 0).init RANK_ANY [3, 0, 4] 100
        let c2 ← c1.resize 2 200
        let b ← c2.begin
        pure (c2, b)) = .ok (⟨[⟨2, 0⟩, ⟨0, 4⟩, ⟨4, 1⟩], 200, 0⟩, 200)) := by
  refine ⟨default_c_order, ?_, ?_, ?_, ?_, ?_, by decide⟩
  · intro c RANK s data hs hl
    obtain ⟨c1, h⟩ := init_ok c RANK s data hs hl
    obtain ⟨h1, h2, -⟩ := init_spec c RANK s data c1 hs h
    exact ⟨c1, h, h1, h2⟩
  · intro c s data c1 _ hc hr
    rw [resize_c_order c s data c1 hr]; exact hc
  · intro c data c1 hc hp
    rw [push_back_c_order c data c1 hp]; exact hc
  · intro c c1 hc hp
    rw [pop_back_c_order c c1 hp]; exact hc
  · intro c hr
    simp only [Container.begin, reachable_c_order c hr, bind, Except.bind, if_true]

theorem container_c_order_witness :
    is_c_order (Container.view ⟨[⟨7, 4⟩, ⟨4, 1⟩], 9, 28⟩) = .ok true :=
  container_c_order.2.2.1 ⟨[⟨3, 4⟩, ⟨4, 1⟩], 100, 12⟩ 7 9 ⟨[⟨7, 4⟩, ⟨4, 1⟩], 9, 28⟩ (by decide)
    (by decide) (by decide)

/-! ## Theorems: `adv`, `stride`, slices within bounds, `index_short` and `index_p` -/

theorem stride_beyond (a : cell_iterator) (k : Int) (h : a.rank ≤ k) : a.stride k = .ok 0 := by
  have : ¬ k < a.rank := by omega
  simp only [cell_iterator.stride, this, if_false]

theorem adv_beyond (a : cell_iterator) (k d : Int) (h : a.rank ≤ k) : a.adv k d = .ok a := by
  simp only [cell_iterator.adv, stride_beyond a k h, bind, Except.bind, zero_mul, add_zero]

theorem adv_inv (a : cell_iterator) (k d : Int) (a1 : cell_iterator) (h : a.adv k d = .ok a1) :
    ∃ sk, a.stride k = .ok sk ∧ a1 = ⟨a.dim, a.cellr_spec, ⟨a.c.dim, a.c.p + sk * d⟩⟩ := by
  unfold cell_iterator.adv at h
  cases hs : a.stride k with
  | error e => rw [hs] at h; cases h
  | ok sk =>
    rw [hs] at h
    simp only [bind, Except.bind, Except.ok.injEq] at h
    exact ⟨sk, rfl, h.symm⟩

/-- C31: `cell_iterator::adv(k, d)` changes the cell pointer only, to which it adds
`d * stride(k)`; the dope vector of the iterator and the dope vector of the cell are as
before; for `k >= rank()`, the frame rank, the call changes nothing. -/
theorem adv_effect :
    (∀ (a : cell_iterator) (k d : Int) (a1 : cell_iterator), a.adv k d = .ok a1 →
      a1.dim = a.dim ∧ a1.cellr_spec = a.cellr_spec ∧ a1.c.dim = a.c.dim
      ∧ ∃ sk, a.stride k = .ok sk ∧ a1.c.p = a.c.p + d * sk)
    ∧ (∀ (a : cell_iterator) (k : Nat) (dk : Dim) (d : Int), (k : Int) < a.rank →
        a.dim[k]? = some dk →
          a.adv (k : Int) d = .ok ⟨a.dim, a.cellr_spec, ⟨a.c.dim, a.c.p + d * dk.stride⟩⟩)
    ∧ (∀ (a : cell_iterator) (k d : Int), a.rank ≤ k → a.adv k d = .ok a)
    ∧ cell_iterator.adv ⟨[⟨4, 6⟩, ⟨3, 2⟩, ⟨2, 1⟩], 1, ⟨[⟨2, 1⟩], 100⟩⟩ 1 (-2)
        = .ok ⟨[⟨4, 6⟩, ⟨3, 2⟩, ⟨2, 1⟩], 1, ⟨[⟨2, 1⟩], 96⟩⟩ := by
  refine ⟨?_, ?_, adv_beyond, by decide⟩
  · intro a k d a1 h
    obtain ⟨sk, hs, rfl⟩ := adv_inv a k d a1 h
    exact ⟨rfl, rfl, rfl, sk, hs, by simp only; ring⟩
  · intro a k dk d hk hd
    simp only [cell_iterator.adv, stride_spec a k dk hk hd, bind, Except.bind]
    congr 3
    ring

theorem adv_effect_witness :
    cell_iterator.adv ⟨[⟨4, 6⟩, ⟨3, 2⟩, ⟨2, 1⟩], 1, ⟨[⟨2, 1⟩], 100⟩⟩ 2 5
      = .ok ⟨[⟨4, 6⟩, ⟨3, 2⟩, ⟨2, 1⟩], 1, ⟨[⟨2, 1⟩], 100⟩⟩ :=
  adv_effect.2.2.1 ⟨[⟨4, 6⟩, ⟨3, 2⟩, ⟨2, 1⟩], 1, ⟨[⟨2, 1⟩], 100⟩⟩ 2 5 (by decide)

/-- C32: `cell_iterator::stride(k)` is the stride of dimension `k` for `0 <= k < rank()`, the
frame rank, and is 0, without failing, for every `k >= rank()`; so advancing an iterator
along an axis at or beyond its rank leaves it where it is. -/
theorem stride_frame :
    (∀ (a : cell_iterator) (k : Nat) (dk : Dim), (k : Int) < a.rank → a.dim[k]? = some dk →
      a.stride (k : Int) = .ok dk.stride)
    ∧ (∀ (a : cell_iterator) (k : Int), 0 ≤ k → k < a.rank → a.rank ≤ (a.dim.length : Int) →
        ∃ dk, a.dim[k.toNat]? = some dk ∧ a.stride k = .ok dk.stride)
    ∧ (∀ (a : cell_iterator) (k : Int), a.rank ≤ k → a.stride k = .ok 0)
    ∧ (∀ (a : cell_iterator) (k d : Int), a.rank ≤ k → a.adv k d = .ok a)
    ∧ (cell_iterator.stride ⟨[⟨4, 6⟩, ⟨3, 2⟩, ⟨2, 1⟩], 1, ⟨[⟨2, 1⟩], 0⟩⟩ 1 = .ok 2
      ∧ cell_iterator.stride ⟨[⟨4, 6⟩, ⟨3, 2⟩, ⟨2, 1⟩], 1, ⟨[⟨2, 1⟩], 0⟩⟩ 2 = .ok 0
      ∧ cell_iterator.stride ⟨[⟨4, 6⟩, ⟨3, 2⟩, ⟨2, 1⟩], 1, ⟨[⟨2, 1⟩], 0⟩⟩ 7 = .ok 0) := by
  refine ⟨stride_spec, ?_, stride_beyond, adv_beyond, by decide⟩
  intro a k h0 h1 h2
  have hlt : k.toNat < a.dim.length := by omega
  refine ⟨a.dim.get ⟨k.toNat, hlt⟩, by simp, ?_⟩
  have := stride_spec a k.toNat (a.dim.get ⟨k.toNat, hlt⟩) (by omega) (by simp)
  rwa [Int.toNat_of_nonneg h0] at this

theorem stride_frame_witness :
    cell_iterator.stride ⟨[⟨4, 6⟩, ⟨3, 2⟩, ⟨2, 1⟩], 2, ⟨[⟨3, 2⟩, ⟨2, 1⟩], 0⟩⟩ 1 = .ok 0 :=
  stride_frame.2.2.1 ⟨[⟨4, 6⟩, ⟨3, 2⟩, ⟨2, 1⟩], 2, ⟨[⟨3, 2⟩, ⟨2, 1⟩], 0⟩⟩ 1 (by decide)

theorem accepted_in_bounds (i : Iota) (d : Int) (h : i.accepted d) (j : Int)
    (h0 : 0 ≤ j) (h1 : j < i.size_) :
    0 ≤ i.i_ + j * i.stride_ ∧ i.i_ + j * i.stride_ < d := by
  rcases h with ⟨⟨ha, hb⟩, ⟨hc, hd⟩⟩ | ⟨hz, -⟩
  · rcases le_or_lt 0 i.stride_ with ht | ht
    · have e1 : 0 ≤ j * i.stride_ := mul_nonneg h0 ht
      have e2 : j * i.stride_ ≤ (i.size_ - 1) * i.stride_ :=
        mul_le_mul_of_nonneg_right (by omega) ht
      constructor <;> omega
    · have e1 : j * i.stride_ ≤ 0 := mul_nonpos_of_nonneg_of_nonpos h0 (by omega)
      have e2 : (i.size_ - 1) * i.stride_ ≤ j * i.stride_ :=
        mul_le_mul_of_nonpos_right (by omega) (by omega)
      constructor <;> omega
  · omega

theorem select_iota_wrap_accepted (dim : DimBuf) (dpos : Nat) (src : List Dim) (s : Nat)
    (i : Iota) (r : Int × DimBuf) (x : Dim) (hx : src[s]? = some x)
    (h : select_iota_wrap dim dpos src s i = .ok r)
    (hf : fits_dim (i.i_ + (i.size_ - 1) * i.stride_)) : i.accepted x.size := by
  have hd : ((inside i.i_ x.size
          && inside (wrap_dim (i.i_ + wrap_dim (wrap_dim (i.size_ - 1) * i.stride_))) x.size)
        || (decide (i.size_ = 0) && decide (i.i_ ≤ x.size))) = true := by
    by_contra hc
    rw [select_iota_wrap_fail dim dpos src s i x hx hc] at h
    cases h
  exact (select_iota_wrap_cond i x.size hf).1 hd

/-- C34, as stated, fails: on a source dimension of size 10 `select` accepts the slice
`{start = 0, size = 5, step = 2^62}`, because the far end `0 + (5-1)*2^62 = 2^64` is 0 in
`dim_t`; the element of the slice at position 1 is at index `2^62`, outside `[0, 10)`. -/
theorem slice_accepted_out_of_bounds :
    select_iota_wrap [none] 0 [⟨10, 1⟩] 0 ⟨0, 5, 2 ^ 62⟩ = .ok (0, [some ⟨5, 2 ^ 62⟩])
      ∧ wrap_dim ((0 : Int) + wrap_dim (wrap_dim (5 - 1) * 2 ^ 62)) = 0
      ∧ (0 : Int) ≤ Iota.size_ ⟨0, 5, 2 ^ 62⟩
      ∧ (1 : Int) < Iota.size_ ⟨0, 5, 2 ^ 62⟩
      ∧ ¬ (Iota.i_ ⟨0, 5, 2 ^ 62⟩ + 1 * Iota.stride_ ⟨0, 5, 2 ^ 62⟩ < 10) := by
  decide

/-- C34, as the code has it: whenever `select` accepts a slice `{start, size, step}` with
`size >= 0` on a source dimension of size `d`, and the far end `start+(size-1)*step` is within
the range of `dim_t`, every element of the slice is within the dimension:
`0 <= start + j*step < d` for all `j` with `0 <= j < size`, whatever the sign of the step. -/
theorem slice_in_bounds :
    (∀ (dim : DimBuf) (dpos : Nat) (src : List Dim) (s : Nat) (i : Iota) (r : Int × DimBuf)
        (x : Dim), src[s]? = some x → select_iota_wrap dim dpos src s i = .ok r →
        0 ≤ i.size_ → fits_dim (i.i_ + (i.size_ - 1) * i.stride_) →
          ∀ j : Int, 0 ≤ j → j < i.size_ →
            0 ≤ i.i_ + j * i.stride_ ∧ i.i_ + j * i.stride_ < x.size)
    ∧ (∀ (dim : DimBuf) (dpos : Nat) (src : List Dim) (s : Nat) (i : Iota) (r : Int × DimBuf),
        select_iota_wrap dim dpos src s i = .ok r → ∃ x, src[s]? = some x)
    ∧ (select_iota_wrap [none] 0 [⟨10, 1⟩] 0 ⟨9, 4, -3⟩ = .ok (9, [some ⟨4, -3⟩])
      ∧ select_iota_wrap [none] 0 [⟨10, 1⟩] 0 ⟨9, 5, -3⟩ = .error .check) := by
  refine ⟨?_, ?_, by decide⟩
  · intro dim dpos src s i r x hx h _ hf j h0 h1
    exact accepted_in_bounds i x.size
      (select_iota_wrap_accepted dim dpos src s i r x hx h hf) j h0 h1
  · intro dim dpos src s i r h
    cases hx : src[s]? with
    | none => simp [select_iota_wrap, rd, hx, bind, Except.bind] at h
    | some x => exact ⟨x, rfl⟩

theorem slice_in_bounds_witness :
    0 ≤ (Iota.mk 9 4 (-3)).i_ + 3 * (Iota.mk 9 4 (-3)).stride_
      ∧ (Iota.mk 9 4 (-3)).i_ + 3 * (Iota.mk 9 4 (-3)).stride_ < Dim.size ⟨10, 1⟩ :=
  slice_in_bounds.1 [none] 0 [⟨10, 1⟩] 0 ⟨9, 4, -3⟩ (9, [some ⟨4, -3⟩]) ⟨10, 1⟩ (by decide)
    (by decide) (by decide) (by decide) 3 (by decide) (by decide)

theorem index_short_loop_eq (dim : List Dim) (p : List Int) :
    ∀ (n k : Nat) (c : Int), n = (p.drop k).length → n ≤ (dim.drop k).length →
      (∀ d ∈ (dim.drop k).take n, ¬ (d.size = DIM_BAD ∧ d.stride = 0)) →
      index_short_loop dim p n (k : Int) c = index_p_loop (dim.drop k) (p.drop k) c := by
  intro n
  induction n with
  | zero =>
    intro k c hp _ _
    have : p.drop k = [] := List.length_eq_zero.1 hp.symm
    rw [this]
    cases dim.drop k <;> simp [index_short_loop, index_p_loop]
  | succ n ih =>
    intro k c hp hd hns
    cases hdd : dim.drop k with
    | nil => rw [hdd] at hd; simp at hd
    | cons d dtl =>
      cases hpd : p.drop k with
      | nil => rw [hpd] at hp; simp at hp
      | cons i ptl =>
        rw [hdd] at hd hns
        rw [hpd] at hp
        obtain ⟨hrd, hdtl⟩ := rd_of_drop hdd
        obtain ⟨hrp, hptl⟩ := rd_of_drop hpd
        rw [List.take_succ_cons] at hns
        have hd0 : ¬ (d.size = DIM_BAD ∧ d.stride = 0) := hns d (by simp)
        have hc : (inside i d.size || (decide (d.size = DIM_BAD) && decide (d.stride = 0)))
            = inside i d.size := by
          have : (decide (d.size = DIM_BAD) && decide (d.stride = 0)) = false := by
            simpa using hd0
          rw [this, Bool.or_false]
        have hk : ¬ ((k : Int) < 0) := by omega
        have h2 := ih (k + 1) (c + d.stride * i) (by rw [hptl]; simpa using hp)
          (by rw [hdtl]; simpa using hd)
          (by rw [hdtl]; exact fun x hx => hns x (by simp [hx]))
        rw [hdtl, hptl] at h2
        simp only [index_short_loop, rdI, hk, if_false, Int.toNat_ofNat, hrd, hrp, bind,
          Except.bind, hc, index_p_loop]
        rw [show ((k : Int) + 1) = ((k + 1 : Nat) : Int) by push_cast; rfl, h2]

/-- C35: on a dope vector none of whose first `f` dimensions is the sentinel `{DIM_BAD, 0}`
(so in particular when none of them has size `DIM_BAD`) and a multi-index `p` of length
exactly `f <= len(dim)`, `index_short(f, dim, p)` and `index_p(dim, p)` are the same: the
same failure on the same inputs and the same offset otherwise. -/
theorem index_short_eq_index_p :
    (∀ (dim : List Dim) (p : List Int), p.length ≤ dim.length →
      (∀ d ∈ dim.take p.length, ¬ (d.size = DIM_BAD ∧ d.stride = 0)) →
        Indexer1.index_short p.length dim p = Indexer1.index_p dim p)
    ∧ (∀ (dim : List Dim) (p : List Int), p.length ≤ dim.length →
      (∀ d ∈ dim.take p.length, d.size ≠ DIM_BAD) →
        Indexer1.index_short p.length dim p = Indexer1.index_p dim p)
    ∧ (Indexer1.index_short 2 [⟨3, 4⟩, ⟨2, 1⟩, ⟨5, 7⟩] [2, 1] = .ok 9
      ∧ Indexer1.index_p [⟨3, 4⟩, ⟨2, 1⟩, ⟨5, 7⟩] [2, 1] = .ok 9
      ∧ Indexer1.index_short 2 [⟨3, 4⟩, ⟨2, 1⟩, ⟨5, 7⟩] [2, 2] = .error .check
      ∧ Indexer1.index_p [⟨3, 4⟩, ⟨2, 1⟩, ⟨5, 7⟩] [2, 2] = .error .check) := by
  have main : ∀ (dim : List Dim) (p : List Int), p.length ≤ dim.length →
      (∀ d ∈ dim.take p.length, ¬ (d.size = DIM_BAD ∧ d.stride = 0)) →
        Indexer1.index_short p.length dim p = Indexer1.index_p dim p := by
    intro dim p hl hns
    have h := index_short_loop_eq dim p p.length 0 0 (by simp) (by simpa using hl)
      (by simpa using hns)
    have hge : (dim.length : Int) ≥ p.length := by exact_mod_cast hl
    simp only [List.drop_zero, Nat.cast_zero] at h
    simp only [Indexer1.index_short, Int.toNat_ofNat, h, Indexer1.index_p, hge, if_true]
  exact ⟨main, fun dim p hl hns => main dim p hl fun d hd h => hns d hd h.1, by decide⟩

theorem index_short_eq_index_p_witness :
    Indexer1.index_short ([2, 5] : List Int).length [⟨3, 4⟩, ⟨2, 1⟩, ⟨5, 7⟩] [2, 5]
      = Indexer1.index_p [⟨3, 4⟩, ⟨2, 1⟩, ⟨5, 7⟩] [2, 5] :=
  index_short_eq_index_p.1 [⟨3, 4⟩, ⟨2, 1⟩, ⟨5, 7⟩] [2, 5] (by decide) (by decide)

/-! ## Theorems: `ply_ravel_exit` against `ply_ravel` -/

theorem scan_found_all_false {β : Type} (op : Int → Bool × β) :
    ∀ l : List Int, (∀ x ∈ l, (op x).1 = false) → scan_found op l = (none, l) := by
  intro l
  induction l with
  | nil => intro _; rfl
  | cons x xs ih =>
    intro h
    have hx : (op x).1 = false := h x (by simp)
    have := ih fun y hy => h y (by simp [hy])
    simp [scan_found, hx, this]

theorem ply_loop_exit_never {β : Type} (op : Int → Bool × β) (dflt : β)
    (hop : ∀ x, (op x).1 = false) (order : List Int) (ocd : Nat) (sha : List Int)
    (ss ss0 : Int) :
    ∀ (fuel : Nat) (a : cell_iterator) (ind : List Int),
      ply_loop_exit op dflt order ocd sha ss ss0 fuel a ind
        = (ply_loop order ocd sha ss ss0 fuel a ind).map fun r => (dflt, r.2) := by
  intro fuel
  induction fuel with
  | zero => intro a ind; rfl
  | succ fuel ih =>
    intro a ind
    have hin : ply_inner_exit op ss0 ss.toNat a.flat = (none, ply_inner ss0 ss.toNat a.flat) := by
      rw [ply_inner_exit_eq]
      exact scan_found_all_false op _ fun x _ => hop x
    simp only [ply_loop_exit, ply_loop, hin]
    cases hc : ply_carry order ocd sha ind 0 a with
    | error e => rfl
    | ok r =>
      obtain ⟨a1, ind1, go⟩ := r
      simp only [bind, Except.bind]
      cases go with
      | false => rfl
      | true =>
        simp only [if_true, ih a1 ind1]
        cases ply_loop order ocd sha ss ss0 fuel a1 ind1 <;> rfl

theorem ply_ravel_exit_never {β : Type} (op : Int → Bool × β) (dflt : β)
    (hop : ∀ x, (op x).1 = false) (a : cell_iterator) :
    ply_ravel_exit op a dflt = (ply_ravel a).map fun r => (dflt, r.2) := by
  unfold ply_ravel_exit ply_ravel
  simp only [bind, Except.bind]
  split
  · rfl
  · split
    · simp [hop, Except.map]
    · cases rd (ply_order a.rank.toNat) 0 with
      | error e => rfl
      | ok o0 =>
        simp only
        cases a.size o0 with
        | error e => rfl
        | ok ss =>
          simp only
          cases ply_fuse a (ply_order a.rank.toNat) (a.rank.toNat - 1) 1 ss with
          | error e => rfl
          | ok r =>
            obtain ⟨rank1, ocd, ss1⟩ := r
            simp only
            cases ply_sha a (ply_order a.rank.toNat) ocd rank1 0 with
            | error e => rfl
            | ok sh =>
              cases sh with
              | none => rfl
              | some sha =>
                simp only
                cases a.stride o0 with
                | error e => rfl
                | ok ss0 =>
                  simp only
                  exact ply_loop_exit_never op dflt hop _ _ _ _ _ _ _ _

/-- C37: when no application of the operation reports found, `ply_ravel_exit` applies it at
the same sequence of addresses as `ply_ravel` on the same iterator and returns the default
(and it fails where `ply_ravel` fails); in general its applications are those of
`ply_ravel` up to and including the first that reports found, whose value it returns. -/
theorem exit_same_walk {β : Type} (op : Int → Bool × β) (dflt : β) :
    (∀ (a a1 : cell_iterator) (tr : List Int), ply_ravel a = .ok (a1, tr) →
      (∀ x ∈ tr, (op x).1 = false) → ply_ravel_exit op a dflt = .ok (dflt, tr))
    ∧ ((∀ x, (op x).1 = false) → ∀ a : cell_iterator,
        ply_ravel_exit op a dflt = (ply_ravel a).map fun r => (dflt, r.2))
    ∧ (∀ (a a1 : cell_iterator) (tr : List Int), ply_ravel a = .ok (a1, tr) →
        ply_ravel_exit op a dflt
          = .ok (((scan_found op tr).1).getD dflt, (scan_found op tr).2)) := by
  refine ⟨?_, fun hop a => ply_ravel_exit_never op dflt hop a, ?_⟩
  · intro a a1 tr h hnf
    rw [ply_ravel_exit_of_ravel op dflt a a1 tr h, scan_found_all_false op tr hnf]
    rfl
  · intro a a1 tr h
    exact ply_ravel_exit_of_ravel op dflt a a1 tr h

theorem exit_same_walk_witness :
    ply_ravel_exit (fun x => (decide (mem_of [1, 2, 3, 4, 5, 6] x = 9), x))
        ⟨[⟨3, 2⟩, ⟨2, 1⟩], 0, ⟨[], 0⟩⟩ (-1)
      = .ok (-1, [0, 1, 2, 3, 4, 5]) :=
  (exit_same_walk (fun x => (decide (mem_of [1, 2, 3, 4, 5, 6] x = 9), x)) (-1)).1
    ⟨[⟨3, 2⟩, ⟨2, 1⟩], 0, ⟨[], 0⟩⟩ ⟨[⟨3, 2⟩, ⟨2, 1⟩], 0, ⟨[], 0⟩⟩ [0, 1, 2, 3, 4, 5]
    (by decide) (by decide)

/-! ## Theorems: the odometer of `ply_ravel` ends and returns the iterator -/

theorem ply_carry_adv_erase (order : List Int) (ocd : Nat) :
    ∀ (sha ind : List Int) (k : Nat) (a : cell_iterator),
      (ply_carry_adv order ocd sha ind k a).map (fun r => (r.1, r.2.1, r.2.2.1))
        = ply_carry order ocd sha ind k a := by
  intro sha
  induction sha with
  | nil => intro ind k a; rfl
  | cons s sha ih =>
    intro ind k a
    cases ind with
    | nil => rfl
    | cons i ind =>
      simp only [ply_carry_adv, ply_carry, bind, Except.bind]
      cases rd order (ocd + k) with
      | error e => rfl
      | ok ax =>
        simp only
        split
        · cases a.adv ax 1 <;> rfl
        · cases a.adv ax (1 - s) with
          | error e => rfl
          | ok a1 =>
            simp only
            rw [← ih ind (k + 1) a1]
            cases ply_carry_adv order ocd sha ind (k + 1) a1 <;> rfl

theorem ply_loop_adv_erase (order : List Int) (ocd : Nat) (sha : List Int) (ss ss0 : Int) :
    ∀ (fuel : Nat) (a : cell_iterator) (ind : List Int),
      (ply_loop_adv order ocd sha ss ss0 fuel a ind).map
          (fun r => (r.1, r.2.1.flatMap fun run => run))
        = ply_loop order ocd sha ss ss0 fuel a ind := by
  intro fuel
  induction fuel with
  | zero => intro a ind; rfl
  | succ fuel ih =>
    intro a ind
    simp only [ply_loop_adv, ply_loop, bind, Except.bind]
    rw [← ply_carry_adv_erase order ocd sha ind 0 a]
    cases ply_carry_adv order ocd sha ind 0 a with
    | error e => rfl
    | ok r =>
      obtain ⟨a1, ind1, go, log⟩ := r
      simp only [Except.map]
      cases go with
      | false => simp
      | true =>
        simp only [if_true]
        rw [← ih a1 ind1]
        cases ply_loop_adv order ocd sha ss ss0 fuel a1 ind1 with
        | error e => rfl
        | ok r2 => simp [Except.map]

theorem ply_ravel_adv_erase (a : cell_iterator) :
    (ply_ravel_adv a).map (fun r => (r.1, r.2.1.flatMap fun run => run)) = ply_ravel a := by
  unfold ply_ravel_adv ply_ravel
  simp only [bind, Except.bind]
  split
  · rfl
  · split
    · simp [Except.map]
    · cases rd (ply_order a.rank.toNat) 0 with
      | error e => rfl
      | ok o0 =>
        simp only
        cases a.size o0 with
        | error e => rfl
        | ok ss =>
          simp only
          cases ply_fuse a (ply_order a.rank.toNat) (a.rank.toNat - 1) 1 ss with
          | error e => rfl
          | ok r =>
            obtain ⟨rank1, ocd, ss1⟩ := r
            simp only
            cases ply_sha a (ply_order a.rank.toNat) ocd rank1 0 with
            | error e => rfl
            | ok sh =>
              cases sh with
              | none => simp [Except.map]
              | some sha =>
                simp only
                cases a.stride o0 with
                | error e => rfl
                | ok ss0 =>
                  simp only
                  exact ply_loop_adv_erase _ _ _ _ _ _ _ _

theorem drop_of_rd {α : Type} {l : List α} {n : Nat} {x : α} (h : rd l n = .ok x) :
    l.drop n = x :: l.drop (n + 1) := by
  unfold rd at h
  cases hx : l[n]? with
  | none => rw [hx] at h; cases h
  | some y =>
    rw [hx] at h
    simp only [Except.ok.injEq] at h
    subst h
    obtain ⟨hlt, hy⟩ := List.getElem?_eq_some_iff.1 hx
    rw [List.drop_eq_getElem_cons hlt, hy]

theorem odo_count_pos (sha : List Int) : 0 < odo_count sha := by
  induction sha with
  | nil => simp [odo_count]
  | cons s sha ih =>
    simp only [odo_count, List.map_cons, List.prod_cons] at ih ⊢
    exact mul_pos (by omega) ih

theorem ply_carry_adv_spec (a : cell_iterator) (order : List Int) (ocd : Nat) :
    ∀ (ro : List Dim) (ind : List Int) (k : Nat) (q : Int),
      AxesAt a order (ocd + k) ro → odo_ok (ro.map Dim.size) ind →
      ∃ (q1 : Int) (ind1 : List Int) (go : Bool) (log : List (Int × Int)),
        ply_carry_adv order ocd (ro.map Dim.size) ind k (a.setp q) = .ok (a.setp q1, ind1, go, log)
        ∧ odo_ok (ro.map Dim.size) ind1
        ∧ (go = true → odo_value (ro.map Dim.size) ind1 = odo_value (ro.map Dim.size) ind + 1)
        ∧ (go = false → odo_value (ro.map Dim.size) ind + 1 = odo_count (ro.map Dim.size)
            ∧ ind1 = List.replicate ro.length 0)
        ∧ ((∀ d ∈ ro, (1 : Int) ≤ d.size) → ∀ w : Int → Int,
            wsum w log = windex w (order.drop (ocd + k)) ind1
              - windex w (order.drop (ocd + k)) ind) := by
  intro ro
  induction ro with
  | nil =>
    intro ind k q _ hok
    cases ind with
    | nil =>
      exact ⟨q, [], false, [], rfl, trivial, by simp, by simp [odo_value, odo_count],
        by simp [wsum, windex]⟩
    | cons _ _ => simp [odo_ok] at hok
  | cons d ro ih =>
    intro ind k q hax hok
    cases ind with
    | nil => simp [odo_ok] at hok
    | cons i ind =>
      obtain ⟨⟨ax, hrd, hst, -⟩, hax'⟩ := hax
      simp only [List.map_cons, odo_ok] at hok
      obtain ⟨⟨hi0, hi1⟩, hok'⟩ := hok
      have hdrop := drop_of_rd hrd
      by_cases hlt : i < d.size - 1
      · refine ⟨q + d.stride * 1, (i + 1) :: ind, true, [(ax, 1)], ?_, ?_, ?_, ?_, ?_⟩
        · simp only [List.map_cons, ply_carry_adv, hrd, hlt, if_true, bind, Except.bind,
            adv_setp a q ax d.stride 1 hst]
        · simp only [List.map_cons, odo_ok]
          exact ⟨⟨by omega, by omega⟩, hok'⟩
        · intro _
          simp only [List.map_cons, odo_value]
          ring
        · intro h; cases h
        · intro _ w
          rw [hdrop]
          simp only [wsum, windex, List.map_cons, List.map_nil, List.sum_cons, List.sum_nil,
            List.zipWith_cons_cons]
          ring
      · have hax2 : AxesAt a order (ocd + (k + 1)) ro := by
          rw [← Nat.add_assoc]; exact hax'
        obtain ⟨q1, ind1, go, log, hc, hok1, hgt, hgf, hw⟩ :=
          ih ind (k + 1) (q + d.stride * (1 - d.size)) hax2 hok'
        have him : i = max d.size 1 - 1 := by omega
        refine ⟨q1, 0 :: ind1, go, (ax, 1 - d.size) :: log, ?_, ?_, ?_, ?_, ?_⟩
        · simp only [List.map_cons, ply_carry_adv, hrd, hlt, if_false, bind, Except.bind,
            adv_setp a q ax d.stride (1 - d.size) hst, hc]
        · simp only [List.map_cons, odo_ok]
          exact ⟨⟨le_refl _, by omega⟩, hok1⟩
        · intro hg
          simp only [List.map_cons, odo_value, hgt hg, him]
          ring
        · intro hg
          obtain ⟨h1, h2⟩ := hgf hg
          refine ⟨?_, by rw [h2]; rfl⟩
          have hcnt : odo_count (d.size :: ro.map Dim.size)
              = max d.size 1 * odo_count (ro.map Dim.size) := by
            simp [odo_count]
          simp only [List.map_cons, odo_value]
          rw [hcnt, ← h1, him]
          ring
        · intro hpos w
          have hd1 : (1 : Int) ≤ d.size := hpos d (by simp)
          have hi : i = d.size - 1 := by omega
          have := hw (fun x hx => hpos x (by simp [hx])) w
          rw [hdrop]
          rw [show ocd + k + 1 = ocd + (k + 1) by omega]
          simp only [wsum, windex, List.map_cons, List.sum_cons, List.zipWith_cons_cons] at this ⊢
          rw [this, hi]
          ring

theorem odo_value_bounds : ∀ (sha ind : List Int), odo_ok sha ind →
    0 ≤ odo_value sha ind ∧ odo_value sha ind < odo_count sha := by
  intro sha
  induction sha with
  | nil =>
    intro ind h
    cases ind with
    | nil => simp [odo_value, odo_count]
    | cons _ _ => simp [odo_ok] at h
  | cons s sha ih =>
    intro ind h
    cases ind with
    | nil => simp [odo_ok] at h
    | cons i ind =>
      obtain ⟨⟨h0, h1⟩, h2⟩ := h
      obtain ⟨hv0, hv1⟩ := ih ind h2
      have hcnt : odo_count (s :: sha) = max s 1 * odo_count sha := by simp [odo_count]
      have hm : (1 : Int) ≤ max s 1 := by omega
      have e1 : 0 ≤ max s 1 * odo_value sha ind := mul_nonneg (by omega) hv0
      have e2 : max s 1 * (odo_value sha ind + 1) ≤ max s 1 * odo_count sha :=
        mul_le_mul_of_nonneg_left (by omega) (by omega)
      rw [hcnt]
      simp only [odo_value]
      constructor
      · omega
      · have : max s 1 * (odo_value sha ind + 1) = max s 1 * odo_value sha ind + max s 1 := by
          ring
        omega

theorem odo_ok_zeros : ∀ sha : List Int, odo_ok sha (List.replicate sha.length 0) := by
  intro sha
  induction sha with
  | nil => trivial
  | cons s sha ih => exact ⟨⟨le_refl _, by omega⟩, ih⟩

theorem odo_value_zeros : ∀ sha : List Int, odo_value sha (List.replicate sha.length 0) = 0 := by
  intro sha
  induction sha with
  | nil => rfl
  | cons s sha ih =>
    simp only [List.length_cons, List.replicate_succ, odo_value, ih]
    ring

theorem windex_zeros (w : Int → Int) : ∀ (axes : List Int) (n : Nat),
    windex w axes (List.replicate n 0) = 0 := by
  intro axes
  induction axes with
  | nil => intro n; simp [windex]
  | cons x xs ih =>
    intro n
    cases n with
    | zero => simp [windex]
    | succ n =>
      have := ih n
      simp only [windex, List.replicate_succ, List.zipWith_cons_cons, List.sum_cons] at this ⊢
      rw [this]
      ring

theorem wsum_append (w : Int → Int) (l1 l2 : List (Int × Int)) :
    wsum w (l1 ++ l2) = wsum w l1 + wsum w l2 := by
  simp [wsum]

theorem ply_fuel_count (sha : List Int) : (ply_fuel sha : Int) = odo_count sha := by
  induction sha with
  | nil => simp [ply_fuel, odo_count]
  | cons s sha ih =>
    simp only [ply_fuel, odo_count, List.map_cons, List.prod_cons, Nat.cast_mul] at ih ⊢
    rw [ih, Int.toNat_of_nonneg (by omega)]

theorem length_ply_inner (ss0 : Int) (n : Nat) (p : Int) : (ply_inner ss0 n p).length = n := by
  rw [ply_inner_eq]; simp

theorem ply_loop_adv_spec (a : cell_iterator) (order : List Int) (ocd : Nat) (ro : List Dim)
    (ss ss0 : Int) (hax : AxesAt a order ocd ro) :
    ∀ (fuel : Nat) (ind : List Int) (q : Int), odo_ok (ro.map Dim.size) ind →
      odo_count (ro.map Dim.size) - odo_value (ro.map Dim.size) ind ≤ (fuel : Int) →
      ∃ (q1 : Int) (runs : List (List Int)) (log : List (Int × Int)),
        ply_loop_adv order ocd (ro.map Dim.size) ss ss0 fuel (a.setp q) ind
          = .ok (a.setp q1, runs, log)
        ∧ (runs.length : Int) = odo_count (ro.map Dim.size) - odo_value (ro.map Dim.size) ind
        ∧ (∀ run ∈ runs, run.length = ss.toNat)
        ∧ ((∀ d ∈ ro, (1 : Int) ≤ d.size) → ∀ w : Int → Int,
            wsum w log = - windex w (order.drop ocd) ind) := by
  intro fuel
  induction fuel with
  | zero =>
    intro ind q hok hf
    have := (odo_value_bounds _ _ hok).2
    simp only [Nat.cast_zero] at hf
    omega
  | succ fuel ih =>
    intro ind q hok hf
    obtain ⟨q1, ind1, go, log, hc, hok1, hgt, hgf, hw⟩ :=
      ply_carry_adv_spec a order ocd ro ind 0 q (by simpa using hax) hok
    simp only [Nat.add_zero] at hw
    cases go with
    | false =>
      obtain ⟨h1, h2⟩ := hgf rfl
      refine ⟨q1, [ply_inner ss0 ss.toNat (a.setp q).flat], log, ?_, ?_, ?_, ?_⟩
      · simp only [ply_loop_adv, hc, bind, Except.bind]
        rfl
      · simp only [List.length_singleton, Nat.cast_one]
        omega
      · intro run hr
        simp only [List.mem_singleton] at hr
        rw [hr, length_ply_inner]
      · intro hpos w
        rw [hw hpos w, h2, windex_zeros]
        ring
    | true =>
      have hv := hgt rfl
      obtain ⟨q2, runs, log2, hl, hlen, hrun, hw2⟩ := ih ind1 q1 hok1 (by push_cast at hf; omega)
      refine ⟨q2, ply_inner ss0 ss.toNat (a.setp q).flat :: runs, log ++ log2, ?_, ?_, ?_, ?_⟩
      · simp only [ply_loop_adv, hc, bind, Except.bind, if_true, hl]
      · simp only [List.length_cons, Nat.cast_add, Nat.cast_one]
        omega
      · intro run hr
        rcases List.mem_cons.1 hr with h | h
        · rw [h, length_ply_inner]
        · exact hrun run h
      · intro hpos w
        rw [wsum_append, hw hpos w, hw2 hpos w]
        ring

theorem ply_sha_cases (a : cell_iterator) (order : List Int) (ocd : Nat) :
    ∀ (l : List Dim) (k : Nat), AxesAt a order (ocd + k) l →
      (ply_sha a order ocd l.length k = .ok (some (l.map Dim.size))
          ∧ ∀ d ∈ l, d.size ≠ 0 ∧ d.size ≠ DIM_BAD)
      ∨ (ply_sha a order ocd l.length k = .ok none ∧ ∃ d ∈ l, d.size = 0)
      ∨ (ply_sha a order ocd l.length k = .error .check ∧ ∃ d ∈ l, d.size = DIM_BAD) := by
  intro l
  induction l with
  | nil => intro k _; left; exact ⟨rfl, by simp⟩
  | cons d l ih =>
    intro k hax
    obtain ⟨⟨ax, hrd, -, hsz⟩, hax'⟩ := hax
    by_cases hz : d.size = 0
    · right; left
      refine ⟨?_, d, by simp, hz⟩
      simp only [List.length_cons, ply_sha, hrd, hsz, bind, Except.bind, hz, if_true]
    · by_cases hb : d.size = DIM_BAD
      · right; right
        refine ⟨?_, d, by simp, hb⟩
        simp only [List.length_cons, ply_sha, hrd, hsz, bind, Except.bind, hb, DIM_BAD_ne_zero,
          if_false, if_true]
      · rcases ih (k + 1) (by rwa [Nat.add_assoc] at hax') with ⟨h, hall⟩ | ⟨h, x, hx, hx0⟩
            | ⟨h, x, hx, hxb⟩
        · left
          refine ⟨?_, ?_⟩
          · simp only [List.length_cons, ply_sha, hrd, hsz, bind, Except.bind, hz, if_false, hb,
              h, List.map_cons]
          · intro x hx
            rcases List.mem_cons.1 hx with e | e
            · rw [e]; exact ⟨hz, hb⟩
            · exact hall x e
        · right; left
          refine ⟨?_, x, by simp [hx], hx0⟩
          simp only [List.length_cons, ply_sha, hrd, hsz, bind, Except.bind, hz, if_false, hb, h]
        · right; right
          refine ⟨?_, x, by simp [hx], hxb⟩
          simp only [List.length_cons, ply_sha, hrd, hsz, bind, Except.bind, hz, if_false, hb, h]

/-- What `ply_ravel` finds before its loop on an iterator of frame rank `n + 1`: the axes
innermost first, the number `m` of axes fused with the innermost one, and the axes left to
the odometer. -/
theorem ply_ravel_adv_cases (a : cell_iterator) (n : Nat) (hn : a.rank = ((n + 1 : Nat) : Int))
    (h1 : n + 1 ≤ a.dim.length) :
    ∃ (d0 : Dim) (rest : List Dim) (m : Nat),
      (a.dim.take (n + 1)).reverse = d0 :: rest ∧ m ≤ n
      ∧ a.size (n : Int) = .ok d0.size
      ∧ ply_fuse a (ply_order (n + 1)) n 1 d0.size
          = .ok (n - m, 1 + m, psize ((d0 :: rest).take (1 + m)))
      ∧ AxesAt a (ply_order (n + 1)) (1 + m) ((d0 :: rest).drop (1 + m))
      ∧ ((ply_sha a (ply_order (n + 1)) (1 + m) (n - m) 0
              = .ok (some (((d0 :: rest).drop (1 + m)).map Dim.size))
            ∧ (∀ d ∈ (d0 :: rest).drop (1 + m), d.size ≠ 0 ∧ d.size ≠ DIM_BAD)
            ∧ ∃ (q1 : Int) (runs : List (List Int)) (log : List (Int × Int)),
                ply_ravel_adv a = .ok (a.setp q1, runs, log)
                ∧ (runs.length : Int) = odo_count (((d0 :: rest).drop (1 + m)).map Dim.size)
                ∧ (∀ run ∈ runs, run.length = (psize ((d0 :: rest).take (1 + m))).toNat)
                ∧ ((∀ d ∈ (d0 :: rest).drop (1 + m), (1 : Int) ≤ d.size) →
                    ∀ w : Int → Int, wsum w log = 0))
        ∨ (ply_sha a (ply_order (n + 1)) (1 + m) (n - m) 0 = .ok none
            ∧ ply_ravel_adv a = .ok (a, [], []))
        ∨ (ply_sha a (ply_order (n + 1)) (1 + m) (n - m) 0 = .error .check
            ∧ ply_ravel_adv a = .error .check
            ∧ ∀ (β : Type) (op : Int → Bool × β) (dflt : β),
                ply_ravel_exit op a dflt = .error .check)) := by
  obtain ⟨d0, rest, m, hrv, hsz, hm, hfu, -⟩ := ply_fuse_frame a n hn h1
  have hnn : ¬ (a.rank < 0) := by omega
  have htn : a.rank.toNat = n + 1 := by omega
  have hlen : (a.dim.take (n + 1)).length = n + 1 := by simp only [List.length_take]; omega
  have hAx := frame_axes a (n + 1) hn h1
  rw [hrv] at hAx
  have hrl : (d0 :: rest).length = n + 1 := by rw [← hrv, List.length_reverse, hlen]
  have h0 : rd (ply_order (n + 1)) 0 = .ok (n : Int) := by
    have := rd_ply_order (n + 1) 0 (by omega)
    simpa using this
  obtain ⟨⟨ax0, h0', hst, -⟩, -⟩ := id hAx
  rw [h0] at h0'
  simp only [Except.ok.injEq] at h0'
  subst h0'
  have hAxo : AxesAt a (ply_order (n + 1)) (1 + m) ((d0 :: rest).drop (1 + m)) := by
    simpa using axesAt_drop a _ (1 + m) _ 0 hAx
  have hrol : ((d0 :: rest).drop (1 + m)).length = n - m := by
    rw [List.length_drop, hrl]; omega
  refine ⟨d0, rest, m, hrv, hm, hsz, hfu, hAxo, ?_⟩
  have hcases := ply_sha_cases a (ply_order (n + 1)) (1 + m) _ 0 (by simpa using hAxo)
  rw [hrol] at hcases
  rcases hcases with ⟨hsha, hall⟩ | ⟨hsha, -⟩ | ⟨hsha, -⟩
  · left
    refine ⟨hsha, hall, ?_⟩
    obtain ⟨q1, runs, log, hl, hlen2, hrun, hw⟩ := ply_loop_adv_spec a (ply_order (n + 1)) (1 + m)
      ((d0 :: rest).drop (1 + m)) (psize ((d0 :: rest).take (1 + m))) d0.stride hAxo
      (ply_fuel (((d0 :: rest).drop (1 + m)).map Dim.size))
      (List.replicate (((d0 :: rest).drop (1 + m)).map Dim.size).length 0) a.c.p
      (odo_ok_zeros _) (by rw [odo_value_zeros, ply_fuel_count]; omega)
    rw [setp_self] at hl
    rw [odo_value_zeros] at hlen2
    have hrl2 : (((d0 :: rest).drop (1 + m)).map Dim.size).length = n - m := by
      rw [List.length_map, hrol]
    rw [hrl2] at hl hw
    refine ⟨q1, runs, log, ?_, by omega, hrun, ?_⟩
    · simp only [ply_ravel_adv, hnn, if_false, htn, Nat.succ_ne_zero, h0, hsz, bind, Except.bind,
        Nat.add_sub_cancel, hfu, hsha, hst, hl]
    · intro hpos w
      rw [hw hpos w, windex_zeros]
      ring
  · right; left
    refine ⟨hsha, ?_⟩
    simp only [ply_ravel_adv, hnn, if_false, htn, Nat.succ_ne_zero, h0, hsz, bind, Except.bind,
      Nat.add_sub_cancel, hfu, hsha]
  · right; right
    refine ⟨hsha, ?_, ?_⟩
    · simp only [ply_ravel_adv, hnn, if_false, htn, Nat.succ_ne_zero, h0, hsz, bind, Except.bind,
        Nat.add_sub_cancel, hfu, hsha]
    · intro β op dflt
      simp only [ply_ravel_exit, hnn, if_false, htn, Nat.succ_ne_zero, h0, hsz, bind,
        Except.bind, Nat.add_sub_cancel, hfu, hsha]

theorem adv_total_eq_wsum (log : List (Int × Int)) (x : Int) :
    adv_total log x = wsum (fun ax => if ax = x then 1 else 0) log := by
  simp only [adv_total, wsum]
  congr 1
  apply List.map_congr_left
  intro e _
  split <;> simp

theorem ply_ravel_adv_home (a : cell_iterator) (n : Nat) (hn : a.rank = (n : Int))
    (h1 : n ≤ a.dim.length) (hs : ∀ d ∈ a.dim.take n, (0 : Int) ≤ d.size) :
    ∃ (runs : List (List Int)) (log : List (Int × Int)),
      ply_ravel_adv a = .ok (a, runs, log) ∧ (∀ x : Int, adv_total log x = 0)
      ∧ ply_ravel a = .ok (a, runs.flatMap fun run => run) := by
  have hspec := ply_ravel_spec a n hn h1 hs
  have her := ply_ravel_adv_erase a
  cases n with
  | zero =>
    have hnn : ¬ (a.rank < 0) := by omega
    have htn : a.rank.toNat = 0 := by omega
    have hadv : ply_ravel_adv a = .ok (a, [[a.flat]], []) := by
      simp [ply_ravel_adv, hnn, htn]
    refine ⟨_, _, hadv, fun x => by simp [adv_total], ?_⟩
    rw [← her, hadv]
    rfl
  | succ n =>
    obtain ⟨d0, rest, m, hrv, -, -, -, -, hc⟩ := ply_ravel_adv_cases a n hn h1
    rcases hc with ⟨-, hall, q1, runs, log, hadv, -, -, hw⟩ | ⟨-, hadv⟩ | ⟨-, hadv, -⟩
    · have hq : a.setp q1 = a := by
        rw [hadv, hspec] at her
        simp only [Except.map, Except.ok.injEq, Prod.mk.injEq] at her
        exact her.1
      rw [hq] at hadv
      have hpos : ∀ d ∈ (d0 :: rest).drop (1 + m), (1 : Int) ≤ d.size := by
        intro d hd
        have h0 : (0 : Int) ≤ d.size := by
          apply hs
          have : d ∈ (a.dim.take (n + 1)).reverse := by
            rw [hrv]; exact List.mem_of_mem_drop hd
          exact List.mem_reverse.1 this
        have := (hall d hd).1
        omega
      refine ⟨runs, log, hadv, fun x => by rw [adv_total_eq_wsum, hw hpos], ?_⟩
      rw [← her, hadv]
      rfl
    · refine ⟨[], [], hadv, fun x => by simp [adv_total], ?_⟩
      rw [← her, hadv]
      rfl
    · rw [hadv, hspec] at her
      cases her

/-- C33: when `ply_ravel` runs on an iterator whose sizes are non-negative it returns
normally with the iterator back at its starting position: in the run that records the calls
of `adv`, the deltas passed for each axis sum to 0, and the iterator at the end, hence its
cell pointer, is the one at the start. -/
theorem ply_ravel_returns :
    (∀ (a : cell_iterator) (n : Nat), a.rank = (n : Int) → n ≤ a.dim.length →
      (∀ d ∈ a.dim.take n, (0 : Int) ≤ d.size) →
        ∃ (runs : List (List Int)) (log : List (Int × Int)),
          ply_ravel_adv a = .ok (a, runs, log) ∧ (∀ x : Int, adv_total log x = 0)
          ∧ ply_ravel a = .ok (a, runs.flatMap fun run => run))
    ∧ (∀ (a a1 : cell_iterator) (n : Nat) (tr : List Int), a.rank = (n : Int) →
        n ≤ a.dim.length → (∀ d ∈ a.dim.take n, (0 : Int) ≤ d.size) →
        ply_ravel a = .ok (a1, tr) → a1 = a ∧ a1.c.p = a.c.p)
    ∧ (∀ a : cell_iterator,
        (ply_ravel_adv a).map (fun r => (r.1, r.2.1.flatMap fun run => run)) = ply_ravel a)
    ∧ ply_ravel_adv ⟨[⟨2, 10⟩, ⟨3, 4⟩, ⟨2, 1⟩], 0, ⟨[], 0⟩⟩
        = .ok (⟨[⟨2, 10⟩, ⟨3, 4⟩, ⟨2, 1⟩], 0, ⟨[], 0⟩⟩,
            [[0, 1], [4, 5], [8, 9], [10, 11], [14, 15], [18, 19]],
            [(1, 1), (1, 1), (1, -2), (0, 1), (1, 1), (1, 1), (1, -2), (0, -1)]) := by
  refine ⟨ply_ravel_adv_home, ?_, ply_ravel_adv_erase, by decide⟩
  intro a a1 n tr hn h1 hs h
  rw [ply_ravel_spec a n hn h1 hs] at h
  simp only [Except.ok.injEq, Prod.mk.injEq] at h
  exact ⟨h.1.symm, by rw [← h.1]⟩

theorem ply_ravel_returns_witness :
    ∃ (runs : List (List Int)) (log : List (Int × Int)),
      ply_ravel_adv ⟨[⟨2, 10⟩, ⟨3, 1⟩], 0, ⟨[], 7⟩⟩
          = .ok (⟨[⟨2, 10⟩, ⟨3, 1⟩], 0, ⟨[], 7⟩⟩, runs, log)
        ∧ (∀ x : Int, adv_total log x = 0)
        ∧ ply_ravel ⟨[⟨2, 10⟩, ⟨3, 1⟩], 0, ⟨[], 7⟩⟩
          = .ok (⟨[⟨2, 10⟩, ⟨3, 1⟩], 0, ⟨[], 7⟩⟩, runs.flatMap fun run => run) :=
  ply_ravel_returns.1 ⟨[⟨2, 10⟩, ⟨3, 1⟩], 0, ⟨[], 7⟩⟩ 2 (by decide) (by decide) (by decide)

/-- C36: on every iterator whose frame lies within its dope vector, whatever the sizes and
strides, `ply_ravel` and `ply_ravel_exit` come to an end, either returning or with a check
failure (a negative rank, an odometer axis of size `DIM_BAD`): the bound on the iterations of their loop
that the embedding carries is never reached. When the loop is entered, the inner run is
executed once for each reading of the odometer, an axis of size `s` having `max s 1`
positions: the product of the odometer sizes when these are positive. With the sizes
`{-2, 3}` (strides `{10, 1}`) the inner run of 3 is executed once; with `{2, -3}` the two
inner runs apply the operation nowhere. -/
theorem ply_ravel_terminates :
    (∀ a : cell_iterator, a.rank ≤ (a.dim.length : Int) →
      (∃ r, ply_ravel a = .ok r) ∨ ply_ravel a = .error .check)
    ∧ (∀ (β : Type) (op : Int → Bool × β) (dflt : β) (a : cell_iterator),
        a.rank ≤ (a.dim.length : Int) →
          (∃ r, ply_ravel_exit op a dflt = .ok r) ∨ ply_ravel_exit op a dflt = .error .check)
    ∧ (∀ (a : cell_iterator) (n : Nat) (ss : Int) (r ocd : Nat) (ss1 : Int) (sha : List Int),
        a.rank = ((n + 1 : Nat) : Int) → n + 1 ≤ a.dim.length → a.size (n : Int) = .ok ss →
        ply_fuse a (ply_order (n + 1)) n 1 ss = .ok (r, ocd, ss1) →
        ply_sha a (ply_order (n + 1)) ocd r 0 = .ok (some sha) →
          ∃ (a1 : cell_iterator) (runs : List (List Int)) (log : List (Int × Int)),
            ply_ravel_adv a = .ok (a1, runs, log)
            ∧ ply_ravel a = .ok (a1, runs.flatMap fun run => run)
            ∧ runs.length = ply_fuel sha
            ∧ (∀ run ∈ runs, run.length = ss1.toNat)
            ∧ ((∀ s ∈ sha, (1 : Int) ≤ s) → (runs.length : Int) = sha.prod))
    ∧ (ply_ravel_adv ⟨[⟨-2, 10⟩, ⟨3, 1⟩], 0, ⟨[], 0⟩⟩
          = .ok (⟨[⟨-2, 10⟩, ⟨3, 1⟩], 0, ⟨[], 30⟩⟩, [[0, 1, 2]], [(0, 3)])
      ∧ ply_ravel_adv ⟨[⟨2, 10⟩, ⟨-3, 1⟩], 0, ⟨[], 0⟩⟩
          = .ok (⟨[⟨2, 10⟩, ⟨-3, 1⟩], 0, ⟨[], 0⟩⟩, [[], []], [(0, 1), (0, -1)])
      ∧ ply_ravel ⟨[⟨2, 10⟩, ⟨0, 3⟩, ⟨-3, 1⟩], 0, ⟨[], 0⟩⟩
          = .ok (⟨[⟨2, 10⟩, ⟨0, 3⟩, ⟨-3, 1⟩], 0, ⟨[], 0⟩⟩, [])) := by
  have hadv : ∀ a : cell_iterator, a.rank ≤ (a.dim.length : Int) →
      ((∃ r, ply_ravel_adv a = .ok r)
        ∨ (ply_ravel_adv a = .error .check
            ∧ ∀ (β : Type) (op : Int → Bool × β) (dflt : β),
                ply_ravel_exit op a dflt = .error .check)) := by
    intro a hle
    by_cases hneg : a.rank < 0
    · right
      exact ⟨by simp [ply_ravel_adv, hneg], fun β op dflt => by simp [ply_ravel_exit, hneg]⟩
    · obtain ⟨n, hn⟩ := Int.eq_ofNat_of_zero_le (by omega : 0 ≤ a.rank)
      have h1 : n ≤ a.dim.length := by omega
      cases n with
      | zero =>
        have htn : a.rank.toNat = 0 := by omega
        left
        exact ⟨(a, [[a.flat]], []), by simp [ply_ravel_adv, hneg, htn]⟩
      | succ n =>
        obtain ⟨d0, rest, m, -, -, -, -, -, hc⟩ := ply_ravel_adv_cases a n hn h1
        rcases hc with ⟨-, -, q1, runs, log, h, -⟩ | ⟨-, h⟩ | ⟨-, h, hx⟩
        · exact Or.inl ⟨_, h⟩
        · exact Or.inl ⟨_, h⟩
        · exact Or.inr ⟨h, hx⟩
  have hply : ∀ a : cell_iterator, a.rank ≤ (a.dim.length : Int) →
      (∃ r, ply_ravel a = .ok r) ∨ ply_ravel a = .error .check := by
    intro a hle
    rcases hadv a hle with ⟨r, h⟩ | ⟨h, -⟩
    · left
      rw [← ply_ravel_adv_erase a, h]
      exact ⟨_, rfl⟩
    · right
      rw [← ply_ravel_adv_erase a, h]
      rfl
  refine ⟨hply, ?_, ?_, by decide, by decide, by decide⟩
  · intro β op dflt a hle
    rcases hadv a hle with ⟨r, h⟩ | ⟨-, h⟩
    · left
      have hp : ply_ravel a = .ok (r.1, r.2.1.flatMap fun run => run) := by
        rw [← ply_ravel_adv_erase a, h]
        rfl
      exact ⟨_, ply_ravel_exit_of_ravel op dflt a _ _ hp⟩
    · exact Or.inr (h β op dflt)
  · intro a n ss r ocd ss1 sha hn h1 hss hfu hsha
    obtain ⟨d0, rest, m, -, -, hsz, hfu2, -, hc⟩ := ply_ravel_adv_cases a n hn h1
    rw [hsz] at hss
    simp only [Except.ok.injEq] at hss
    subst hss
    rw [hfu2] at hfu
    simp only [Except.ok.injEq, Prod.mk.injEq] at hfu
    obtain ⟨hr, hocd, hss1⟩ := hfu
    subst hr hocd hss1
    rcases hc with ⟨hsome, -, q1, runs, log, h, hlen, hrun, -⟩ | ⟨hnone, -⟩ | ⟨herr, -⟩
    · rw [hsome] at hsha
      simp only [Except.ok.injEq, Option.some.injEq] at hsha
      subst hsha
      refine ⟨a.setp q1, runs, log, h, ?_, ?_, hrun, ?_⟩
      · rw [← ply_ravel_adv_erase a, h]
        rfl
      · have := ply_fuel_count (((d0 :: rest).drop (1 + m)).map Dim.size)
        omega
      · intro hpos
        rw [hlen, odo_count]
        congr 1
        generalize ((d0 :: rest).drop (1 + m)).map Dim.size = sha at hpos
        conv_rhs => rw [← List.map_id sha]
        apply List.map_congr_left
        intro s hs
        have := hpos s hs
        simp only [id]
        omega
    · rw [hnone] at hsha; cases hsha
    · rw [herr] at hsha; cases hsha

theorem ply_ravel_terminates_witness :
    (∃ r, ply_ravel ⟨[⟨-7, 3⟩, ⟨0, 2⟩, ⟨3, 1⟩, ⟨-2, 5⟩], 0, ⟨[], 0⟩⟩ = .ok r)
      ∨ ply_ravel ⟨[⟨-7, 3⟩, ⟨0, 2⟩, ⟨3, 1⟩, ⟨-2, 5⟩], 0, ⟨[], 0⟩⟩ = .error .check :=
  ply_ravel_terminates.1 ⟨[⟨-7, 3⟩, ⟨0, 2⟩, ⟨3, 1⟩, ⟨-2, 5⟩], 0, ⟨[], 0⟩⟩ (by decide)

/-! ## Theorems: the accesses of a subscripting -/

theorem dots_loop_acc_erase (src : List Dim) :
    ∀ (n : Nat) (dim : DimBuf) (d s : Nat),
      (dots_loop_acc src n dim d s).map Prod.fst = dots_loop src n dim d s := by
  intro n
  induction n with
  | zero => intro dim d s; rfl
  | succ n ih =>
    intro dim d s
    simp only [dots_loop_acc, dots_loop, bind, Except.bind]
    cases rd src s with
    | error e => rfl
    | ok x =>
      simp only
      cases wr dim d (some x) with
      | error e => rfl
      | ok dim1 =>
        simp only
        rw [← ih dim1 (d + 1) (s + 1)]
        cases dots_loop_acc src n dim1 (d + 1) (s + 1) <;> rfl

theorem insert_loop_acc_erase :
    ∀ (n : Nat) (dim : DimBuf) (d : Nat),
      (insert_loop_acc n dim d).map Prod.fst = insert_loop n dim d := by
  intro n
  induction n with
  | zero => intro dim d; rfl
  | succ n ih =>
    intro dim d
    simp only [insert_loop_acc, insert_loop, bind, Except.bind]
    cases wr dim d (some { size := DIM_BAD, stride := 0 }) with
    | error e => rfl
    | ok dim1 =>
      simp only
      rw [← ih dim1 (d + 1)]
      cases insert_loop_acc n dim1 (d + 1) <;> rfl

theorem select_loop_acc_erase (src : List Dim) :
    ∀ (idx : List Index) (dim : DimBuf) (d s : Nat),
      (select_loop_acc src idx dim d s).map (fun r => (r.1, r.2.1)) = select_loop src idx dim d s := by
  intro idx
  induction idx with
  | nil => intro dim d s; rfl
  | cons i rest ih =>
    intro dim d s
    cases i with
    | int i =>
      simp only [select_loop_acc, select_loop, select_int_acc, select_int, bind, Except.bind]
      cases rd src s with
      | error e => rfl
      | ok x =>
        simp only
        by_cases hi : inside i x.size = true
        · rw [if_pos hi, if_pos hi]
          simp only
          rw [← ih dim _ _]
          cases select_loop_acc src rest dim (d + is_beatable.skip (.int i))
            (s + is_beatable.skip_src (.int i)) <;> rfl
        · rw [if_neg hi, if_neg hi]
          rfl
    | iota i =>
      simp only [select_loop_acc, select_loop, select_iota_acc, select_iota, bind, Except.bind]
      cases rd src s with
      | error e => rfl
      | ok x =>
        simp only
        by_cases hi : ((inside i.i_ x.size && inside (i.i_ + (i.size_ - 1) * i.stride_) x.size)
            || (decide (i.size_ = 0) && decide (i.i_ ≤ x.size))) = true
        · rw [if_pos hi, if_pos hi]
          cases wr dim d (some { size := i.size_, stride := x.stride * i.stride_ }) with
          | error e => rfl
          | ok dim1 =>
            simp only
            rw [← ih dim1 _ _]
            cases select_loop_acc src rest dim1 (d + is_beatable.skip (.iota i))
              (s + is_beatable.skip_src (.iota i)) <;> rfl
        · rw [if_neg hi, if_neg hi]
          rfl
    | dots n =>
      simp only [select_loop_acc, select_loop, bind, Except.bind]
      rw [← dots_loop_acc_erase src n dim d s]
      cases dots_loop_acc src n dim d s with
      | error e => rfl
      | ok r =>
        simp only [Except.map]
        rw [← ih r.1 _ _]
        cases select_loop_acc src rest r.1 (d + n) (s + n) <;> rfl
    | insert n =>
      simp only [select_loop_acc, select_loop, bind, Except.bind]
      rw [← insert_loop_acc_erase n dim d]
      cases insert_loop_acc n dim d with
      | error e => rfl
      | ok r =>
        simp only [Except.map]
        rw [← ih r.1 _ _]
        cases select_loop_acc src rest r.1 (d + n) s <;> rfl

theorem fill_rest_acc_erase (src : List Dim) (ext : Int) :
    ∀ (n : Nat) (i : Int) (sub : DimBuf),
      (fill_rest_acc src ext n i sub).map Prod.fst = fill_rest src ext n i sub := by
  intro n
  induction n with
  | zero => intro i sub; rfl
  | succ n ih =>
    intro i sub
    simp only [fill_rest_acc, fill_rest, bind, Except.bind]
    cases rdI src (i - ext) with
    | error e => rfl
    | ok x =>
      simp only
      cases wrI sub i (some x) with
      | error e => rfl
      | ok sub1 =>
        simp only
        rw [← ih (i + 1) sub1]
        cases fill_rest_acc src ext n (i + 1) sub1 <;> rfl

theorem subscript_core_acc_erase (v : View) (idx : List Index) (subrank : Int) :
    (subscript_core_acc v idx subrank).map (fun r => (r.1, r.2.1))
      = subscript_core v idx subrank := by
  simp only [subscript_core_acc, subscript_core, bind, Except.bind]
  rw [← select_loop_acc_erase v.dim idx _ 0 0]
  cases select_loop_acc v.dim idx (List.replicate subrank.toNat none) 0 0 with
  | error e => rfl
  | ok r =>
    simp only [Except.map]
    rw [← fill_rest_acc_erase v.dim (extended idx) _ _ r.2.1]
    cases fill_rest_acc v.dim (extended idx) (subrank - skip_sum idx).toNat (skip_sum idx) r.2.1
      <;> rfl

theorem span_zero (d : Nat) : span d 0 = [] := rfl

theorem span_succ (d n : Nat) : span d (n + 1) = (d : Int) :: span (d + 1) n := by
  simp [span, List.range'_succ]

theorem span_append : ∀ (m d n : Nat), span d m ++ span (d + m) n = span d (m + n) := by
  intro m
  induction m with
  | zero => intro d n; simp [span_zero]
  | succ m ih =>
    intro d n
    rw [span_succ, show m + 1 + n = (m + n) + 1 by omega, span_succ, List.cons_append,
      show d + (m + 1) = d + 1 + m by omega, ih]

theorem span_eq_upto (n : Nat) : span 0 n = upto (n : Int) := by
  rw [upto_natCast, span, List.range_eq_range']

theorem rd_lt {α : Type} {l : List α} {n : Nat} {x : α} (h : rd l n = .ok x) : n < l.length := by
  unfold rd at h
  cases hx : l[n]? with
  | none => rw [hx] at h; cases h
  | some y => exact (List.getElem?_eq_some_iff.1 hx).1

theorem dots_loop_acc_log (src : List Dim) :
    ∀ (n : Nat) (dim : DimBuf) (d s : Nat) (dim1 : DimBuf) (acc : Accesses),
      dots_loop_acc src n dim d s = .ok (dim1, acc) →
      acc.writes = span d n ∧ acc.reads = span s n ∧ ∀ r ∈ acc.reads, r < (src.length : Int) := by
  intro n
  induction n with
  | zero =>
    intro dim d s dim1 acc h
    simp only [dots_loop_acc, Except.ok.injEq, Prod.mk.injEq] at h
    rw [← h.2]
    exact ⟨rfl, rfl, by simp⟩
  | succ n ih =>
    intro dim d s dim1 acc h
    simp only [dots_loop_acc, bind, Except.bind] at h
    cases hx : rd src s with
    | error e => rw [hx] at h; cases h
    | ok x =>
      rw [hx] at h
      simp only at h
      cases hw : wr dim d (some x) with
      | error e => rw [hw] at h; cases h
      | ok dimw =>
        rw [hw] at h
        simp only at h
        cases hr : dots_loop_acc src n dimw (d + 1) (s + 1) with
        | error e => rw [hr] at h; cases h
        | ok r =>
          obtain ⟨dim2, acc2⟩ := r
          rw [hr] at h
          simp only [Except.ok.injEq, Prod.mk.injEq] at h
          obtain ⟨h1, h2, h3⟩ := ih dimw (d + 1) (s + 1) dim2 acc2 hr
          have hs := rd_lt hx
          rw [← h.2]
          refine ⟨by simp only [h1, span_succ], by simp only [h2, span_succ], ?_⟩
          intro r hr
          rcases List.mem_cons.1 hr with e | e
          · rw [e]; exact_mod_cast hs
          · exact h3 r e

theorem insert_loop_acc_log :
    ∀ (n : Nat) (dim : DimBuf) (d : Nat) (dim1 : DimBuf) (acc : Accesses),
      insert_loop_acc n dim d = .ok (dim1, acc) → acc.writes = span d n ∧ acc.reads = [] := by
  intro n
  induction n with
  | zero =>
    intro dim d dim1 acc h
    simp only [insert_loop_acc, Except.ok.injEq, Prod.mk.injEq] at h
    rw [← h.2]
    exact ⟨rfl, rfl⟩
  | succ n ih =>
    intro dim d dim1 acc h
    simp only [insert_loop_acc, bind, Except.bind] at h
    cases hw : wr dim d (some { size := DIM_BAD, stride := 0 }) with
    | error e => rw [hw] at h; cases h
    | ok dimw =>
      rw [hw] at h
      simp only at h
      cases hr : insert_loop_acc n dimw (d + 1) with
      | error e => rw [hr] at h; cases h
      | ok r =>
        obtain ⟨dim2, acc2⟩ := r
        rw [hr] at h
        simp only [Except.ok.injEq, Prod.mk.injEq] at h
        obtain ⟨h1, h2⟩ := ih dimw (d + 1) dim2 acc2 hr
        rw [← h.2]
        exact ⟨by simp only [h1, span_succ], h2⟩

theorem skip_sum_cons (i : Index) (rest : List Index) :
    skip_sum (i :: rest) = is_beatable.skip i + skip_sum rest := by
  simp [skip_sum]

theorem skip_src_sum_cons (i : Index) (rest : List Index) :
    skip_src_sum (i :: rest) = is_beatable.skip_src i + skip_src_sum rest := by
  simp [skip_src_sum]

theorem select_loop_acc_log (src : List Dim) :
    ∀ (idx : List Index) (dim : DimBuf) (d s : Nat) (o : Int) (dim1 : DimBuf) (acc : Accesses),
      select_loop_acc src idx dim d s = .ok (o, dim1, acc) →
      acc.writes = span d (skip_sum idx) ∧ acc.reads = span s (skip_src_sum idx)
        ∧ ∀ r ∈ acc.reads, r < (src.length : Int) := by
  intro idx
  induction idx with
  | nil =>
    intro dim d s o dim1 acc h
    simp only [select_loop_acc, Except.ok.injEq, Prod.mk.injEq] at h
    rw [← h.2.2]
    exact ⟨rfl, rfl, by simp⟩
  | cons i rest ih =>
    intro dim d s o dim1 acc h
    rw [skip_sum_cons, skip_src_sum_cons]
    cases i with
    | int i =>
      simp only [select_loop_acc, select_int_acc, bind, Except.bind] at h
      cases hx : rd src s with
      | error e => rw [hx] at h; cases h
      | ok x =>
        rw [hx] at h
        simp only at h
        by_cases hi : inside i x.size = true
        · rw [if_pos hi] at h
          simp only at h
          cases hr : select_loop_acc src rest dim (d + is_beatable.skip (.int i))
              (s + is_beatable.skip_src (.int i)) with
          | error e => rw [hr] at h; cases h
          | ok r =>
            obtain ⟨o2, dim2, acc2⟩ := r
            rw [hr] at h
            simp only [Except.ok.injEq, Prod.mk.injEq] at h
            obtain ⟨h1, h2, h3⟩ := ih _ _ _ _ _ _ hr
            have hs := rd_lt hx
            rw [← h.2.2]
            simp only [is_beatable.skip, is_beatable.skip_src, Nat.add_zero] at h1 h2 ⊢
            refine ⟨?_, ?_, ?_⟩
            · simp only [Accesses.append, List.nil_append, h1, Nat.zero_add]
            · simp only [Accesses.append, h2, List.singleton_append]
              rw [Nat.add_comm 1, span_succ]
            · intro r hr
              simp only [Accesses.append, List.singleton_append] at hr
              rcases List.mem_cons.1 hr with e | e
              · rw [e]; exact_mod_cast hs
              · exact h3 r e
        · rw [if_neg hi] at h; cases h
    | iota i =>
      simp only [select_loop_acc, select_iota_acc, bind, Except.bind] at h
      cases hx : rd src s with
      | error e => rw [hx] at h; cases h
      | ok x =>
        rw [hx] at h
        simp only at h
        by_cases hi : ((inside i.i_ x.size && inside (i.i_ + (i.size_ - 1) * i.stride_) x.size)
            || (decide (i.size_ = 0) && decide (i.i_ ≤ x.size))) = true
        · rw [if_pos hi] at h
          cases hw : wr dim d (some { size := i.size_, stride := x.stride * i.stride_ }) with
          | error e => rw [hw] at h; cases h
          | ok dimw =>
            rw [hw] at h
            simp only at h
            cases hr : select_loop_acc src rest dimw (d + is_beatable.skip (.iota i))
                (s + is_beatable.skip_src (.iota i)) with
            | error e => rw [hr] at h; cases h
            | ok r =>
              obtain ⟨o2, dim2, acc2⟩ := r
              rw [hr] at h
              simp only [Except.ok.injEq, Prod.mk.injEq] at h
              obtain ⟨h1, h2, h3⟩ := ih _ _ _ _ _ _ hr
              have hs := rd_lt hx
              rw [← h.2.2]
              simp only [is_beatable.skip, is_beatable.skip_src] at h1 h2 ⊢
              refine ⟨?_, ?_, ?_⟩
              · simp only [Accesses.append, h1, List.singleton_append]
                rw [Nat.add_comm 1, span_succ]
              · simp only [Accesses.append, h2, List.singleton_append]
                rw [Nat.add_comm 1, span_succ]
              · intro r hr
                simp only [Accesses.append, List.singleton_append] at hr
                rcases List.mem_cons.1 hr with e | e
                · rw [e]; exact_mod_cast hs
                · exact h3 r e
        · rw [if_neg hi] at h; cases h
    | dots n =>
      simp only [select_loop_acc, bind, Except.bind] at h
      cases hd : dots_loop_acc src n dim d s with
      | error e => rw [hd] at h; cases h
      | ok r0 =>
        obtain ⟨dimd, accd⟩ := r0
        rw [hd] at h
        simp only at h
        cases hr : select_loop_acc src rest dimd (d + n) (s + n) with
        | error e => rw [hr] at h; cases h
        | ok r =>
          obtain ⟨o2, dim2, acc2⟩ := r
          rw [hr] at h
          simp only [Except.ok.injEq, Prod.mk.injEq] at h
          obtain ⟨h1, h2, h3⟩ := ih _ _ _ _ _ _ hr
          obtain ⟨g1, g2, g3⟩ := dots_loop_acc_log src n dim d s dimd accd hd
          rw [← h.2.2]
          simp only [is_beatable.skip, is_beatable.skip_src]
          refine ⟨?_, ?_, ?_⟩
          · simp only [Accesses.append, h1, g1, span_append]
          · simp only [Accesses.append, h2, g2, span_append]
          · intro r hr
            simp only [Accesses.append] at hr
            rcases List.mem_append.1 hr with e | e
            · exact g3 r e
            · exact h3 r e
    | insert n =>
      simp only [select_loop_acc, bind, Except.bind] at h
      cases hd : insert_loop_acc n dim d with
      | error e => rw [hd] at h; cases h
      | ok r0 =>
        obtain ⟨dimd, accd⟩ := r0
        rw [hd] at h
        simp only at h
        cases hr : select_loop_acc src rest dimd (d + n) s with
        | error e => rw [hr] at h; cases h
        | ok r =>
          obtain ⟨o2, dim2, acc2⟩ := r
          rw [hr] at h
          simp only [Except.ok.injEq, Prod.mk.injEq] at h
          obtain ⟨h1, h2, h3⟩ := ih _ _ _ _ _ _ hr
          obtain ⟨g1, g2⟩ := insert_loop_acc_log n dim d dimd accd hd
          rw [← h.2.2]
          simp only [is_beatable.skip, is_beatable.skip_src, Nat.zero_add]
          refine ⟨?_, ?_, ?_⟩
          · simp only [Accesses.append, h1, g1, span_append]
          · simp only [Accesses.append, h2, g2, List.nil_append]
          · intro r hr
            simp only [Accesses.append, g2, List.nil_append] at hr
            exact h3 r hr

theorem fill_rest_acc_log (src : List Dim) (ext : Int) :
    ∀ (n c : Nat) (sub sub1 : DimBuf) (acc : Accesses),
      fill_rest_acc src ext n (c : Int) sub = .ok (sub1, acc) →
      acc.writes = span c n ∧ ∀ r ∈ acc.reads, 0 ≤ r ∧ r < (src.length : Int) := by
  intro n
  induction n with
  | zero =>
    intro c sub sub1 acc h
    simp only [fill_rest_acc, Except.ok.injEq, Prod.mk.injEq] at h
    rw [← h.2]
    exact ⟨rfl, by simp⟩
  | succ n ih =>
    intro c sub sub1 acc h
    simp only [fill_rest_acc, bind, Except.bind] at h
    cases hx : rdI src ((c : Int) - ext) with
    | error e => rw [hx] at h; cases h
    | ok x =>
      rw [hx] at h
      simp only at h
      cases hw : wrI sub (c : Int) (some x) with
      | error e => rw [hw] at h; cases h
      | ok subw =>
        rw [hw] at h
        simp only at h
        have hc1 : ((c : Int) + 1) = ((c + 1 : Nat) : Int) := by push_cast; rfl
        rw [hc1] at h
        cases hr : fill_rest_acc src ext n ((c + 1 : Nat) : Int) subw with
        | error e => rw [hr] at h; cases h
        | ok r =>
          obtain ⟨sub2, acc2⟩ := r
          rw [hr] at h
          simp only [Except.ok.injEq, Prod.mk.injEq] at h
          obtain ⟨h1, h2⟩ := ih (c + 1) subw sub2 acc2 hr
          have hb : 0 ≤ (c : Int) - ext ∧ (c : Int) - ext < (src.length : Int) := by
            unfold rdI at hx
            split at hx
            · cases hx
            · have := rd_lt hx
              omega
          rw [← h.2]
          refine ⟨by simp only [h1, span_succ], ?_⟩
          intro r hr
          rcases List.mem_cons.1 hr with e | e
          · rw [e]; exact hb
          · exact h2 r e

theorem subscript_core_acc_beat (v : View) (idx : List Index) (o : Int) (out rem : List Dim)
    (hb : beat v.dim idx = some (o, out, rem)) :
    ∃ acc : Accesses,
      subscript_core_acc v idx (v.rank + extended idx) = .ok (o, (out ++ rem).map some, acc)
      ∧ acc.writes = upto (v.rank + extended idx)
      ∧ ∀ r ∈ acc.reads, 0 ≤ r ∧ r < v.rank := by
  obtain ⟨hrank, hcore⟩ := subscript_core_beat v idx o out rem hb
  obtain ⟨hout, -, -⟩ := beat_facts idx v.dim o out rem hb
  have her := subscript_core_acc_erase v idx (v.rank + extended idx)
  rw [hcore] at her
  cases hacc : subscript_core_acc v idx (v.rank + extended idx) with
  | error e => rw [hacc] at her; cases her
  | ok r =>
    obtain ⟨o1, buf1, acc⟩ := r
    rw [hacc] at her
    simp only [Except.map, Except.ok.injEq, Prod.mk.injEq] at her
    obtain ⟨ho, hbuf⟩ := her
    subst ho hbuf
    refine ⟨acc, rfl, ?_⟩
    simp only [subscript_core_acc, bind, Except.bind] at hacc
    cases hs : select_loop_acc v.dim idx (List.replicate (v.rank + extended idx).toNat none) 0 0 with
    | error e => rw [hs] at hacc; cases hacc
    | ok rs =>
      obtain ⟨os, subs, accs⟩ := rs
      rw [hs] at hacc
      simp only at hacc
      cases hf : fill_rest_acc v.dim (extended idx)
          (v.rank + extended idx - (skip_sum idx : Int)).toNat (skip_sum idx : Int) subs with
      | error e => rw [hf] at hacc; cases hacc
      | ok rf =>
        obtain ⟨subf, accf⟩ := rf
        rw [hf] at hacc
        simp only [Except.ok.injEq, Prod.mk.injEq] at hacc
        obtain ⟨h1, h2, h3⟩ := select_loop_acc_log v.dim idx _ 0 0 os subs accs hs
        obtain ⟨g1, g2⟩ := fill_rest_acc_log v.dim (extended idx) _ (skip_sum idx) subs subf accf hf
        rw [← hacc.2.2]
        have hk : skip_sum idx + (v.rank + extended idx - (skip_sum idx : Int)).toNat
            = (out ++ rem).length := by
          rw [hrank, ← hout]
          simp only [List.length_append, Nat.cast_add]
          omega
        constructor
        · simp only [Accesses.append, h1, g1]
          have := span_append (skip_sum idx) 0
            (v.rank + extended idx - (skip_sum idx : Int)).toNat
          rw [Nat.zero_add] at this
          rw [this, hk, span_eq_upto, hrank]
        · intro r hr
          simp only [Accesses.append] at hr
          rcases List.mem_append.1 hr with e | e
          · refine ⟨?_, h3 r e⟩
            rw [h2] at e
            simp only [span, List.mem_map, List.mem_range'_1] at e
            obtain ⟨x, -, hx⟩ := e
            rw [← hx]
            exact Int.ofNat_nonneg x
          · exact g2 r e

/-- C38: for a view of run-time rank `r` and a list of accepted beatable subscripts that
consumes at most `r` source dimensions, `select_loop` followed by the copy loop of
`View::operator()` reads source dimensions at positions in `[0, r)` only and writes the
positions `0, 1, ..., n-1` of the result dope vector, of length `n = r - integers + inserted`,
each exactly once and none outside; every entry of the result is a written one. -/
theorem subscript_writes_once :
    (∀ (v : View) (idx : List Index) (o : Int) (out rem : List Dim),
      beat v.dim idx = some (o, out, rem) →
        ∃ acc : Accesses,
          subscript_core_acc v idx (v.rank + extended idx) = .ok (o, (out ++ rem).map some, acc)
          ∧ acc.writes = upto (v.rank + extended idx)
          ∧ (∀ k : Int, 0 ≤ k → k < v.rank + extended idx → acc.writes.count k = 1)
          ∧ (∀ k ∈ acc.writes, 0 ≤ k ∧ k < v.rank + extended idx)
          ∧ (∀ r ∈ acc.reads, 0 ≤ r ∧ r < v.rank)
          ∧ v.rank + extended idx = v.rank - num_int idx + num_inserted idx
          ∧ v.rank + extended idx = ((out ++ rem).length : Int)
          ∧ v.call idx = .ok ⟨out ++ rem, v.p + o⟩)
    ∧ (∀ (v : View) (idx : List Index) (subrank : Int),
        (subscript_core_acc v idx subrank).map (fun r => (r.1, r.2.1))
          = subscript_core v idx subrank)
    ∧ subscript_core_acc ⟨[⟨3, 8⟩, ⟨4, 2⟩, ⟨2, 1⟩, ⟨5, 40⟩], 0⟩
          [.insert 1, .int 2, .iota ⟨1, 2, 1⟩] 4
        = .ok (18, [some ⟨DIM_BAD, 0⟩, some ⟨2, 2⟩, some ⟨2, 1⟩, some ⟨5, 40⟩],
            ⟨[0, 1, 2, 3], [0, 1, 2, 3]⟩) := by
  refine ⟨?_, subscript_core_acc_erase, by decide⟩
  intro v idx o out rem hb
  obtain ⟨acc, h1, h2, h3⟩ := subscript_core_acc_beat v idx o out rem hb
  obtain ⟨hrank, -⟩ := subscript_core_beat v idx o out rem hb
  refine ⟨acc, h1, h2, ?_, ?_, h3, ?_, hrank, (call_beat v idx o out rem hb).1⟩
  · intro k hk0 hk1
    rw [h2]
    exact List.count_eq_one_of_mem (nodup_upto _) ((mem_upto _ _).2 ⟨hk0, hk1⟩)
  · intro k hk
    rw [h2] at hk
    exact (mem_upto _ _).1 hk
  · rw [extended_eq_count]; ring

theorem subscript_writes_once_witness :
    ∃ acc : Accesses,
      subscript_core_acc ⟨[⟨3, 8⟩, ⟨4, 2⟩, ⟨2, 1⟩], 7⟩ [.int 1, .dots 1, .insert 2]
          (View.rank (View.mk [⟨3, 8⟩, ⟨4, 2⟩, ⟨2, 1⟩] 7) + extended [.int 1, .dots 1, .insert 2])
        = .ok (8, (([⟨4, 2⟩, ⟨DIM_BAD, 0⟩, ⟨DIM_BAD, 0⟩] : List Dim) ++ ([⟨2, 1⟩] : List Dim)).map some, acc)
      ∧ acc.writes
        = upto (View.rank (View.mk [⟨3, 8⟩, ⟨4, 2⟩, ⟨2, 1⟩] 7) + extended [.int 1, .dots 1, .insert 2])
      ∧ (∀ k : Int, 0 ≤ k →
          k < View.rank (View.mk [⟨3, 8⟩, ⟨4, 2⟩, ⟨2, 1⟩] 7) + extended [.int 1, .dots 1, .insert 2] →
          acc.writes.count k = 1)
      ∧ (∀ k ∈ acc.writes, 0 ≤ k
          ∧ k < View.rank (View.mk [⟨3, 8⟩, ⟨4, 2⟩, ⟨2, 1⟩] 7) + extended [.int 1, .dots 1, .insert 2])
      ∧ (∀ r ∈ acc.reads, 0 ≤ r ∧ r < View.rank (View.mk [⟨3, 8⟩, ⟨4, 2⟩, ⟨2, 1⟩] 7))
      ∧ View.rank (View.mk [⟨3, 8⟩, ⟨4, 2⟩, ⟨2, 1⟩] 7) + extended [.int 1, .dots 1, .insert 2]
        = View.rank (View.mk [⟨3, 8⟩, ⟨4, 2⟩, ⟨2, 1⟩] 7) - num_int [.int 1, .dots 1, .insert 2]
          + num_inserted [.int 1, .dots 1, .insert 2]
      ∧ View.rank (View.mk [⟨3, 8⟩, ⟨4, 2⟩, ⟨2, 1⟩] 7) + extended [.int 1, .dots 1, .insert 2]
        = (((([⟨4, 2⟩, ⟨DIM_BAD, 0⟩, ⟨DIM_BAD, 0⟩] : List Dim) ++ ([⟨2, 1⟩] : List Dim)).length : Nat) : Int)
      ∧ View.call ⟨[⟨3, 8⟩, ⟨4, 2⟩, ⟨2, 1⟩], 7⟩ [.int 1, .dots 1, .insert 2]
        = .ok ⟨([⟨4, 2⟩, ⟨DIM_BAD, 0⟩, ⟨DIM_BAD, 0⟩] : List Dim) ++ ([⟨2, 1⟩] : List Dim), 7 + 8⟩ :=
  subscript_writes_once.1 ⟨[⟨3, 8⟩, ⟨4, 2⟩, ⟨2, 1⟩], 7⟩ [.int 1, .dots 1, .insert 2] 8
    [⟨4, 2⟩, ⟨DIM_BAD, 0⟩, ⟨DIM_BAD, 0⟩] [⟨2, 1⟩] (by decide)

end ra
